import Mathlib

/-!
The ovim editing core: buffer, cursor, selection and vi command engine.

A shallow embedding of the editing core of the `ovim` editor
(`ovim/buffer.go`, `emu/basic/cursor.go`, `novi/editor.go`,
`emu/vi/selection.go`, `emu/vi/vi.go`).

Conventions of the embedding.

* A Go `int` is an `Int`; a rune is a `Char`; a `Line` (`[]rune`) is a
  `List Char`, a `Buffer` holds a `List Line`.
* A Go run-time panic (index or slice bound out of range) is `none`: every
  operation that indexes or slices returns an `Option`.
* A slice is modelled twice.  `Buffer` holds the rune lists alone: that is
  what the code computes as long as no two lines share a backing array.
  `Mem.Buffer` holds the arrays and, per line, the window (array, offset,
  length) into them, with the in-place writes of `append`: that is the code
  also where lines share an array, as the two halves of a split line do.
  The section on the storage proves that the two agree on buffers whose lines
  have arrays of their own.
* A method with a pointer receiver that mutates its receiver becomes a
  function returning the new state.
-/

set_option autoImplicit false

namespace Ovim

/-! ## Go slice primitives -/

/-- Index expression `l[i]`: fails when `i` is negative or not below `len(l)`. -/
def index {α : Type} (l : List α) (i : Int) : Option α :=
  if 0 ≤ i then l[i.toNat]? else none

/-- Slice expression `l[i:]`: fails unless `0 ≤ i ≤ len(l)`. -/
def sliceFrom {α : Type} (l : List α) (i : Int) : Option (List α) :=
  if 0 ≤ i ∧ i ≤ (l.length : Int) then some (l.drop i.toNat) else none

/-- Slice expression `l[:i]`.  Go bounds `i` by the capacity of `l`; the
embedding keeps no capacity and bounds it by the length.  In every function
embedded here `l[:i]` (or `l[:i-1]`) is evaluated together with `l[i:]`,
whose bound is the length, so the statement as a whole fails in exactly the
same cases. -/
def sliceTo {α : Type} (l : List α) (i : Int) : Option (List α) :=
  if 0 ≤ i ∧ i ≤ (l.length : Int) then some (l.take i.toNat) else none

/-- Store `l[i] = v`: fails when `i` is out of range. -/
def store {α : Type} (l : List α) (i : Int) (v : α) : Option (List α) :=
  if 0 ≤ i ∧ i < (l.length : Int) then some (l.set i.toNat v) else none

/-! ## Data model (`ovim/buffer.go`) -/

/-- Type `Line []rune`. -/
abbrev Line := List Char

/-- Type `Buffer struct { Lines []Line }`. -/
structure Buffer where
  Lines : List Line
deriving DecidableEq, Repr

/-- A cursor: the fields `Line` and `Pos` read by the buffer operations. -/
structure Cursor where
  Line : Int
  Pos : Int
deriving DecidableEq, Repr

/-- Type `Cursors`: the ordered cursor list ranged over by the buffer operations. -/
abbrev Cursors := List Cursor

/-- `Buffer.Length`. -/
def Buffer.Length (b : Buffer) : Int := (b.Lines.length : Int)

/-- A cursor is valid in a buffer: `0 ≤ Line < len(Lines)` and
`0 ≤ Pos ≤ len(Lines[Line])`. -/
def Cursor.Valid (b : Buffer) (c : Cursor) : Prop :=
  0 ≤ c.Line ∧ c.Line < b.Length ∧ 0 ≤ c.Pos ∧
    c.Pos ≤ (((index b.Lines c.Line).getD []).length : Int)

instance (b : Buffer) (c : Cursor) : Decidable (c.Valid b) := by
  unfold Cursor.Valid; infer_instance

/-! ## Buffer mutation (`ovim/buffer.go`) -/

/-- One iteration of the loop of `Buffer.PutRuneAtCursors`, on rune lists: the
content the statement gives the line, seen through that line only.  This is
the whole effect when the array of the line is shared with no other line;
`Mem.Buffer.putRuneAt` is the statement with the in-place write of `append`. -/
def Buffer.putRuneAt (r : Char) (b : Buffer) (c : Cursor) : Option Buffer := do
  let line ← index b.Lines c.Line
  let pre ← sliceTo line c.Pos
  let post ← sliceFrom line c.Pos
  let lines ← store b.Lines c.Line (pre ++ ([r] ++ post))
  pure { Lines := lines }

/-- `Buffer.PutRuneAtCursors` on rune lists: the cursors are only read. -/
def Buffer.PutRuneAtCursors (b : Buffer) (cs : Cursors) (r : Char) : Option Buffer :=
  cs.foldlM (Buffer.putRuneAt r) b

/-- One iteration of the loop of `Buffer.RemoveRuneBeforeCursors`, on rune
lists: the content the statement gives the line, seen through that line only.
This is the whole effect when the array of the line is shared with no other
line; `Mem.Buffer.removeRuneBefore` is the statement with the in-place write
of `append`. -/
def Buffer.removeRuneBefore (b : Buffer) (c : Cursor) : Option Buffer :=
  if c.Pos > 0 then do
    let line ← index b.Lines c.Line
    let pre ← sliceTo line (c.Pos - 1)
    let post ← sliceFrom line c.Pos
    let lines ← store b.Lines c.Line (pre ++ post)
    pure { Lines := lines }
  else some b

/-- `Buffer.RemoveRuneBeforeCursors` on rune lists. -/
def Buffer.RemoveRuneBeforeCursors (b : Buffer) (cs : Cursors) : Option Buffer :=
  cs.foldlM Buffer.removeRuneBefore b

/-- The loop of `Buffer.SplitLines`, with the running `linesAdded`.  The Go
variable named `after` is the text before the cursor and `before` the text
from the cursor on. -/
def Buffer.splitLoop : List Line → Int → List Cursor → Option (List Line)
  | lines, _, [] => some lines
  | lines, linesAdded, c :: cs => do
    let line ← index lines (c.Line + linesAdded)
    let before ← sliceFrom line c.Pos
    let after ← sliceTo line c.Pos
    let head ← sliceTo lines (c.Line + linesAdded)
    let tail ← sliceFrom lines (c.Line + linesAdded + 1)
    Buffer.splitLoop (head ++ ([after, before] ++ tail)) (linesAdded + 1) cs

/-- `Buffer.SplitLines`. -/
def Buffer.SplitLines (b : Buffer) (cs : Cursors) : Option Buffer :=
  (Buffer.splitLoop b.Lines 0 cs).map fun ls => { Lines := ls }

/-- The line the specification of PutRuneAtCursors describes: walking the
line from index `i`, one `r` is put immediately before every index that occurs
in `ps` (the index one past the last rune included). -/
def insertBeforeEach (r : Char) (ps : List Int) : Int → Line → Line
  | i, [] => if i ∈ ps then [r] else []
  | i, x :: xs => (if i ∈ ps then [r] else []) ++ x :: insertBeforeEach r ps (i + 1) xs

/-- The buffer the specification of PutRuneAtCursors describes: in line `j`,
one `r` before each original index at which a cursor of line `j` stands. -/
def PutRuneSpec (r : Char) (cs : Cursors) (lines : List Line) : List Line :=
  lines.mapIdx fun j l =>
    insertBeforeEach r ((cs.filter fun c => decide (c.Line = (j : Int))).map Cursor.Pos) 0 l

/-! ## Cursor movement (`emu/basic/cursor.go`) -/

/-- The constants of `ovim.CursorDirection` that `Move` switches on. -/
inductive CursorDirection where
  | CursorUp
  | CursorDown
  | CursorLeft
  | CursorRight
  | CursorBegin
  | CursorEnd
deriving DecidableEq, Repr

/-- Expression `len(b.Lines[i])`. -/
def Buffer.lineLen (b : Buffer) (i : Int) : Option Int :=
  (index b.Lines i).map fun l => (l.length : Int)

/-- `Move` of package basicemu: the cursor after the movement; the buffer is
only read. -/
def Move (b : Buffer) (c : Cursor) (movement : CursorDirection) : Option Cursor :=
  match movement with
  | .CursorUp =>
    if c.Line > 0 then do
      let n ← b.lineLen (c.Line - 1)
      pure { Line := c.Line - 1, Pos := if c.Pos > n then n else c.Pos }
    else some c
  | .CursorDown =>
    if c.Line < b.Length - 1 then do
      let n ← b.lineLen (c.Line + 1)
      pure { Line := c.Line + 1, Pos := if c.Pos > n then n else c.Pos }
    else some c
  | .CursorLeft =>
    if c.Pos > 0 then some { c with Pos := c.Pos - 1 }
    else if c.Line > 0 then do
      let n ← b.lineLen (c.Line - 1)
      pure { Line := c.Line - 1, Pos := n }
    else some c
  | .CursorRight => do
    let n ← b.lineLen c.Line
    if c.Pos < n then pure { c with Pos := c.Pos + 1 }
    else if c.Line < b.Length - 1 then pure { Line := c.Line + 1, Pos := 0 }
    else pure c
  | .CursorBegin => some { c with Pos := 0 }
  | .CursorEnd => do
    let n ← b.lineLen c.Line
    pure { c with Pos := n }

/-! ## Selection (`novi/editor.go`) -/

/-- Type `Selection`; the field `end` of the source is `end_` here. -/
structure Selection where
  start : Cursor
  end_ : Cursor
  block : Bool
  enabled : Bool
deriving DecidableEq, Repr

/-- `Selection.SetStart`. -/
def Selection.SetStart (s : Selection) (c : Cursor) : Selection := { s with start := c }

/-- `Selection.SetEnd`. -/
def Selection.SetEnd (s : Selection) (c : Cursor) : Selection := { s with end_ := c }

/-- `Selection.SetBlock`. -/
def Selection.SetBlock (s : Selection) (b : Bool) : Selection := { s with block := b }

/-- `Selection.Enable`. -/
def Selection.Enable (s : Selection) : Selection := { s with enabled := true }

/-- `Selection.Disable`. -/
def Selection.Disable (s : Selection) : Selection := { s with enabled := false }

/-- `Selection.InSelection`. -/
def Selection.InSelection (s : Selection) (line pos : Int) : Bool :=
  if !s.enabled then false
  else if decide (line < s.start.Line) || (decide (line = s.start.Line) && decide (pos < s.start.Pos))
    then false
  else if decide (line > s.end_.Line) || (decide (line = s.end_.Line) && decide (pos > s.end_.Pos))
    then false
  else if s.block then
    if pos < s.start.Pos then false
    else if pos > s.end_.Pos then false
    else true
  else true

/-- Type `Editor`.  `Modified` is the flag the sources read as
`Editor.Buffer.Modified`; the `Buffer` of `ovim/buffer.go` declares only
`Lines`, so the flag is kept beside it. -/
structure Editor where
  filename : String
  Buffer : Buffer
  Modified : Bool
  Cursors : Cursors
  Selection : Selection
deriving DecidableEq, Repr

/-! ## Events (package ovim, used by `emu/vi/vi.go`) -/

/-- The key constants the sources name; `KeyNone` is the zero value of the
`Key` field of a key event built without a key. -/
inductive KeyType where
  | KeyNone
  | KeyEscape
  | KeyLeft
  | KeyRight
  | KeyUp
  | KeyDown
  | KeyHome
  | KeyEnd
  | KeyBackspace
  | KeyDelete
  | KeyEnter
deriving DecidableEq, Repr

/-- The two input events: `KeyEvent{Modifier, Key, Rune}` and
`CharacterEvent{Rune}`. -/
inductive Event where
  | KeyEvent (Modifier : Int) (Key : KeyType) (Rune : Char)
  | CharacterEvent (Rune : Char)
deriving DecidableEq, Repr

/-- The zero rune of a composite literal such as `CharacterEvent{}`. -/
def zeroRune : Char := Char.ofNat 0

/-- Modelled from the spec: `Event.Equals` is not in the sources.  A rule is
"bound to one input event or a set of alternatives": two key events are equal
when key and modifier agree, two character events when the runes agree, and
the table entry `CharacterEvent{}` (zero rune), the "generic fallthrough" of
`NewVi`, stands for every character event.  An absent entry (`nil`) equals
nothing. -/
def Event.Equals (ev : Event) (entry : Option Event) : Bool :=
  match ev, entry with
  | .KeyEvent m k _, some (.KeyEvent m2 k2 _) => decide (m = m2) && decide (k = k2)
  | .CharacterEvent r, some (.CharacterEvent r2) => decide (r2 = zeroRune) || decide (r = r2)
  | _, _ => false

/-! ## The vi emulation state (`emu/vi/vi.go`, `emu/vi/selection.go`) -/

/-- Type `ViMode`. -/
inductive ViMode where
  | ModeAny
  | ModeEdit
  | ModeCommand
deriving DecidableEq, Repr

/-- The selection shapes `em.Selection` ranges over in `selection.go`. -/
inductive SelectionType where
  | SelectionNone
  | SelectionLines
  | SelectionBlock
  | SelectionFluid
deriving DecidableEq, Repr

/-- Type `Vi`: the fields declared in `vi.go` and the three selection fields
used by `selection.go`.  The dispatch table is the constant `dispatchTable`. -/
structure Vi where
  Editor : Editor
  Mode : ViMode
  CommandBuffer : String
  Counter : Int
  Selection : SelectionType
  SelectionStart : Cursor
  SelectionEnd : Cursor
deriving DecidableEq, Repr

/-- Modelled from the spec: `Buffer.GetLine` and `Line.Len` are not in the
sources; `GetLine(i)` is a "bounds-safe read" for which an out-of-range index
"yields an empty result". -/
def Buffer.GetLine (b : Buffer) (i : Int) : Line := (index b.Lines i).getD []

/-! ### Selection (`emu/vi/selection.go`) -/

/-- `Vi.UpdateSelection`.  The `switch` falls through from `SelectionLines`
to `SelectionBlock` to `SelectionFluid`. -/
def Vi.UpdateSelection (em : Vi) : Option Vi :=
  if em.Selection ≠ .SelectionNone then do
    let c0 ← index em.Editor.Cursors 0
    let s := em.SelectionStart
    let e := c0
    let swap : Bool := decide (e.Line < s.Line) || (decide (e.Line = s.Line) && decide (e.Pos < s.Pos))
    let s1 := if swap then e else s
    let e1 := if swap then s else e
    let sel := em.Editor.Selection
    let sel2 :=
      match em.Selection with
      | .SelectionLines =>
        ((sel.SetBlock true).SetStart { s1 with Pos := 0 }).SetEnd
          { e1 with Pos := ((em.Editor.Buffer.GetLine e1.Line).length : Int) - 1 }
      | .SelectionBlock => ((sel.SetBlock true).SetStart s1).SetEnd e1
      | .SelectionFluid => (sel.SetStart s1).SetEnd e1
      | .SelectionNone => sel
    pure { em with SelectionEnd := c0, Editor := { em.Editor with Selection := sel2 } }
  else some em

/-- `Vi.StartSelection`. -/
def Vi.StartSelection (em : Vi) : Option Vi := do
  let c0 ← index em.Editor.Cursors 0
  let em1 := { em with SelectionStart := c0 }
  let em2 := { em1 with Editor := { em1.Editor with Selection := em1.Editor.Selection.Enable } }
  em2.UpdateSelection

/-- `Vi.CancelSelection`. -/
def Vi.CancelSelection (em : Vi) : Vi :=
  { em with Selection := .SelectionNone,
            Editor := { em.Editor with Selection := em.Editor.Selection.Disable } }

/-- `Vi.HandleSelectionBlock`. -/
def Vi.HandleSelectionBlock (em : Vi) (_ev : Event) : Option (Bool × Vi) := do
  let em2 ← Vi.StartSelection { em with Selection := .SelectionBlock }
  pure (true, em2)

/-- `Vi.HandleSelectionFluid`. -/
def Vi.HandleSelectionFluid (em : Vi) (_ev : Event) : Option (Bool × Vi) := do
  let em2 ← Vi.StartSelection { em with Selection := .SelectionFluid }
  pure (true, em2)

/-- `Vi.HandleSelectionLines`. -/
def Vi.HandleSelectionLines (em : Vi) (_ev : Event) : Option (Bool × Vi) := do
  let em2 ← Vi.StartSelection { em with Selection := .SelectionLines }
  pure (true, em2)

/-- The primary cursor set to `c` (an assignment through `Cursors[0]`). -/
def Vi.setPrimary (em : Vi) (c : Cursor) : Option Vi := do
  let cs ← store em.Editor.Cursors 0 c
  pure { em with Editor := { em.Editor with Cursors := cs } }

/-! ### Command engine (`emu/vi/vi.go`) -/

/-- `NewVi`: command mode, every other field at its zero value. -/
def NewVi (e : Editor) : Vi :=
  { Editor := e, Mode := .ModeCommand, CommandBuffer := "", Counter := 0,
    Selection := .SelectionNone, SelectionStart := ⟨0, 0⟩, SelectionEnd := ⟨0, 0⟩ }

/-- The functions `vi.go` calls that are not in the sources, taken as
parameters: the package-level `Move(c, dir)` and `MoveMany(c, dir, n)` of
viemu, `Buffer.InsertLine`, `Buffer.RemoveCharacters`, `Vi.MoveCursorRune` and
`Vi.HandleMoveCursors`. -/
structure ViEnv where
  Move : Buffer → Cursor → CursorDirection → Cursor
  MoveMany : Buffer → Cursor → CursorDirection → Int → Cursor
  InsertLine : Buffer → Cursor → Line → Bool → Buffer
  RemoveCharacters : Buffer → Cursor → Bool → Int → Buffer
  MoveCursorRune : Vi → Char → Int → Vi
  HandleMoveCursors : Vi → Event → Bool × Vi

/-- The alphabet `commands` of `HandleCommandBuffer`. -/
def commands : String := "hjklxXdwc0123456789"

/-- `Vi.HandleCommandBuffer`: the type assertion fails on a key event. -/
def Vi.HandleCommandBuffer (em : Vi) (ev : Event) : Option (Bool × Vi) :=
  match ev with
  | .CharacterEvent r =>
    if commands.data.contains r then
      some (true, { em with CommandBuffer := em.CommandBuffer ++ String.singleton r })
    else some (false, em)
  | .KeyEvent _ _ _ => none

/-- `Vi.HandleCommandClear`. -/
def Vi.HandleCommandClear (em : Vi) (_ev : Event) : Option (Bool × Vi) :=
  some (true, { em with CommandBuffer := "" })

/-- The loop of `Vi.RemoveCharacters` over the cursors: each cursor sees the
buffer left by the cursors before it. -/
def Vi.removeLoop (env : ViEnv) (howmany : Int) (before : Bool) :
    Buffer → List Cursor → Buffer × List Cursor
  | b, [] => (b, [])
  | b, c :: cs =>
    let b1 := env.RemoveCharacters b c before howmany
    let c1 := if before then env.MoveMany b1 c .CursorLeft howmany else c
    let r := Vi.removeLoop env howmany before b1 cs
    (r.1, c1 :: r.2)

/-- `Vi.RemoveCharacters`. -/
def Vi.RemoveCharacters (env : ViEnv) (em : Vi) (howmany : Int) (before : Bool) : Vi :=
  let r := Vi.removeLoop env howmany before em.Editor.Buffer em.Editor.Cursors
  { em with Editor := { em.Editor with Buffer := r.1, Cursors := r.2 } }

/-- `Vi.HandleToModeEdit`: the mode is set first; the event must be a
character event and the primary cursor must exist. -/
def Vi.HandleToModeEdit (env : ViEnv) (em : Vi) (ev : Event) : Option (Bool × Vi) :=
  let em1 := { em with Mode := .ModeEdit }
  match ev with
  | .KeyEvent _ _ _ => none
  | .CharacterEvent r => do
    let first ← index em1.Editor.Cursors 0
    let b := em1.Editor.Buffer
    let upd : Buffer × Cursor :=
      if r = 'i' then (b, first)
      else if r = 'I' then (b, env.Move b first .CursorBegin)
      else if r = 'o' then
        let b1 := env.InsertLine b first [] false
        (b1, env.Move b1 first .CursorDown)
      else if r = 'O' then
        let b1 := env.InsertLine b first [] true
        (b1, env.Move b1 first .CursorBegin)
      else if r = 'a' then (b, env.Move b first .CursorRight)
      else if r = 'A' then (b, env.Move b first .CursorEnd)
      else (b, first)
    pure (true, { em1 with Editor :=
      { em1.Editor with Buffer := upd.1, Cursors := em1.Editor.Cursors.set 0 upd.2 } })

/-- `Vi.HandleToModeCommand`. -/
def Vi.HandleToModeCommand (em : Vi) (_ev : Event) : Option (Bool × Vi) :=
  some (true, { em with Mode := .ModeCommand })

/-- `Vi.HandleAnyRune`. -/
def Vi.HandleAnyRune (env : ViEnv) (em : Vi) (ev : Event) : Option (Bool × Vi) :=
  match ev with
  | .KeyEvent _ _ _ => none
  | .CharacterEvent r => do
    let b ← em.Editor.Buffer.PutRuneAtCursors em.Editor.Cursors r
    let cs := em.Editor.Cursors.map fun c => env.Move b c .CursorRight
    pure (true, { em with Editor := { em.Editor with Buffer := b, Cursors := cs } })

/-- Value of a run of decimal digits. -/
def digitsValue (ds : List Char) : Int :=
  ds.foldl (fun acc d => acc * 10 + ((d.toNat - '0'.toNat : Nat) : Int)) 0

/-- Modelled from the spec: `ParseCommand` is not in the sources.  "Leading
digits form the count, defaulting to 1 when absent; a leading 0 with no prior
nonzero digit is itself the move-to-line-start command, not a count digit";
what follows the count is the command. -/
def ParseCommand (s : String) : Int × String :=
  match s.data with
  | '0' :: _ => (1, s)
  | cs =>
    let ds := cs.takeWhile Char.isDigit
    (if ds = [] then 1 else digitsValue ds, String.mk (cs.dropWhile Char.isDigit))

/-- `Vi.CheckExecuteCommandBuffer`. -/
def Vi.CheckExecuteCommandBuffer (env : ViEnv) (em : Vi) : Vi :=
  let p := ParseCommand em.CommandBuffer
  let count := p.1
  let command := p.2
  if command = "h" ∨ command = "j" ∨ command = "k" ∨ command = "l" then
    { env.MoveCursorRune em (command.data.headD zeroRune) count with CommandBuffer := "" }
  else if command = "x" ∨ command = "X" then
    { Vi.RemoveCharacters env em count (decide (command = "X")) with CommandBuffer := "" }
  else em

/-- Type `Dispatch`; the handler is a method value bound to the emulation, so
it takes the state it acts on. -/
structure Dispatch where
  Mode : ViMode
  Event : Option Ovim.Event
  Events : List Ovim.Event
  Handler : Vi → Ovim.Event → Option (Bool × Vi)

/-- The test `d.Mode == ModeAny || d.Mode == mode` of `Dispatch.Do`. -/
def Dispatch.modeOk (d : Dispatch) (mode : ViMode) : Bool :=
  decide (d.Mode = .ModeAny) || decide (d.Mode = mode)

/-- `Dispatch.Do`: the single event is tried first and the handler gets the
incoming event; then the alternatives in order, the handler getting the table
entry that matched. -/
def Dispatch.Do (d : Dispatch) (em : Vi) (event : Ovim.Event) (mode : ViMode) :
    Option (Bool × Vi) :=
  if event.Equals d.Event && d.modeOk mode then d.Handler em event
  else
    match d.Events.find? (fun e => event.Equals (some e) && d.modeOk mode) with
    | some e => d.Handler em e
    | none => some (false, em)

/-- The dispatch table built by `NewVi`. -/
def dispatchTable (env : ViEnv) : List Dispatch :=
  [ { Mode := .ModeEdit, Event := some (.KeyEvent 0 .KeyEscape zeroRune), Events := [],
      Handler := Vi.HandleToModeCommand },
    { Mode := .ModeCommand, Event := some (.KeyEvent 0 .KeyEscape zeroRune), Events := [],
      Handler := Vi.HandleCommandClear },
    { Mode := .ModeCommand, Event := none,
      Events := [.CharacterEvent 'i', .CharacterEvent 'I', .CharacterEvent 'o',
                 .CharacterEvent 'O', .CharacterEvent 'a', .CharacterEvent 'A'],
      Handler := Vi.HandleToModeEdit env },
    { Mode := .ModeAny, Event := none,
      Events := [.KeyEvent 0 .KeyLeft zeroRune, .KeyEvent 0 .KeyRight zeroRune,
                 .KeyEvent 0 .KeyUp zeroRune, .KeyEvent 0 .KeyDown zeroRune,
                 .KeyEvent 0 .KeyEnd zeroRune, .KeyEvent 0 .KeyHome zeroRune],
      Handler := fun em ev => some (env.HandleMoveCursors em ev) },
    { Mode := .ModeCommand, Event := some (.CharacterEvent zeroRune), Events := [],
      Handler := Vi.HandleCommandBuffer },
    { Mode := .ModeEdit, Event := some (.CharacterEvent zeroRune), Events := [],
      Handler := Vi.HandleAnyRune env } ]

/-- The loop of `Vi.HandleEvent` over the dispatch table: the first rule whose
handler reports true ends it, after `CheckExecuteCommandBuffer`. -/
def Vi.handleLoop (env : ViEnv) : List Dispatch → Vi → Event → Option (Bool × Vi)
  | [], em, _ => some (false, em)
  | d :: ds, em, event =>
    match d.Do em event em.Mode with
    | none => none
    | some (true, em1) => some (true, Vi.CheckExecuteCommandBuffer env em1)
    | some (false, em1) => Vi.handleLoop env ds em1 event

/-- `Vi.HandleEvent`. -/
def Vi.HandleEvent (env : ViEnv) (em : Vi) (event : Event) : Option (Bool × Vi) :=
  Vi.handleLoop env (dispatchTable env) em event

/-- A sequence of events fed to `HandleEvent` one after the other: the state
after the last one, whatever each call reported. -/
def Vi.feed (env : ViEnv) : Vi → List Event → Option Vi
  | em, [] => some em
  | em, ev :: evs => (Vi.HandleEvent env em ev).bind fun r => Vi.feed env r.2 evs

/-! ### An instance of the missing functions -/

/-- Modelled from the spec: `Move` of the vi emulation is not in the sources;
§4.2 describes the movement of `Move`, which leaves the cursor alone where no
move is possible. -/
def specMove (b : Buffer) (c : Cursor) (d : CursorDirection) : Cursor :=
  (Move b c d).getD c

/-- Modelled from the spec: `MoveMany` "repeats Move up to count times". -/
def specMoveMany (b : Buffer) (c : Cursor) (d : CursorDirection) (n : Int) : Cursor :=
  Nat.iterate (fun x => specMove b x d) n.toNat c

/-- Modelled from the spec: `InsertLine` "inserts a new line adjacent to the
cursor's line, shifting subsequent line indices; does not itself reposition
the cursor". -/
def specInsertLine (b : Buffer) (c : Cursor) (text : Line) (before : Bool) : Buffer :=
  let i := (if before then c.Line else c.Line + 1).toNat
  { Lines := b.Lines.take i ++ text :: b.Lines.drop i }

/-- Modelled from the spec: bulk `RemoveCharacters` "deletes characters
adjacent to each cursor" and "must not cross line bounds". -/
def specRemoveCharacters (b : Buffer) (c : Cursor) (before : Bool) (n : Int) : Buffer :=
  let l := b.GetLine c.Line
  let p := c.Pos.toNat
  let k := n.toNat
  let l2 := if before then l.take (p - k) ++ l.drop p else l.take p ++ l.drop (p + k)
  { Lines := b.Lines.set c.Line.toNat l2 }

/-- Modelled from the spec: `MoveCursorRune` is the counted motion of the keys
h, j, k, l, applied to every cursor. -/
def specMoveCursorRune (em : Vi) (r : Char) (n : Int) : Vi :=
  let d : CursorDirection :=
    if r = 'h' then .CursorLeft else if r = 'j' then .CursorDown
    else if r = 'k' then .CursorUp else .CursorRight
  { em with Editor := { em.Editor with
      Cursors := em.Editor.Cursors.map fun c => specMoveMany em.Editor.Buffer c d n } }

/-- The table `CursorMap` of `novi/editor.go`. -/
def CursorMap : KeyType → Option CursorDirection
  | .KeyLeft => some .CursorLeft
  | .KeyRight => some .CursorRight
  | .KeyUp => some .CursorUp
  | .KeyDown => some .CursorDown
  | .KeyHome => some .CursorBegin
  | .KeyEnd => some .CursorEnd
  | _ => none

/-- Modelled from the spec: `HandleMoveCursors` performs "the four directional
motions and line-start/line-end" on every cursor. -/
def specHandleMoveCursors (em : Vi) (ev : Event) : Bool × Vi :=
  match ev with
  | .KeyEvent _ k _ =>
    match CursorMap k with
    | some d => (true, { em with Editor := { em.Editor with
        Cursors := em.Editor.Cursors.map fun c => specMove em.Editor.Buffer c d } })
    | none => (false, em)
  | .CharacterEvent _ => (false, em)

/-- The missing functions as the specification describes them. -/
def specEnv : ViEnv :=
  { Move := specMove, MoveMany := specMoveMany, InsertLine := specInsertLine,
    RemoveCharacters := specRemoveCharacters, MoveCursorRune := specMoveCursorRune,
    HandleMoveCursors := specHandleMoveCursors }

/-- A two-line document with the primary cursor at its start. -/
def sampleEditor : Editor :=
  { filename := "a.txt", Buffer := ⟨["abcdef".data, "x".data]⟩, Modified := false,
    Cursors := [⟨0, 0⟩], Selection := ⟨⟨0, 0⟩, ⟨0, 0⟩, false, false⟩ }

/-! ## Reads (`ovim/buffer.go`) -/

/-- Slice expression `l[lo:hi]`: fails unless `0 ≤ lo ≤ hi ≤ len(l)`.  Go
bounds `hi` by the capacity; `GetLines` clamps `hi` to the length before it
slices, so the capacity never decides there. -/
def slice {α : Type} (l : List α) (lo hi : Int) : Option (List α) :=
  if 0 ≤ lo ∧ lo ≤ hi ∧ hi ≤ (l.length : Int) then some ((l.take hi.toNat).drop lo.toNat)
  else none

/-- `Buffer.GetLines`: a `nil` result is the empty list; the buffer is only
read. -/
def Buffer.GetLines (b : Buffer) (start end_ : Int) : Option (List Line) :=
  if start > b.Length then some []
  else if start > end_ then some []
  else slice b.Lines start (if end_ > b.Length then b.Length else end_)

/-! ## Status line (`emu/vi/vi.go`) -/

/-- An operand of `fmt.Sprintf`: a string for `%s`, an `int` for `%d`. -/
inductive FmtArg where
  | str (s : String)
  | int (i : Int)
deriving DecidableEq, Repr

/-- The verb `%d` applied to an `int`: decimal digits, with a leading minus
sign for a negative number. -/
def decimal (i : Int) : String := toString i

/-- The scan of a format string by `fmt.Sprintf`, for the verbs `%s` and `%d`
with operands of the matching kind; `pct` records that the previous character
was the percent sign. -/
def sprintfChars : Bool → List Char → List FmtArg → List Char
  | pct, [], _ => if pct then ['%'] else []
  | false, c :: rest, args =>
    if c = '%' then sprintfChars true rest args else c :: sprintfChars false rest args
  | true, c :: rest, args =>
    match args with
    | .str s :: args2 =>
      if c = 's' then s.data ++ sprintfChars false rest args2
      else '%' :: c :: sprintfChars false rest args
    | .int i :: args2 =>
      if c = 'd' then (decimal i).data ++ sprintfChars false rest args2
      else '%' :: c :: sprintfChars false rest args
    | [] => '%' :: c :: sprintfChars false rest args

/-- `fmt.Sprintf` on the verbs `%s` and `%d`. -/
def Sprintf (format : String) (args : List FmtArg) : String :=
  String.mk (sprintfChars false format.data args)

/-- `Editor.GetFilename`. -/
def Editor.GetFilename (e : Editor) : String := e.filename

/-- `Vi.GetStatus`: the primary cursor is read first (and must exist); the
argument `width` is not used; the state is only read. -/
def Vi.GetStatus (em : Vi) (_width : Int) : Option String := do
  let first ← index em.Editor.Cursors 0
  let mode := if em.Mode = .ModeEdit then "--INSERT-- " else ""
  let modified := if em.Editor.Modified then "(modified) " else ""
  pure (mode ++ Sprintf "%s %s   %s  row %d col %d"
    [.str em.Editor.GetFilename, .str modified, .str em.CommandBuffer,
     .int (first.Line + 1), .int (first.Pos + 1)])

/-! ## The split buffer the specification describes -/

/-- Walking the lines from line number `j`: a line on which a cursor of `cs`
stands is replaced by two lines, the text before the cursor and the text from
the cursor on; every other line is kept. -/
def splitSpecFrom (cs : Cursors) : Int → List Line → List Line
  | _, [] => []
  | j, l :: ls =>
    (match cs.find? (fun c => decide (c.Line = j)) with
      | some c => [l.take c.Pos.toNat, l.drop c.Pos.toNat]
      | none => [l]) ++ splitSpecFrom cs (j + 1) ls

/-- The buffer in which every cursor's line is split at the cursor. -/
def SplitSpec (cs : Cursors) (lines : List Line) : List Line :=
  splitSpecFrom cs 0 lines

/-- A document for the counted X command: the primary cursor at (1,2). -/
def sampleEditorX : Editor :=
  { filename := "a.txt", Buffer := ⟨["ab".data, "cdef".data]⟩, Modified := false,
    Cursors := [⟨1, 2⟩], Selection := ⟨⟨0, 0⟩, ⟨0, 0⟩, false, false⟩ }

/-! ## Saving (`novi/editor.go`) -/

/-- What the file system holds at a path: nothing, a file with its text, or
an entry that cannot be read or written. -/
inductive FileState where
  | absent
  | present (content : String)
  | inaccessible
deriving DecidableEq, Repr

/-- The file system `SaveFile` acts on: the state of every path. -/
abbrev FileSystem := String → FileState

/-- The error of `os.Stat`: the one `os.IsNotExist` recognizes, or another. -/
inductive StatError where
  | notExist
  | other
deriving DecidableEq, Repr

/-- `os.Stat`: `none` is success. -/
def osStat (fs : FileSystem) (path : String) : Option StatError :=
  match fs path with
  | .present _ => none
  | .absent => some .notExist
  | .inaccessible => some .other

/-- `os.Create`: creates or truncates the file; fails on an inaccessible path. -/
def osCreate (fs : FileSystem) (path : String) : Option FileSystem :=
  match fs path with
  | .inaccessible => none
  | _ => some (Function.update fs path (.present ""))

/-- Modelled from the spec: `CopyFile` is not in the sources; save "creates a
backup copy of any pre-existing file before overwrite".  The copy fails when
the source is not a readable file or the target cannot be written. -/
def CopyFile (fs : FileSystem) (src dst : String) : Option FileSystem :=
  match fs src, fs dst with
  | .present _, .inaccessible => none
  | .present c, _ => some (Function.update fs dst (.present c))
  | _, _ => none

/-- The error values of `SaveFile`. -/
inductive SaveError where
  | ErrSaveNoName
  | ErrSaveNoBackup
  | ErrSaveFailedCreate
  | ErrSaveWrite
  | ErrSaveWouldOverwrite
  | ErrSaveOther
deriving DecidableEq, Repr

/-- The text written by the loop of `SaveFile`: every line followed by a
newline (`Line.ToString` is the string of the runes). -/
def saveText (lines : List Line) : String :=
  String.join (lines.map fun l => String.mk l ++ "\n")

/-- `Editor.SaveFile`: the error (`none` for `nil`), the editor and the file
system after the call.  Writes to the created file are taken to succeed. -/
def Editor.SaveFile (e : Editor) (name : String) (force : Bool) (fs : FileSystem) :
    Option SaveError × Editor × FileSystem :=
  let changed : Bool := decide (name ≠ "") && decide (e.filename ≠ name)
  let e1 : Editor := if name ≠ "" then { e with filename := name } else e
  match osStat fs e1.filename with
  | some .other => (some .ErrSaveOther, e1, fs)
  | st =>
    let exists_ : Bool := decide (st = none)
    if changed && exists_ && !force && decide (osStat fs e1.filename ≠ some .notExist) then
      (some .ErrSaveWouldOverwrite, e1, fs)
    else if e1.filename = "" then (some .ErrSaveNoName, e1, fs)
    else
      match (if exists_ then CopyFile fs e1.filename (e1.filename ++ ".bak") else some fs) with
      | none => (some .ErrSaveNoBackup, e1, fs)
      | some fs1 =>
        match osCreate fs1 e1.filename with
        | none => (some .ErrSaveFailedCreate, e1, fs1)
        | some fs2 =>
          (none, { e1 with Modified := false },
            Function.update fs2 e1.filename (.present (saveText e1.Buffer.Lines)))

/-- A file system with the two files "a.txt" and "b.txt". -/
def sampleFS : FileSystem := fun p =>
  if p = "a.txt" then .present "abcdef\nx\n"
  else if p = "b.txt" then .present "old\n"
  else .absent

/-! ## The basic emulation (`emu/basic/basic.go`) -/

/-- Modelled from the spec: `Cursors.Move` is not in the sources; "multi-cursor
commands apply Move independently to every cursor".  It is `Move` of
`emu/basic/cursor.go` on each cursor. -/
def Cursors.Move : Cursors → Buffer → CursorDirection → Option Cursors
  | [], _, _ => some []
  | c :: cs, b, d => do
    let c1 ← Ovim.Move b c d
    let cs1 ← Cursors.Move cs b d
    pure (c1 :: cs1)

/-! ## Lines with their backing storage (`ovim/buffer.go`) -/

/-- A `[]rune` as Go holds it: the window of `len` runes at offset `off` of
the array `arr` of the store.  Its capacity reaches to the end of the array. -/
structure Mem.Line where
  arr : Nat
  off : Nat
  len : Nat
deriving DecidableEq, Repr

/-- A buffer with its storage: the arrays allocated so far (`mem`, an array is
named by its index) and the line headers. -/
structure Mem.Buffer where
  mem : List (List Char)
  Lines : List Mem.Line
deriving DecidableEq, Repr

/-- Expression `cap(s)`. -/
def Mem.Line.cap (mem : List (List Char)) (s : Mem.Line) : Nat :=
  (mem.getD s.arr []).length - s.off

/-- The runes a line header denotes. -/
def Mem.Line.runes (mem : List (List Char)) (s : Mem.Line) : Ovim.Line :=
  ((mem.getD s.arr []).drop s.off).take s.len

/-- The buffer as a list of rune lists. -/
def Mem.Buffer.view (b : Mem.Buffer) : Ovim.Buffer :=
  ⟨b.Lines.map (Mem.Line.runes b.mem)⟩

/-- A buffer built from rune lists: every line has an array of its own, filled
to its capacity. -/
def Mem.Buffer.ofLines (ls : List Ovim.Line) : Mem.Buffer :=
  ⟨ls, (List.range ls.length).map fun i => ⟨i, 0, (ls.getD i []).length⟩⟩

/-- Every header names an allocated array and lies inside it. -/
def Mem.Buffer.WF (b : Mem.Buffer) : Prop :=
  ∀ s ∈ b.Lines, s.arr < b.mem.length ∧ s.off + s.len ≤ (b.mem.getD s.arr []).length

/-- No two lines of the buffer share a backing array. -/
def Mem.Buffer.Separate (b : Mem.Buffer) : Prop :=
  b.Lines.Pairwise fun s u => s.arr ≠ u.arr

instance (b : Mem.Buffer) : Decidable b.WF := by
  unfold Mem.Buffer.WF; infer_instance

instance (b : Mem.Buffer) : Decidable b.Separate := by
  unfold Mem.Buffer.Separate; infer_instance

/-- Slice expression `s[i:]` on a header: fails unless `0 ≤ i ≤ len(s)`. -/
def Mem.Line.sliceFrom (s : Mem.Line) (i : Int) : Option Mem.Line :=
  if 0 ≤ i ∧ i ≤ (s.len : Int) then some ⟨s.arr, s.off + i.toNat, s.len - i.toNat⟩ else none

/-- Slice expression `s[:i]` on a header: fails unless `0 ≤ i ≤ cap(s)`. -/
def Mem.Line.sliceTo (mem : List (List Char)) (s : Mem.Line) (i : Int) : Option Mem.Line :=
  if 0 ≤ i ∧ i ≤ (s.cap mem : Int) then some ⟨s.arr, s.off, i.toNat⟩ else none

/-- The array `a` with `elems` written from index `k` on. -/
def Mem.writeAt (a : List Char) (k : Nat) (elems : List Char) : List Char :=
  a.take k ++ elems ++ a.drop (k + elems.length)

/-- Built-in `append(s, elems...)`: when the capacity suffices the runes are
written into the array of `s`, behind its window; otherwise a new array is
allocated, of a capacity the runtime chooses (`grow`, given the old capacity
and the needed length, and at least the needed length), and filled with the
runes of `s` followed by `elems`. -/
def Mem.append (grow : Nat → Nat → Nat) (mem : List (List Char)) (s : Mem.Line)
    (elems : List Char) : List (List Char) × Mem.Line :=
  if s.len + elems.length ≤ s.cap mem then
    (mem.set s.arr (Mem.writeAt (mem.getD s.arr []) (s.off + s.len) elems),
      ⟨s.arr, s.off, s.len + elems.length⟩)
  else
    let vals := s.runes mem ++ elems
    (mem ++ [vals ++ List.replicate (grow (s.cap mem) vals.length - vals.length) zeroRune],
      ⟨mem.length, 0, vals.length⟩)

/-- One iteration of the loop of `Buffer.PutRuneAtCursors`, on the storage:
`line[:c.Pos]` keeps the array of the line, the inner `append` yields the new
rune followed by a copy of `line[c.Pos:]`, and the outer `append` writes them
in place when the capacity of the line allows it. -/
def Mem.Buffer.putRuneAt (grow : Nat → Nat → Nat) (r : Char) (b : Mem.Buffer) (c : Cursor) :
    Option Mem.Buffer := do
  let line ← index b.Lines c.Line
  let pre ← line.sliceTo b.mem c.Pos
  let post ← line.sliceFrom c.Pos
  let res := Mem.append grow b.mem pre (r :: post.runes b.mem)
  let lines ← store b.Lines c.Line res.2
  pure ⟨res.1, lines⟩

/-- `Buffer.PutRuneAtCursors` on the storage. -/
def Mem.Buffer.PutRuneAtCursors (grow : Nat → Nat → Nat) (b : Mem.Buffer) (cs : Cursors)
    (r : Char) : Option Mem.Buffer :=
  cs.foldlM (Mem.Buffer.putRuneAt grow r) b

/-- One iteration of the loop of `Buffer.RemoveRuneBeforeCursors`, on the
storage: `append(line[:c.Pos-1], line[c.Pos:]...)` moves the runes behind the
cursor one place down in the array of the line. -/
def Mem.Buffer.removeRuneBefore (grow : Nat → Nat → Nat) (b : Mem.Buffer) (c : Cursor) :
    Option Mem.Buffer :=
  if c.Pos > 0 then do
    let line ← index b.Lines c.Line
    let pre ← line.sliceTo b.mem (c.Pos - 1)
    let post ← line.sliceFrom c.Pos
    let res := Mem.append grow b.mem pre (post.runes b.mem)
    let lines ← store b.Lines c.Line res.2
    pure ⟨res.1, lines⟩
  else some b

/-- `Buffer.RemoveRuneBeforeCursors` on the storage. -/
def Mem.Buffer.RemoveRuneBeforeCursors (grow : Nat → Nat → Nat) (b : Mem.Buffer)
    (cs : Cursors) : Option Mem.Buffer :=
  cs.foldlM (Mem.Buffer.removeRuneBefore grow) b

/-- The loop of `Buffer.SplitLines` on the storage: both halves are windows of
the array of the line that is split; no rune is written. -/
def Mem.Buffer.splitLoop (mem : List (List Char)) :
    List Mem.Line → Int → List Cursor → Option (List Mem.Line)
  | lines, _, [] => some lines
  | lines, linesAdded, c :: cs => do
    let line ← index lines (c.Line + linesAdded)
    let before ← line.sliceFrom c.Pos
    let after ← line.sliceTo mem c.Pos
    let head ← Ovim.sliceTo lines (c.Line + linesAdded)
    let tail ← Ovim.sliceFrom lines (c.Line + linesAdded + 1)
    Mem.Buffer.splitLoop mem (head ++ ([after, before] ++ tail)) (linesAdded + 1) cs

/-- `Buffer.SplitLines` on the storage. -/
def Mem.Buffer.SplitLines (b : Mem.Buffer) (cs : Cursors) : Option Mem.Buffer :=
  (Mem.Buffer.splitLoop b.mem b.Lines 0 cs).map fun ls => ⟨b.mem, ls⟩

/-- The common shape of one iteration of both loops, on rune lists: the line
`lineNo` becomes `line[:k1]`, then `extra`, then `line[k2:]`. -/
def Buffer.editLine (extra : List Char) (k1 k2 : Int) (b : Ovim.Buffer) (lineNo : Int) :
    Option Ovim.Buffer := do
  let line ← index b.Lines lineNo
  let pre ← sliceTo line k1
  let post ← sliceFrom line k2
  let lines ← store b.Lines lineNo (pre ++ (extra ++ post))
  pure ⟨lines⟩

/-- The common shape of one iteration of both loops, on the storage. -/
def Mem.Buffer.editLine (grow : Nat → Nat → Nat) (extra : List Char) (k1 k2 : Int)
    (b : Mem.Buffer) (lineNo : Int) : Option Mem.Buffer := do
  let line ← index b.Lines lineNo
  let pre ← line.sliceTo b.mem k1
  let post ← line.sliceFrom k2
  let res := Mem.append grow b.mem pre (extra ++ post.runes b.mem)
  let lines ← store b.Lines lineNo res.2
  pure ⟨res.1, lines⟩

/-- A growth policy of the kind the Go runtime uses: the capacity doubles, or
is the needed length when that is larger. -/
def growDouble (oldCap needed : Nat) : Nat := max needed (2 * oldCap)

/-- The editor of the basic emulation: its buffer with the storage, its
cursors. -/
structure Mem.Editor where
  Buffer : Mem.Buffer
  Cursors : Cursors
deriving DecidableEq, Repr

/-- `Basic.Backspace`. -/
def Basic.Backspace (grow : Nat → Nat → Nat) (e : Mem.Editor) : Option Mem.Editor := do
  let b ← e.Buffer.RemoveRuneBeforeCursors grow e.Cursors
  let cs ← Cursors.Move e.Cursors b.view .CursorLeft
  pure { Buffer := b, Cursors := cs }

/-- The case `*ovim.CharacterEvent` of `Basic.HandleEvent`. -/
def Basic.HandleCharacter (grow : Nat → Nat → Nat) (e : Mem.Editor) (r : Char) :
    Option Mem.Editor := do
  let b ← e.Buffer.PutRuneAtCursors grow e.Cursors r
  let cs ← Cursors.Move e.Cursors b.view .CursorRight
  pure { Buffer := b, Cursors := cs }

/-- `Basic.HandleEvent`, with the constant `ModCtrl` and the method
`Editor.MoveCursor` (both outside the sources) as parameters. -/
def Basic.HandleEvent (grow : Nat → Nat → Nat) (modCtrl : Int)
    (moveCursor : Mem.Editor → KeyType → Option Mem.Editor)
    (e : Mem.Editor) (event : Event) : Option (Bool × Mem.Editor) :=
  match event with
  | .KeyEvent m k r =>
    if m = modCtrl then
      if r = 'h' then (Basic.Backspace grow e).map fun e2 => (true, e2)
      else if r = 'q' then some (false, e)
      else some (true, e)
    else if m = 0 then
      match k with
      | .KeyBackspace | .KeyDelete => (Basic.Backspace grow e).map fun e2 => (true, e2)
      | .KeyEnter => do
        let b ← e.Buffer.SplitLines e.Cursors
        let cs ← Cursors.Move e.Cursors b.view .CursorDown
        let cs2 ← Cursors.Move cs b.view .CursorBegin
        pure (true, { Buffer := b, Cursors := cs2 })
      | .KeyLeft | .KeyRight | .KeyUp | .KeyDown => (moveCursor e k).map fun e2 => (true, e2)
      | _ => some (true, e)
    else some (true, e)
  | .CharacterEvent r => (Basic.HandleCharacter grow e r).map fun e2 => (true, e2)

/-- The buffer Enter leaves: the line "abcd" split at (0,2); both halves are
windows of the one array. -/
def splitBuffer : Option Mem.Buffer :=
  (Mem.Buffer.ofLines ["abcd".data]).SplitLines [⟨0, 2⟩]

/-! ## Reachable states of the vi emulation -/

/-- The states reached from `NewVi e` by calls of `HandleEvent` that return. -/
inductive Vi.Reachable (env : ViEnv) (e : Ovim.Editor) : Vi → Prop where
  | init : Vi.Reachable env e (NewVi e)
  | step (em em2 : Vi) (ev : Event) (r : Bool) :
      Vi.Reachable env e em → Vi.HandleEvent env em ev = some (r, em2) →
      Vi.Reachable env e em2

/-- Every rune of the command buffer belongs to the alphabet `commands`. -/
def Vi.BufferInAlphabet (em : Vi) : Prop :=
  ∀ c ∈ em.CommandBuffer.data, c ∈ commands.data

/-! ## Word motion (package viemu; only `emu/vi/buffer_test.go` is in the sources) -/

/-- The two character tests behind the character classes (Unicode tables
outside the sources): whitespace, and word characters "letters, digits,
connector characters". -/
structure CharTable where
  isSpace : Char → Bool
  isWord : Char → Bool

/-- The character classes of the word motions. -/
inductive CharClass where
  | Whitespace
  | Word
  | Separator
deriving DecidableEq, Repr

/-- Modelled from the spec: "Character classes, checked in this order:
Whitespace; Word; Separator (all other printable characters)". -/
def CharTable.classOf (t : CharTable) (c : Char) : CharClass :=
  if t.isSpace c then .Whitespace else if t.isWord c then .Word else .Separator

/-- The scan of `WordStarts`: `prev` is the class of the character before the
current one (none at the start of the line), `k` the current offset. -/
def wordStartsFrom (t : CharTable) : Option CharClass → Nat → List Char → List Nat
  | _, _, [] => []
  | prev, k, c :: cs =>
    (if t.classOf c ≠ .Whitespace ∧ prev ≠ some (t.classOf c) then [k] else [])
      ++ wordStartsFrom t (some (t.classOf c)) (k + 1) cs

/-- Modelled from the spec: `WordStarts` is not in the sources.
"`WordStarts(line)`: ordered offsets where a Word or Separator run begins. An
all-whitespace line yields an empty set; an empty line yields {0}", a run
being a maximal sequence of characters of one class. -/
def WordStarts (t : CharTable) (line : Line) : List Int :=
  if line = [] then [0] else (wordStartsFrom t none 0 line).map Int.ofNat

/-- "Skip the remainder of the run under the cursor (if any), then skip
whitespace", with the merged Word+Separator class: what is left of the line. -/
def skipRunAndSpace (t : CharTable) (rest : List Char) : List Char :=
  (rest.dropWhile fun c => !t.isSpace c).dropWhile t.isSpace

/-- The stop of a following line: position 0 of an empty line, else the first
character after the leading whitespace, if there is one. -/
def firstStop (t : CharTable) (l : Line) : Option Nat :=
  if l = [] then some 0
  else if l.dropWhile t.isSpace = [] then none
  else some (l.length - (l.dropWhile t.isSpace).length)

/-- "If the current line is exhausted, continue onto following lines":
the first following line with a stop; `j` is the number of the first line of
the list. -/
def nextLineStop (t : CharTable) : Nat → List Line → Option (Nat × Nat)
  | _, [] => none
  | j, l :: ls =>
    match firstStop t l with
    | some q => some (j, q)
    | none => nextLineStop t (j + 1) ls

/-- The forward big-word jump from line `L`, position `P`.  When no stop is
found the result is the last character of the last line, as in the test
"Find end" of `TestJumpWordForward` (position 0 when that line is empty). -/
def jumpWordForwardFrom (t : CharTable) (lines : List Line) (L P : Nat) : Nat × Nat :=
  let line := lines.getD L []
  let r := skipRunAndSpace t (line.drop P)
  if r ≠ [] then (L, line.length - r.length)
  else
    match nextLineStop t (L + 1) (lines.drop (L + 1)) with
    | some s => s
    | none => (lines.length - 1, (lines.getD (lines.length - 1) []).length - 1)

/-- Modelled from the spec: `JumpWordForward` is not in the sources.
"JumpForward: from the cursor, skip the remainder of the run under the cursor
(if any), then skip whitespace, landing at the next run's start; if the
current line is exhausted, continue onto following lines, stopping at
position 0 of an empty line"; "JumpWordForward: identical scanning with the
merged Word+Separator class". -/
def JumpWordForward (t : CharTable) (b : Buffer) (c : Cursor) : Int × Int :=
  let r := jumpWordForwardFrom t b.Lines c.Line.toNat c.Pos.toNat
  ((r.1 : Int), (r.2 : Int))

/-- Position `q` of line `l` begins a whitespace-delimited run of
non-whitespace characters; `pw` tells whether what precedes position 0 counts
as whitespace. -/
def runStart (t : CharTable) (pw : Bool) (l : List Char) (q : Nat) : Prop :=
  ∃ c, l[q]? = some c ∧ t.isSpace c = false ∧
    (if q = 0 then pw = true else ∃ d, l[q - 1]? = some d ∧ t.isSpace d = true)

/-- Position `(j, q)` of the buffer is a stop of the big-word motion: the
start of a run of non-whitespace characters, or position 0 of an empty line. -/
def IsStop (t : CharTable) (lines : List Line) (j q : Nat) : Prop :=
  ∃ l, lines[j]? = some l ∧ ((l = [] ∧ q = 0) ∨ runStart t true l q)

/-- What the scan leaves of `ys` when the character before `ys` was
whitespace (`pw`): only whitespace is skipped; when it was not: the rest of
the run, then whitespace. -/
def skipAfter (t : CharTable) (pw : Bool) (ys : List Char) : List Char :=
  if pw then ys.dropWhile t.isSpace else skipRunAndSpace t ys

/-- The character tests on ASCII, for the examples of the test file. -/
def asciiTable : CharTable :=
  { isSpace := Char.isWhitespace, isWord := fun c => c.isAlphanum || c == '_' }

/-- The buffer of `TestJumpWordForward`. -/
def testBuffer : Buffer :=
  ⟨["This is the first line.".data, "".data, "  leading space".data,
    "trailing space   ".data, "last line".data]⟩

/-! ## Lemmas on the slice primitives -/

section SliceLemmas
variable {α : Type}

theorem index_natCast (l : List α) (n : Nat) : index l (n : Int) = l[n]? := by
  simp [index]

theorem index_eq_some_iff (l : List α) (i : Int) (x : α) :
    index l i = some x ↔ 0 ≤ i ∧ l[i.toNat]? = some x := by
  unfold index
  split <;> simp [*]

theorem index_isSome_of_lt (l : List α) (i : Int) (h0 : 0 ≤ i) (h1 : i < (l.length : Int)) :
    ∃ x, index l i = some x := by
  obtain ⟨n, rfl⟩ := Int.eq_ofNat_of_zero_le h0
  have hn : n < l.length := by omega
  exact ⟨l[n], by simp [index_natCast, List.getElem?_eq_getElem hn]⟩

theorem index_lt_length (l : List α) (i : Int) (x : α) (h : index l i = some x) :
    0 ≤ i ∧ i < (l.length : Int) := by
  rw [index_eq_some_iff] at h
  obtain ⟨h0, h1⟩ := h
  obtain ⟨n, rfl⟩ := Int.eq_ofNat_of_zero_le h0
  have := (List.getElem?_eq_some_iff.mp h1).1
  simp at this
  omega

theorem sliceTo_natCast (l : List α) (n : Nat) (h : n ≤ l.length) :
    sliceTo l (n : Int) = some (l.take n) := by
  simp [sliceTo, h]

theorem sliceFrom_natCast (l : List α) (n : Nat) (h : n ≤ l.length) :
    sliceFrom l (n : Int) = some (l.drop n) := by
  simp [sliceFrom, h]

theorem store_natCast (l : List α) (n : Nat) (v : α) (h : n < l.length) :
    store l (n : Int) v = some (l.set n v) := by
  simp [store, h]

/-- Reading the list obtained by replacing element `n` with the two elements
`x`, `y`. -/
theorem index_splice (l : List α) (n : Nat) (x y : α) (hn : n < l.length) (m : Int) :
    index (l.take n ++ ([x, y] ++ l.drop (n + 1))) m =
      if m < n then index l m
      else if m = n then some x
      else if m = n + 1 then some y
      else index l (m - 1) := by
  by_cases hm0 : 0 ≤ m
  · obtain ⟨k, rfl⟩ := Int.eq_ofNat_of_zero_le hm0
    rw [index_natCast]
    have hlen : (l.take n).length = n := by simp; omega
    by_cases h1 : k < n
    · simp only [Nat.cast_lt, h1, if_true, index_natCast]
      rw [List.getElem?_append_left (by omega)]
      simp [List.getElem?_take, h1]
    · have h1' : ¬ ((k : Int) < n) := by omega
      simp only [h1', if_false]
      rw [List.getElem?_append_right (by omega), hlen]
      by_cases h2 : k = n
      · subst h2; simp
      · have h2' : ¬ ((k : Int) = n) := by omega
        simp only [h2', if_false]
        by_cases h3 : k = n + 1
        · subst h3; simp
        · have h3' : ¬ ((k : Int) = n + 1) := by omega
          simp only [h3', if_false]
          obtain ⟨d, rfl⟩ : ∃ d, k = n + 2 + d := ⟨k - n - 2, by omega⟩
          have e1 : n + 2 + d - n = d + 2 := by omega
          have e2 : ((n + 2 + d : Nat) : Int) - 1 = ((n + 1 + d : Nat) : Int) := by
            push_cast; omega
          rw [e1, e2, index_natCast]
          simp [List.getElem?_drop]
  · have h1 : m < n := by omega
    simp [index, hm0, h1]

theorem index_set (l : List α) (n : Nat) (v : α) (hn : n < l.length) (m : Int) :
    index (l.set n v) m = if m = n then some v else index l m := by
  by_cases hm0 : 0 ≤ m
  · obtain ⟨k, rfl⟩ := Int.eq_ofNat_of_zero_le hm0
    rw [index_natCast, index_natCast, List.getElem?_set]
    by_cases h : n = k
    · subst h; simp [hn]
    · have h2 : ¬ ((k : Int) = n) := by omega
      simp [h, h2]
  · have h : ¬ (m = (n : Int)) := by omega
    simp [index, hm0, h]

theorem set_self_of_getElem? (l : List α) (n : Nat) (x : α) (h : l[n]? = some x) :
    l.set n x = l := by
  apply List.ext_getElem?
  intro m
  rw [List.getElem?_set]
  split
  · next hnm =>
    subst hnm
    have := (List.getElem?_eq_some_iff.mp h).1
    rw [if_pos this, h]
  · rfl

end SliceLemmas

/-! ## Edits of one line per cursor -/

/-- A loop that replaces, for each cursor, the line of the cursor by `g c line`
(and succeeds when `ok c line` holds), run over cursors on pairwise distinct
lines: every cursor line is edited once, from its original content, and the
other lines are kept. -/
theorem foldlM_lineEdit (step : Buffer → Cursor → Option Buffer)
    (g : Cursor → Line → Line) (ok : Cursor → Line → Prop)
    (hstep : ∀ (b : Buffer) (c : Cursor) (n : Nat) (l : Line), c.Line = n →
      b.Lines[n]? = some l → ok c l → step b c = some ⟨b.Lines.set n (g c l)⟩)
    (cs : List Cursor) :
    ∀ b : Buffer,
      cs.Pairwise (fun c d => c.Line ≠ d.Line) →
      (∀ c ∈ cs, ∃ l, index b.Lines c.Line = some l ∧ ok c l) →
      ∃ b2, cs.foldlM step b = some b2 ∧
        b2.Lines.length = b.Lines.length ∧
        (∀ c ∈ cs, ∀ l, index b.Lines c.Line = some l →
            index b2.Lines c.Line = some (g c l)) ∧
        (∀ j : Int, (∀ c ∈ cs, c.Line ≠ j) → index b2.Lines j = index b.Lines j) := by
  induction cs with
  | nil =>
    intro b _ _
    exact ⟨b, rfl, rfl, by simp, by simp⟩
  | cons c0 cs ih =>
    intro b hd hv
    obtain ⟨l0, hl0, hok⟩ := hv c0 (List.mem_cons_self _ _)
    obtain ⟨h0, hlt⟩ := index_lt_length _ _ _ hl0
    obtain ⟨n, hn⟩ := Int.eq_ofNat_of_zero_le h0
    have hn' : n < b.Lines.length := by omega
    have hl0' : b.Lines[n]? = some l0 := by rw [← index_natCast, ← hn]; exact hl0
    rw [List.pairwise_cons] at hd
    obtain ⟨hne, hd'⟩ := hd
    have hs := hstep b c0 n l0 hn hl0' hok
    have hset := index_set b.Lines n (g c0 l0) hn'
    obtain ⟨b2, hb2, hlen, hA, hB⟩ := ih ⟨b.Lines.set n (g c0 l0)⟩ hd' (by
      intro c hc
      obtain ⟨l, hl, hk⟩ := hv c (List.mem_cons_of_mem _ hc)
      refine ⟨l, ?_, hk⟩
      have := hne c hc
      rw [hset, if_neg (by omega)]
      exact hl)
    refine ⟨b2, ?_, ?_, ?_, ?_⟩
    · rw [List.foldlM_cons, hs]; exact hb2
    · rw [hlen]; simp
    · intro c hc l hl
      rcases List.mem_cons.mp hc with rfl | hc
      · rw [hl0] at hl
        cases hl
        rw [hB c.Line (fun d hd => (hne d hd).symm), hset, if_pos hn]
      · have := hne c hc
        exact hA c hc l (by rw [hset, if_neg (by omega)]; exact hl)
    · intro j hj
      have := hj c0 (List.mem_cons_self _ _)
      rw [hB j (fun c hc => hj c (List.mem_cons_of_mem _ hc)), hset, if_neg (by omega)]

theorem putRuneAt_eq (r : Char) (b : Buffer) (c : Cursor) (n : Nat) (l : Line)
    (hn : c.Line = n) (hl : b.Lines[n]? = some l)
    (hp : 0 ≤ c.Pos ∧ c.Pos ≤ (l.length : Int)) :
    Buffer.putRuneAt r b c
      = some ⟨b.Lines.set n (l.take c.Pos.toNat ++ r :: l.drop c.Pos.toNat)⟩ := by
  have hlt : n < b.Lines.length := (List.getElem?_eq_some_iff.mp hl).1
  rw [Buffer.putRuneAt, hn, index_natCast, hl]
  simp [sliceFrom, sliceTo, store, hp, hlt]

theorem removeRuneBefore_eq (b : Buffer) (c : Cursor) (n : Nat) (l : Line)
    (hn : c.Line = n) (hl : b.Lines[n]? = some l)
    (hp : 0 ≤ c.Pos ∧ c.Pos ≤ (l.length : Int)) :
    Buffer.removeRuneBefore b c
      = some ⟨b.Lines.set n
          (if c.Pos > 0 then l.take (c.Pos - 1).toNat ++ l.drop c.Pos.toNat else l)⟩ := by
  have hlt : n < b.Lines.length := (List.getElem?_eq_some_iff.mp hl).1
  unfold Buffer.removeRuneBefore
  by_cases h : c.Pos > 0
  · rw [if_pos h, if_pos h, hn, index_natCast, hl]
    have h1 : 0 ≤ c.Pos - 1 ∧ c.Pos - 1 ≤ (l.length : Int) := by omega
    have h2 : c.Pos ≤ (l.length : Int) + 1 := by omega
    simp [sliceFrom, sliceTo, store, hp, h1, h2, hlt]
  · rw [if_neg h, if_neg h]
    rw [set_self_of_getElem? _ _ _ hl]

/-- What the cursors of a buffer satisfy when they are valid. -/
theorem valid_line (b : Buffer) (c : Cursor) (h : c.Valid b) :
    ∃ l, index b.Lines c.Line = some l ∧ 0 ≤ c.Pos ∧ c.Pos ≤ (l.length : Int) := by
  obtain ⟨h0, h1, h2, h3⟩ := h
  obtain ⟨l, hl⟩ := index_isSome_of_lt b.Lines c.Line h0 h1
  rw [hl] at h3
  exact ⟨l, hl, h2, by simpa using h3⟩

/-! ## SplitLines -/

/-- One step of the split loop at a cursor whose target line exists. -/
theorem splitLoop_cons (cur : List Line) (a : Int) (c : Cursor) (cs : List Cursor)
    (n : Nat) (hn : c.Line + a = n) (l : Line) (hl : cur[n]? = some l)
    (hp0 : 0 ≤ c.Pos) (hp : c.Pos ≤ (l.length : Int)) :
    Buffer.splitLoop cur a (c :: cs) =
      Buffer.splitLoop (cur.take n ++ ([l.take c.Pos.toNat, l.drop c.Pos.toNat] ++ cur.drop (n + 1)))
        (a + 1) cs := by
  have hlt : n < cur.length := (List.getElem?_eq_some_iff.mp hl).1
  have e1 : (n : Int) + 1 = ((n + 1 : Nat) : Int) := by push_cast; omega
  rw [Buffer.splitLoop, hn, e1, index_natCast, hl,
    sliceTo_natCast cur n (by omega), sliceFrom_natCast cur (n + 1) (by omega)]
  simp [sliceFrom, sliceTo, hp0, hp]

/-- Invariant of the split loop for cursors on strictly increasing lines. -/
theorem splitLoop_sorted (cs : List Cursor) :
    ∀ (cur : List Line) (a : Int),
      cs.Pairwise (fun c d => c.Line < d.Line) →
      (∀ c ∈ cs, 0 ≤ c.Pos ∧ ∃ l, index cur (c.Line + a) = some l ∧ c.Pos ≤ (l.length : Int)) →
      ∃ res, Buffer.splitLoop cur a cs = some res ∧
        (res.length : Int) = cur.length + cs.length ∧
        (∀ (i : Nat) (c : Cursor) (l : Line), cs[i]? = some c →
            index cur (c.Line + a) = some l →
            index res (c.Line + a + i) = some (l.take c.Pos.toNat) ∧
            index res (c.Line + a + i + 1) = some (l.drop c.Pos.toNat)) ∧
        (∀ j : Int, (∀ c ∈ cs, c.Line + a ≠ j) →
            index res (j + cs.countP (fun c => decide (c.Line + a < j))) = index cur j) := by
  induction cs with
  | nil =>
    intro cur a _ _
    exact ⟨cur, rfl, by simp, by simp, by simp⟩
  | cons c0 cs ih =>
    intro cur a hs hv
    obtain ⟨hp0, l0, hl0, hp⟩ := hv c0 (List.mem_cons_self _ _)
    obtain ⟨h0, hlt⟩ := index_lt_length _ _ _ hl0
    obtain ⟨n, hn⟩ := Int.eq_ofNat_of_zero_le h0
    have hn' : n < cur.length := by omega
    have hl0' : cur[n]? = some l0 := by rw [← index_natCast, ← hn]; exact hl0
    rw [List.pairwise_cons] at hs
    obtain ⟨hgt, hs'⟩ := hs
    have hsp := index_splice cur n (l0.take c0.Pos.toNat) (l0.drop c0.Pos.toNat) hn'
    -- the remaining cursors see their own line one place further down
    have hshift : ∀ c ∈ cs, index (cur.take n ++ ([l0.take c0.Pos.toNat, l0.drop c0.Pos.toNat]
        ++ cur.drop (n + 1))) (c.Line + (a + 1)) = index cur (c.Line + a) := by
      intro c hc
      have := hgt c hc
      rw [hsp]
      have e : c.Line + (a + 1) - 1 = c.Line + a := by omega
      simp only [e]
      rw [if_neg (by omega), if_neg (by omega), if_neg (by omega)]
    obtain ⟨res, hres, hlen, hA, hB⟩ := ih _ (a + 1) hs' (by
      intro c hc
      obtain ⟨q0, l, hl, hq⟩ := hv c (List.mem_cons_of_mem _ hc)
      exact ⟨q0, l, by rw [hshift c hc]; exact hl, hq⟩)
    have hcnt : ∀ j : Int, j ≤ n + 1 →
        cs.countP (fun c => decide (c.Line + (a + 1) < j)) = 0 := by
      intro j hj
      rw [List.countP_eq_zero]
      intro c hc
      have := hgt c hc
      simp only [decide_eq_true_eq]
      omega
    refine ⟨res, ?_, ?_, ?_, ?_⟩
    · rw [splitLoop_cons cur a c0 cs n hn l0 hl0' hp0 hp]; exact hres
    · rw [hlen]
      simp only [List.length_append, List.length_take, List.length_cons, List.length_nil,
        List.length_drop]
      push_cast
      omega
    · intro i c l hi hl
      cases i with
      | zero =>
        simp only [List.getElem?_cons_zero, Option.some.injEq] at hi
        subst hi
        rw [hl0] at hl
        simp only [Option.some.injEq] at hl
        subst hl
        have hno : ∀ (j : Int), n ≤ j → j ≤ n + 1 → ∀ c ∈ cs, c.Line + (a + 1) ≠ j := by
          intro j _ _ c hc
          have := hgt c hc
          omega
        have b0 := hB (n : Int) (hno _ (by omega) (by omega))
        have b1 := hB ((n : Int) + 1) (hno _ (by omega) (by omega))
        rw [hcnt _ (by omega), hsp] at b0
        rw [hcnt _ (by omega), hsp] at b1
        simp only [Nat.cast_zero, add_zero] at b0 b1 ⊢
        rw [hn]
        constructor
        · rw [b0]; simp
        · rw [b1]; simp
      | succ i =>
        simp only [List.getElem?_cons_succ] at hi
        have hc : c ∈ cs := by
          obtain ⟨hi1, hi2⟩ := List.getElem?_eq_some_iff.mp hi
          exact hi2 ▸ List.getElem_mem hi1
        have := hA i c l hi (by rw [hshift c hc]; exact hl)
        have e1 : c.Line + a + ((i + 1 : Nat) : Int) = c.Line + (a + 1) + i := by
          push_cast; omega
        rw [e1]
        exact this
    · intro j hj
      have hj0 : c0.Line + a ≠ j := hj c0 (List.mem_cons_self _ _)
      rw [List.countP_cons]
      by_cases hlt : j < n
      · have b := hB j (by
          intro c hc
          have := hgt c hc
          omega)
        rw [hcnt _ (by omega), hsp, if_pos hlt] at b
        have hc0 : decide (c0.Line + a < j) = false := by
          simp only [decide_eq_false_iff_not]; omega
        have hz : cs.countP (fun c => decide (c.Line + a < j)) = 0 := by
          rw [List.countP_eq_zero]
          intro c hc
          have := hgt c hc
          simp only [decide_eq_true_eq]
          omega
        simp only [hz, hc0] at b ⊢
        simpa using b
      · have hgt' : n < j := by omega
        have b := hB (j + 1) (by
          intro c hc
          have := hj c (List.mem_cons_of_mem _ hc)
          omega)
        rw [hsp, if_neg (by omega), if_neg (by omega), if_neg (by omega)] at b
        have hc0 : decide (c0.Line + a < j) = true := by
          simp only [decide_eq_true_eq]; omega
        have hfun : (fun c : Cursor => decide (c.Line + (a + 1) < j + 1))
            = (fun c : Cursor => decide (c.Line + a < j)) := by
          funext c
          congr 1
          apply propext
          constructor <;> intro h <;> omega
        rw [hfun] at b
        simp only [hc0, if_true]
        push_cast
        have e : j + 1 - 1 = j := by omega
        rw [e] at b
        rw [← b]
        congr 1
        omega

/-- C1. For a buffer of n lines and k valid cursors on strictly increasing
lines, SplitLines succeeds with a buffer of n + k lines; for the i-th cursor
(L, P), line L + i is the first P runes of the original line L and line
L + i + 1 is its rest; an original line j without a cursor is found unchanged
at index j plus the number of cursors on lines before j, so the untouched
lines keep their relative order. -/
theorem SplitLines_sorted (b : Buffer) (cs : Cursors)
    (hvalid : ∀ c ∈ cs, c.Valid b)
    (hsorted : cs.Pairwise (fun c d => c.Line < d.Line)) :
    ∃ b2, b.SplitLines cs = some b2 ∧
      b2.Length = b.Length + cs.length ∧
      (∀ (i : Nat) (c : Cursor) (l : Line), cs[i]? = some c →
          index b.Lines c.Line = some l →
          index b2.Lines (c.Line + i) = some (l.take c.Pos.toNat) ∧
          index b2.Lines (c.Line + i + 1) = some (l.drop c.Pos.toNat)) ∧
      (∀ j : Int, (∀ c ∈ cs, c.Line ≠ j) →
          index b2.Lines (j + cs.countP (fun c => decide (c.Line < j))) = index b.Lines j) := by
  obtain ⟨res, hres, hlen, hA, hB⟩ := splitLoop_sorted cs b.Lines 0 hsorted (by
    intro c hc
    obtain ⟨h0, h1, h2, h3⟩ := hvalid c hc
    obtain ⟨l, hl⟩ := index_isSome_of_lt b.Lines c.Line h0 h1
    rw [hl] at h3
    exact ⟨h2, l, by simpa using hl, by simpa using h3⟩)
  refine ⟨⟨res⟩, by simp [Buffer.SplitLines, hres], by simpa [Buffer.Length] using hlen, ?_, ?_⟩
  · intro i c l hi hl
    simpa using hA i c l hi (by simpa using hl)
  · intro j hj
    simpa using hB j (by simpa using hj)

/-- Witness for C1: cursors (0,1), (1,1) on the buffer "ab", "cd". -/
theorem SplitLines_sorted_witness :
    ∃ b2, Buffer.SplitLines ⟨["ab".data, "cd".data]⟩ [⟨0, 1⟩, ⟨1, 1⟩] = some b2 ∧
      b2.Length = 4 ∧ b2.Lines = ["a".data, "b".data, "c".data, "d".data] := by
  obtain ⟨b2, h, -, -, -⟩ := SplitLines_sorted ⟨["ab".data, "cd".data]⟩ [⟨0, 1⟩, ⟨1, 1⟩]
    (by decide) (by decide)
  refine ⟨b2, h, ?_, ?_⟩
  · have : Buffer.SplitLines ⟨["ab".data, "cd".data]⟩ [⟨0, 1⟩, ⟨1, 1⟩]
        = some ⟨["a".data, "b".data, "c".data, "d".data]⟩ := by decide
    rw [this] at h; cases h; decide
  · have : Buffer.SplitLines ⟨["ab".data, "cd".data]⟩ [⟨0, 1⟩, ⟨1, 1⟩]
        = some ⟨["a".data, "b".data, "c".data, "d".data]⟩ := by decide
    rw [this] at h; cases h; rfl

/-! ## PutRuneAtCursors -/

theorem insertBeforeEach_of_lt (r : Char) (ps : List Int) (l : Line) :
    ∀ i : Int, (∀ p ∈ ps, p < i) → insertBeforeEach r ps i l = l := by
  induction l with
  | nil =>
    intro i h
    have : i ∉ ps := fun hi => by have := h i hi; omega
    simp [insertBeforeEach, this]
  | cons x xs ih =>
    intro i h
    have : i ∉ ps := fun hi => by have := h i hi; omega
    rw [insertBeforeEach, if_neg this, ih (i + 1) (fun p hp => by have := h p hp; omega)]
    rfl

theorem insertBeforeEach_single (r : Char) (p : Int) (l : Line) :
    ∀ i : Int, i ≤ p → p ≤ i + (l.length : Int) →
      insertBeforeEach r [p] i l = l.take (p - i).toNat ++ r :: l.drop (p - i).toNat := by
  induction l with
  | nil =>
    intro i h1 h2
    have : i = p := by simp at h2; omega
    subst this
    simp [insertBeforeEach]
  | cons x xs ih =>
    intro i h1 h2
    by_cases h : i = p
    · subst h
      rw [insertBeforeEach, insertBeforeEach_of_lt r [i] xs (i + 1) (by simp)]
      simp
    · have hlt : i < p := by omega
      have hmem : i ∉ [p] := by simp [h]
      rw [insertBeforeEach, if_neg hmem, ih (i + 1) (by omega)
        (by simp only [List.length_cons] at h2; push_cast at h2; omega)]
      obtain ⟨k, hk⟩ : ∃ k : Nat, (p - i).toNat = k + 1 := ⟨(p - i).toNat - 1, by omega⟩
      have hk2 : (p - (i + 1)).toNat = k := by omega
      rw [hk, hk2]
      simp

/-- Inserting at `P` first and then before each of the smaller indices `ps`
gives the line with one rune before each index of `P :: ps`. -/
theorem insertBeforeEach_shift (r : Char) (ps : List Int) (P : Int) (hps : ∀ p ∈ ps, p < P)
    (l : Line) :
    ∀ i : Int, i ≤ P → P ≤ i + (l.length : Int) →
      insertBeforeEach r ps i (l.take (P - i).toNat ++ r :: l.drop (P - i).toNat)
        = insertBeforeEach r (P :: ps) i l := by
  have hP : P ∉ ps := fun h => by have := hps P h; omega
  induction l with
  | nil =>
    intro i h1 h2
    have : i = P := by simp at h2; omega
    subst this
    have h3 : i + 1 ∉ ps := fun h => by have := hps _ h; omega
    simp [insertBeforeEach, hP, h3]
  | cons x xs ih =>
    intro i h1 h2
    by_cases h : i = P
    · subst h
      have e : (i - i).toNat = 0 := by omega
      rw [e]
      simp only [List.take_zero, List.drop_zero, List.nil_append]
      rw [insertBeforeEach, if_neg hP,
        insertBeforeEach_of_lt r ps (x :: xs) (i + 1) (fun p hp => by have := hps p hp; omega),
        insertBeforeEach, if_pos (List.mem_cons_self _ _),
        insertBeforeEach_of_lt r (i :: ps) xs (i + 1) (fun p hp => by
          rcases List.mem_cons.mp hp with rfl | hp
          · omega
          · have := hps p hp; omega)]
      rfl
    · have hlt : i < P := by omega
      obtain ⟨k, hk⟩ : ∃ k : Nat, (P - i).toNat = k + 1 := ⟨(P - i).toNat - 1, by omega⟩
      have hk2 : (P - (i + 1)).toNat = k := by omega
      have hih := ih (i + 1) (by omega)
        (by simp only [List.length_cons] at h2; push_cast at h2; omega)
      rw [hk2] at hih
      rw [hk]
      simp only [List.take_succ_cons, List.drop_succ_cons, List.cons_append]
      rw [insertBeforeEach, hih, insertBeforeEach]
      have hm : i ∈ P :: ps ↔ i ∈ ps := by
        simp [h]
      by_cases hi : i ∈ ps
      · rw [if_pos hi, if_pos (hm.mpr hi)]
      · rw [if_neg hi, if_neg (fun h => hi (hm.mp h))]

theorem PutRuneSpec_nil (r : Char) (lines : List Line) : PutRuneSpec r [] lines = lines := by
  apply List.ext_getElem?
  intro j
  rw [PutRuneSpec, List.getElem?_mapIdx]
  cases lines[j]? with
  | none => rfl
  | some l =>
    simp only [List.filter_nil, List.map_nil, Option.map_some']
    rw [insertBeforeEach_of_lt r [] l 0 (by simp)]

/-- On rune lists: when the cursors sharing a line are listed in strictly
descending position, the loop yields the buffer the specification describes. -/
theorem PutRuneAtCursors_descending (r : Char) (cs : Cursors) :
    ∀ b : Ovim.Buffer, (∀ c ∈ cs, c.Valid b) →
      cs.Pairwise (fun c d => c.Line = d.Line → d.Pos < c.Pos) →
      ∃ b2, b.PutRuneAtCursors cs r = some b2 ∧ b2.Lines = PutRuneSpec r cs b.Lines := by
  induction cs with
  | nil =>
    intro b _ _
    exact ⟨b, rfl, (PutRuneSpec_nil r b.Lines).symm⟩
  | cons c0 cs ih =>
    intro b hv hd
    obtain ⟨l, hl, hp0, hp⟩ := valid_line b c0 (hv c0 (List.mem_cons_self _ _))
    obtain ⟨h0, hlt⟩ := index_lt_length _ _ _ hl
    obtain ⟨n, hn⟩ := Int.eq_ofNat_of_zero_le h0
    have hn' : n < b.Lines.length := by omega
    have hl' : b.Lines[n]? = some l := by rw [← index_natCast, ← hn]; exact hl
    rw [List.pairwise_cons] at hd
    obtain ⟨hlow, hd'⟩ := hd
    have hs := putRuneAt_eq r b c0 n l hn hl' ⟨hp0, hp⟩
    have hset := index_set b.Lines n (l.take c0.Pos.toNat ++ r :: l.drop c0.Pos.toNat) hn'
    obtain ⟨b2, hb2, hspec⟩ := ih
      ⟨b.Lines.set n (l.take c0.Pos.toNat ++ r :: l.drop c0.Pos.toNat)⟩ (by
        intro c hc
        obtain ⟨v0, v1, v2, v3⟩ := hv c (List.mem_cons_of_mem _ hc)
        refine ⟨v0, by simpa [Buffer.Length] using v1, v2, ?_⟩
        rw [hset]
        by_cases hcl : c.Line = n
        · rw [if_pos hcl]
          rw [hcl, index_natCast, hl'] at v3
          simp only [Option.getD_some, List.length_append, List.length_cons,
            List.length_take, List.length_drop] at v3 ⊢
          omega
        · rw [if_neg hcl]; exact v3) hd'
    refine ⟨b2, by rw [Buffer.PutRuneAtCursors, List.foldlM_cons, hs]; exact hb2, ?_⟩
    rw [hspec]
    apply List.ext_getElem?
    intro j
    rw [PutRuneSpec, PutRuneSpec, List.getElem?_mapIdx, List.getElem?_mapIdx,
      List.getElem?_set]
    by_cases hnj : n = j
    · subst hnj
      rw [if_pos rfl, if_pos hn', hl']
      simp only [Option.map_some']
      rw [List.filter_cons_of_pos (by simpa using hn)]
      simp only [List.map_cons]
      have hsh := insertBeforeEach_shift r
        ((cs.filter fun c => decide (c.Line = (n : Int))).map Cursor.Pos) c0.Pos (by
          intro p hpm
          obtain ⟨d, hdm, rfl⟩ := List.mem_map.mp hpm
          obtain ⟨hdc, hdl⟩ := List.mem_filter.mp hdm
          exact hlow d hdc (by rw [hn]; exact (of_decide_eq_true hdl).symm)) l 0 hp0 (by omega)
      rw [sub_zero] at hsh
      rw [hsh]
    · rw [if_neg hnj]
      have : ¬ (c0.Line = (j : Int)) := by omega
      rw [List.filter_cons_of_neg (by simpa using this)]

theorem PutRuneSpec_length (r : Char) (cs : Cursors) (lines : List Line) :
    (PutRuneSpec r cs lines).length = lines.length := by
  simp [PutRuneSpec]

theorem PutRuneSpec_frame (r : Char) (cs : Cursors) (lines : List Line) (j : Int)
    (hj : ∀ c ∈ cs, c.Line ≠ j) : index (PutRuneSpec r cs lines) j = index lines j := by
  by_cases h0 : 0 ≤ j
  · obtain ⟨n, rfl⟩ := Int.eq_ofNat_of_zero_le h0
    rw [index_natCast, index_natCast, PutRuneSpec, List.getElem?_mapIdx]
    have hf : cs.filter (fun c => decide (c.Line = (n : Int))) = [] := by
      rw [List.filter_eq_nil_iff]
      intro c hc
      simpa using hj c hc
    rw [hf]
    cases lines[n]? with
    | none => rfl
    | some l =>
      simp only [List.map_nil, Option.map_some']
      rw [insertBeforeEach_of_lt r [] l 0 (by simp)]
  · simp [index, h0]

/-! ## RemoveRuneBeforeCursors -/

/-- On rune lists: for valid cursors standing on pairwise distinct lines the
loop succeeds and keeps the number of lines; the line of a cursor at column 0
is unchanged, the line of a cursor (L, P) with P > 0 is the original line
without its rune at index P - 1, and every line without a cursor is
unchanged. -/
theorem RemoveRuneBeforeCursors_distinctLines (b : Buffer) (cs : Cursors)
    (hvalid : ∀ c ∈ cs, c.Valid b)
    (hdistinct : cs.Pairwise (fun c d => c.Line ≠ d.Line)) :
    ∃ b2, b.RemoveRuneBeforeCursors cs = some b2 ∧
      b2.Length = b.Length ∧
      (∀ c ∈ cs, c.Pos = 0 → index b2.Lines c.Line = index b.Lines c.Line) ∧
      (∀ c ∈ cs, 0 < c.Pos → ∀ l, index b.Lines c.Line = some l →
          index b2.Lines c.Line = some (l.eraseIdx (c.Pos - 1).toNat)) ∧
      (∀ j : Int, (∀ c ∈ cs, c.Line ≠ j) → index b2.Lines j = index b.Lines j) := by
  obtain ⟨b2, h, hlen, hA, hB⟩ := foldlM_lineEdit Buffer.removeRuneBefore
    (fun c l => if c.Pos > 0 then l.take (c.Pos - 1).toNat ++ l.drop c.Pos.toNat else l)
    (fun c l => 0 ≤ c.Pos ∧ c.Pos ≤ (l.length : Int))
    (fun b c n l hn hl hp => removeRuneBefore_eq b c n l hn hl hp) cs b hdistinct
    (fun c hc => valid_line b c (hvalid c hc))
  refine ⟨b2, h, by simp [Buffer.Length, hlen], ?_, ?_, hB⟩
  · intro c hc h0
    obtain ⟨l, hl, -, -⟩ := valid_line b c (hvalid c hc)
    have hn : ¬ (c.Pos > 0) := by omega
    rw [hA c hc l hl, hl, if_neg hn]
  · intro c hc h0 l hl
    rw [hA c hc l hl, if_pos h0, List.eraseIdx_eq_take_drop_succ]
    have : (c.Pos - 1).toNat + 1 = c.Pos.toNat := by omega
    rw [this]

/-! ## Move -/

theorem lineLen_of_index (b : Buffer) (i : Int) (l : Line) (h : index b.Lines i = some l) :
    b.lineLen i = some (l.length : Int) := by
  simp [Buffer.lineLen, h]

/-- C4. For every buffer and every valid cursor other than (0,0), Move Left
followed by Move Right succeeds and gives back the original cursor, also when
Left wraps from column 0 to the end of the previous line. -/
theorem Move_left_right (b : Buffer) (c : Cursor) (hv : c.Valid b)
    (hne : c ≠ ⟨0, 0⟩) :
    (Move b c .CursorLeft).bind (fun c1 => Move b c1 .CursorRight) = some c := by
  obtain ⟨l, hl, hp0, hp⟩ := valid_line b c hv
  obtain ⟨hL0, hLn, -, -⟩ := hv
  obtain ⟨cl, cp⟩ := c
  simp only at hl hp0 hp hL0 hLn
  by_cases h1 : cp > 0
  · have h2 : cp - 1 < (l.length : Int) := by omega
    simp [Move, h1, lineLen_of_index b cl l hl, h2]
  · have hcp : cp = 0 := by omega
    subst hcp
    have hcl : cl > 0 := by
      rcases lt_or_eq_of_le hL0 with h | h
      · exact h
      · exact absurd (by rw [← h]) hne
    obtain ⟨l1, hl1⟩ := index_isSome_of_lt b.Lines (cl - 1) (by omega)
      (by unfold Buffer.Length at hLn; omega)
    have h3 : cl - 1 < b.Length - 1 := by omega
    simp [Move, hcl, lineLen_of_index b _ l1 hl1, h3]

/-- Witness for C4: the cursor (1,0) of "ab", "cd" wraps to (0,2) and back. -/
theorem Move_left_right_witness :
    (Move ⟨["ab".data, "cd".data]⟩ ⟨1, 0⟩ .CursorLeft).bind
        (fun c1 => Move ⟨["ab".data, "cd".data]⟩ c1 .CursorRight) = some ⟨1, 0⟩ :=
  Move_left_right ⟨["ab".data, "cd".data]⟩ ⟨1, 0⟩ (by decide) (by decide)

/-- C5. Move preserves cursor validity: in a buffer with at least one line,
for every valid cursor and each of the six directions, Move succeeds and the
resulting cursor is valid in the same buffer (Move returns only the cursor;
the buffer is read, never written). -/
theorem Move_valid (b : Buffer) (c : Cursor) (d : CursorDirection)
    (_hb : 0 < b.Length) (hv : c.Valid b) :
    ∃ c2, Move b c d = some c2 ∧ c2.Valid b := by
  obtain ⟨l, hl, hp0, hp⟩ := valid_line b c hv
  obtain ⟨hL0, hLn, -, -⟩ := hv
  have hlen := lineLen_of_index b c.Line l hl
  have key : ∀ (i : Int), 0 ≤ i → i < b.Length → ∃ m, index b.Lines i = some m :=
    fun i h0 h1 => index_isSome_of_lt b.Lines i h0 (by unfold Buffer.Length at h1; exact h1)
  cases d with
  | CursorUp =>
    by_cases h : c.Line > 0
    · obtain ⟨m, hm⟩ := key (c.Line - 1) (by omega) (by omega)
      refine ⟨_, by simp [Move, h, lineLen_of_index b _ m hm]; rfl, ?_⟩
      refine ⟨by simp; omega, by simp; omega, ?_, ?_⟩
      · simp only; split <;> omega
      · simp only [hm, Option.getD_some]; split <;> omega
    · exact ⟨c, by simp [Move, h], ⟨hL0, hLn, hp0, by simpa [hl] using hp⟩⟩
  | CursorDown =>
    by_cases h : c.Line < b.Length - 1
    · obtain ⟨m, hm⟩ := key (c.Line + 1) (by omega) (by omega)
      refine ⟨_, by simp [Move, h, lineLen_of_index b _ m hm]; rfl, ?_⟩
      refine ⟨by simp; omega, by simp; omega, ?_, ?_⟩
      · simp only; split <;> omega
      · simp only [hm, Option.getD_some]; split <;> omega
    · exact ⟨c, by simp [Move, h], ⟨hL0, hLn, hp0, by simpa [hl] using hp⟩⟩
  | CursorLeft =>
    by_cases h1 : c.Pos > 0
    · refine ⟨_, by simp [Move, h1]; rfl, ?_⟩
      exact ⟨hL0, hLn, by simp; omega, by simp [hl]; omega⟩
    · by_cases h : c.Line > 0
      · obtain ⟨m, hm⟩ := key (c.Line - 1) (by omega) (by omega)
        refine ⟨_, by simp [Move, h, h1, lineLen_of_index b _ m hm]; rfl, ?_⟩
        exact ⟨by simp; omega, by simp; omega, by simp, by simp [hm]⟩
      · exact ⟨c, by simp [Move, h, h1], ⟨hL0, hLn, hp0, by simpa [hl] using hp⟩⟩
  | CursorRight =>
    by_cases h1 : c.Pos < (l.length : Int)
    · refine ⟨_, by simp [Move, hlen, h1]; rfl, ?_⟩
      exact ⟨hL0, hLn, by simp; omega, by simp [hl]; omega⟩
    · by_cases h : c.Line < b.Length - 1
      · obtain ⟨m, hm⟩ := key (c.Line + 1) (by omega) (by omega)
        refine ⟨_, by simp [Move, hlen, h, h1]; rfl, ?_⟩
        exact ⟨by simp; omega, by simp; omega, by simp, by simp [hm]⟩
      · exact ⟨c, by simp [Move, hlen, h, h1], ⟨hL0, hLn, hp0, by simpa [hl] using hp⟩⟩
  | CursorBegin =>
    exact ⟨_, rfl, ⟨hL0, hLn, by simp, by simp [hl]⟩⟩
  | CursorEnd =>
    refine ⟨_, by simp [Move, hlen]; rfl, ?_⟩
    exact ⟨hL0, hLn, by simp, by simp [hl]⟩

/-- Witness for C5: Up from (1,2) in "a", "cd" clamps to the valid cursor (0,1). -/
theorem Move_valid_witness :
    ∃ c2, Move ⟨["a".data, "cd".data]⟩ ⟨1, 2⟩ .CursorUp = some c2 ∧
      c2.Valid ⟨["a".data, "cd".data]⟩ :=
  Move_valid ⟨["a".data, "cd".data]⟩ ⟨1, 2⟩ .CursorUp (by decide) (by decide)

/-! ## InSelection -/

/-- C6. InSelection is false for every disabled selection; for an enabled
selection that is not in block shape it is true exactly when
start ≤ (line, pos) ≤ end in the lexicographic order (line, then pos), both
bounds included. -/
theorem InSelection_fluid (st en : Cursor) (blk : Bool) (line pos : Int) :
    Selection.InSelection ⟨st, en, blk, false⟩ line pos = false ∧
    (Selection.InSelection ⟨st, en, false, true⟩ line pos = true ↔
      toLex (st.Line, st.Pos) ≤ toLex (line, pos) ∧
      toLex (line, pos) ≤ toLex (en.Line, en.Pos)) := by
  constructor
  · simp [Selection.InSelection]
  · simp only [Selection.InSelection, Prod.Lex.le_iff]
    simp
    constructor <;> intro h <;> omega

/-- C8, the claim as stated, fails: with start (2,0) stored after end (0,0),
position (1,0) is not selected, while it is selected once the two bounds are
swapped. -/
theorem InSelection_swap_counterexample :
    Selection.InSelection ⟨⟨2, 0⟩, ⟨0, 0⟩, false, true⟩ 1 0 = false ∧
    Selection.InSelection ⟨⟨0, 0⟩, ⟨2, 0⟩, false, true⟩ 1 0 = true := by
  decide

/-- C8, amended. InSelection reads the stored bounds as they are: whatever the
shape, it is true only for positions with start ≤ (line, pos) ≤ end, so a
selection whose stored start lies after its stored end selects no position. -/
theorem InSelection_unnormalized (s : Selection) (line pos : Int)
    (h : toLex (s.end_.Line, s.end_.Pos) < toLex (s.start.Line, s.start.Pos)) :
    s.InSelection line pos = false := by
  rw [Prod.Lex.lt_iff] at h
  simp only at h
  unfold Selection.InSelection
  by_cases h1 : line < s.start.Line
  · simp [h1]
  · by_cases h2 : line = s.start.Line ∧ pos < s.start.Pos
    · simp [h2.1, h2.2]
    · by_cases h3 : line > s.end_.Line
      · simp [h3]
      · have h4 : line = s.end_.Line ∧ pos > s.end_.Pos := by
          rcases h with h | ⟨h, h5⟩
          · omega
          · refine ⟨by omega, ?_⟩
            by_contra h6
            exact h2 ⟨by omega, by omega⟩
        simp [h4.1, h4.2]

/-- Witness for the amended C8: start (2,0), end (0,0), position (1,0). -/
theorem InSelection_unnormalized_witness :
    Selection.InSelection ⟨⟨2, 0⟩, ⟨0, 0⟩, false, true⟩ 1 0 = false :=
  InSelection_unnormalized ⟨⟨2, 0⟩, ⟨0, 0⟩, false, true⟩ 1 0 (by decide)


/-! ## UpdateSelection -/

/-- C7, evaluated on the code. Buffer "abcdef", "x"; a line-shaped selection
is started with the primary cursor at (0,0), the cursor is moved to (1,0) and
UpdateSelection is called. The stored selection is start (0,0), end (1,0) in
block shape, and position (0,3), a character of line 0 inside the line range,
is reported as not selected. -/
theorem UpdateSelection_lines_is_block :
    (((Vi.HandleSelectionLines (NewVi sampleEditor) (.CharacterEvent 'V')).bind
      fun r => (r.2.setPrimary ⟨1, 0⟩).bind Vi.UpdateSelection).map
        fun em => (em.Selection, em.Editor.Selection, em.Editor.Selection.InSelection 0 3))
      = some (.SelectionLines, ⟨⟨0, 0⟩, ⟨1, 0⟩, true, true⟩, false) := by
  decide

/-! ## The command buffer -/

/-- C9. In command (Navigation) mode with an empty command buffer, whatever
the missing editing functions do: the event '2' is handled and only sets the
command buffer to "2"; '3' then only sets it to "23"; 'x' then yields the
state of RemoveCharacters(23, false) with the command buffer emptied; a lone
'd' only sets the command buffer to "d". -/
theorem HandleEvent_count_x (env : ViEnv) (em : Vi)
    (hm : em.Mode = .ModeCommand) (hc : em.CommandBuffer = "") :
    Vi.HandleEvent env em (.CharacterEvent '2')
      = some (true, { em with CommandBuffer := "2" }) ∧
    Vi.HandleEvent env { em with CommandBuffer := "2" } (.CharacterEvent '3')
      = some (true, { em with CommandBuffer := "23" }) ∧
    Vi.HandleEvent env { em with CommandBuffer := "23" } (.CharacterEvent 'x')
      = some (true, { Vi.RemoveCharacters env em 23 false with CommandBuffer := "" }) ∧
    Vi.feed env em [.CharacterEvent '2', .CharacterEvent '3', .CharacterEvent 'x']
      = some { Vi.RemoveCharacters env em 23 false with CommandBuffer := "" } ∧
    Vi.HandleEvent env em (.CharacterEvent 'd')
      = some (true, { em with CommandBuffer := "d" }) := by
  obtain ⟨ed, mode, cb, cnt, sel, ss, se⟩ := em
  simp only at hm hc
  subst hm
  subst hc
  refine ⟨rfl, rfl, rfl, rfl, rfl⟩

/-- Witness for C9: the fresh emulation of the sample document. -/
theorem HandleEvent_count_x_witness :
    Vi.feed specEnv (NewVi sampleEditor)
        [.CharacterEvent '2', .CharacterEvent '3', .CharacterEvent 'x']
      = some { Vi.RemoveCharacters specEnv (NewVi sampleEditor) 23 false
                with CommandBuffer := "" } :=
  (HandleEvent_count_x specEnv (NewVi sampleEditor) rfl rfl).2.2.2.1

/-- C10, the claim as stated, fails: in command mode with the pending
command buffer "2", the unrecognized character 'z' is reported as not handled
and the command buffer is still "2". -/
theorem HandleEvent_unrecognized_counterexample :
    (Vi.HandleEvent specEnv { NewVi sampleEditor with CommandBuffer := "2" }
        (.CharacterEvent 'z')).map (fun r => (r.1, r.2.CommandBuffer))
      = some (false, "2") := by
  decide

/-- C10, amended. In command mode, for any pending command buffer and any
character event whose rune is neither in the command alphabet nor one of
i, I, o, O, a, A, HandleEvent reports the event as not handled and leaves the
whole state, the pending command buffer included, unchanged. -/
theorem HandleEvent_unrecognized (env : ViEnv) (em : Vi) (r : Char)
    (hm : em.Mode = .ModeCommand)
    (hr : commands.data.contains r = false)
    (hi : r ∉ ['i', 'I', 'o', 'O', 'a', 'A']) :
    Vi.HandleEvent env em (.CharacterEvent r) = some (false, em) := by
  simp only [List.mem_cons, List.mem_singleton, List.not_mem_nil, or_false, not_or] at hi
  obtain ⟨h1, h2, h3, h4, h5, h6⟩ := hi
  have hr2 : r ∉ commands.data := by simpa using hr
  simp [Vi.HandleEvent, dispatchTable, Vi.handleLoop, Dispatch.Do, Event.Equals,
    Dispatch.modeOk, hm, Vi.HandleCommandBuffer, hr2, h1, h2, h3, h4, h5, h6, zeroRune]

/-- Witness for the amended C10: the pending buffer "2" and the rune 'z'. -/
theorem HandleEvent_unrecognized_witness :
    Vi.HandleEvent specEnv { NewVi sampleEditor with CommandBuffer := "2" }
        (.CharacterEvent 'z')
      = some (false, { NewVi sampleEditor with CommandBuffer := "2" }) :=
  HandleEvent_unrecognized specEnv { NewVi sampleEditor with CommandBuffer := "2" } 'z'
    rfl (by decide) (by decide)


/-! ## Cancel and the insertion keys -/

/-- C11. In command (Navigation) mode the handler HandleCommandClear reports
the event as handled and yields a state whose command buffer is empty, whose
mode is still the command mode and whose editor (buffer lines and cursors
included) is the one before; the Escape key event of the dispatch table
reaches exactly this result through HandleEvent. -/
theorem HandleCommandClear_frame (env : ViEnv) (em : Vi) (ev : Event) (r : Char)
    (hm : em.Mode = .ModeCommand) :
    ∃ em2, Vi.HandleCommandClear em ev = some (true, em2) ∧
      em2.CommandBuffer = "" ∧ em2.Mode = .ModeCommand ∧
      em2.Editor.Buffer.Lines = em.Editor.Buffer.Lines ∧
      em2.Editor.Cursors = em.Editor.Cursors ∧ em2.Editor = em.Editor ∧
      Vi.HandleEvent env em (.KeyEvent 0 .KeyEscape r) = some (true, em2) := by
  obtain ⟨ed, mode, cb, cnt, sel, ss, se⟩ := em
  simp only at hm
  subst hm
  exact ⟨_, rfl, rfl, rfl, rfl, rfl, rfl, rfl⟩

/-- Witness for C11: the pending buffer "2" of the sample document is cleared. -/
theorem HandleCommandClear_frame_witness :
    ∃ em2, Vi.HandleCommandClear { NewVi sampleEditor with CommandBuffer := "2" }
        (.KeyEvent 0 .KeyEscape zeroRune) = some (true, em2) ∧
      em2.CommandBuffer = "" ∧ em2.Mode = .ModeCommand ∧ em2.Editor = sampleEditor := by
  obtain ⟨em2, h1, h2, h3, -, -, h4, -⟩ := HandleCommandClear_frame specEnv
    { NewVi sampleEditor with CommandBuffer := "2" } (.KeyEvent 0 .KeyEscape zeroRune)
    zeroRune rfl
  exact ⟨em2, h1, h2, h3, h4⟩

/-- C12, evaluated on the code. In command mode with the pending command
buffer "2", each of the character events i, I, o, O, a, A is handled and
switches to the edit (Insertion) mode, and the command buffer is still "2"
afterwards. -/
theorem HandleEvent_insertion_keeps_buffer :
    (['i', 'I', 'o', 'O', 'a', 'A'].map fun r =>
      (Vi.HandleEvent specEnv { NewVi sampleEditor with CommandBuffer := "2" }
        (.CharacterEvent r)).map fun x => (x.1, x.2.Mode, x.2.CommandBuffer))
      = List.replicate 6 (some (true, ViMode.ModeEdit, "2")) := by
  decide

/-- With `before` set, `Vi.RemoveCharacters` hands the cursor to `MoveMany`
together with the requested count, whatever the removal in the buffer did:
where the cursor ends is what `MoveMany` makes of that count. -/
theorem RemoveCharacters_before_cursor (env : ViEnv) (em : Vi) (c : Cursor) (howmany : Int)
    (hc : em.Editor.Cursors = [c]) :
    (Vi.RemoveCharacters env em howmany true).Editor.Cursors
      = [env.MoveMany (env.RemoveCharacters em.Editor.Buffer c true howmany) c
          .CursorLeft howmany] := by
  simp [Vi.RemoveCharacters, Vi.removeLoop, hc]

/-! ## Block selection -/

/-- C15. For an enabled selection in block shape, InSelection is true exactly
when start.Line ≤ line ≤ end.Line and start.Pos ≤ pos ≤ end.Pos; the test
reads no buffer, so the column bounds are the same on every line whatever the
length of the line. -/
theorem InSelection_block (st en : Cursor) (line pos : Int) :
    Selection.InSelection ⟨st, en, true, true⟩ line pos = true ↔
      (st.Line ≤ line ∧ line ≤ en.Line) ∧ (st.Pos ≤ pos ∧ pos ≤ en.Pos) := by
  simp only [Selection.InSelection]
  simp
  constructor <;> intro h <;> omega

/-! ## Vertical movement -/

/-- C17. For a valid cursor (L,P): Down below the last line gives
(L+1, min(P, length of line L+1)); Up above line 0 gives
(L-1, min(P, length of line L-1)); Down on the last line and Up on line 0 give
the cursor back; and Down followed by Up gives (L, min(P, length of line L+1)):
the column P is not restored. -/
theorem Move_up_down (b : Buffer) (c : Cursor) (hv : c.Valid b) :
    (c.Line < b.Length - 1 → ∃ l, index b.Lines (c.Line + 1) = some l ∧
        Move b c .CursorDown = some ⟨c.Line + 1, min c.Pos (l.length : Int)⟩ ∧
        (Move b c .CursorDown).bind (fun c1 => Move b c1 .CursorUp)
          = some ⟨c.Line, min c.Pos (l.length : Int)⟩) ∧
    (0 < c.Line → ∃ l, index b.Lines (c.Line - 1) = some l ∧
        Move b c .CursorUp = some ⟨c.Line - 1, min c.Pos (l.length : Int)⟩) ∧
    (c.Line = b.Length - 1 → Move b c .CursorDown = some c) ∧
    (c.Line = 0 → Move b c .CursorUp = some c) := by
  obtain ⟨l0, hl0, hp0, hp⟩ := valid_line b c hv
  obtain ⟨hL0, hLn, -, -⟩ := hv
  have key : ∀ (i : Int), 0 ≤ i → i < b.Length → ∃ m, index b.Lines i = some m :=
    fun i h0 h1 => index_isSome_of_lt b.Lines i h0 (by unfold Buffer.Length at h1; exact h1)
  have hmin : ∀ (p n : Int), (if p > n then n else p) = min p n := by
    intro p n
    split
    · rw [min_eq_right (by omega)]
    · rw [min_eq_left (by omega)]
  refine ⟨?_, ?_, ?_, ?_⟩
  · intro h
    obtain ⟨l, hl⟩ := key (c.Line + 1) (by omega) (by omega)
    have hd : Move b c .CursorDown = some ⟨c.Line + 1, min c.Pos (l.length : Int)⟩ := by
      simp only [Move, h, if_true, lineLen_of_index b _ l hl, Option.bind_eq_bind,
        Option.some_bind, Option.pure_def, hmin]
    refine ⟨l, hl, hd, ?_⟩
    rw [hd, Option.some_bind]
    have h1 : c.Line + 1 > 0 := by omega
    have h2 : c.Line + 1 - 1 = c.Line := by omega
    simp only [Move, h1, if_true, h2, lineLen_of_index b _ l0 hl0, Option.bind_eq_bind,
      Option.some_bind, Option.pure_def, hmin]
    congr 2
    rw [min_eq_left]
    exact le_trans (min_le_left _ _) hp
  · intro h
    obtain ⟨l, hl⟩ := key (c.Line - 1) (by omega) (by omega)
    refine ⟨l, hl, ?_⟩
    have h1 : c.Line > 0 := h
    simp only [Move, h1, if_true, lineLen_of_index b _ l hl, Option.bind_eq_bind,
      Option.some_bind, Option.pure_def, hmin]
  · intro h
    have h1 : ¬ (c.Line < b.Length - 1) := by omega
    simp [Move, h1]
  · intro h
    have h1 : ¬ (c.Line > 0) := by omega
    simp [Move, h1]

/-- Witness for C17: in "abc", "d" the cursor (0,3) goes down to (1,1) and
back up to (0,1). -/
theorem Move_up_down_witness :
    (Move ⟨["abc".data, "d".data]⟩ ⟨0, 3⟩ .CursorDown).bind
        (fun c1 => Move ⟨["abc".data, "d".data]⟩ c1 .CursorUp) = some ⟨0, 1⟩ := by
  obtain ⟨l, hl, -, h⟩ := (Move_up_down ⟨["abc".data, "d".data]⟩ ⟨0, 3⟩ (by decide)).1
    (by decide)
  have hl2 : l = "d".data := by
    have : index (["abc".data, "d".data] : List Line) ((0 : Int) + 1) = some "d".data := by decide
    rw [this] at hl
    exact (Option.some.inj hl).symm
  subst hl2
  exact h

/-! ## GetLines -/

/-- C18, evaluated on the code. GetLines(-1, 0) on the one-line buffer "a"
passes the three tests and slices `Lines[-1:0]`, which is out of range. -/
theorem GetLines_negative_start_fails :
    Buffer.GetLines ⟨["a".data]⟩ (-1) 0 = none := by
  decide

/-- C19. For 0 ≤ start ≤ end and start ≤ n, GetLines succeeds with the lines
of indices start, ..., min(end, n) - 1 in order: the result has
min(end, n) - start elements and its k-th element is line start + k (the
buffer is only read). -/
theorem GetLines_range (b : Buffer) (start end_ : Int)
    (h0 : 0 ≤ start) (h1 : start ≤ end_) (h2 : start ≤ b.Length) :
    ∃ res, b.GetLines start end_ = some res ∧
      (res.length : Int) = min end_ b.Length - start ∧
      ∀ k : Int, 0 ≤ k → k < min end_ b.Length - start →
        index res k = index b.Lines (start + k) ∧ (index res k).isSome := by
  have hn1 : ¬ (start > b.Length) := by omega
  have hn2 : ¬ (start > end_) := by omega
  have hclamp : (if end_ > b.Length then b.Length else end_) = min end_ b.Length := by
    split
    · rw [min_eq_right (by omega)]
    · rw [min_eq_left (by omega)]
  have hb : min end_ b.Length ≤ (b.Lines.length : Int) := min_le_right _ _
  have hs : start ≤ min end_ b.Length := le_min h1 h2
  obtain ⟨s, rfl⟩ := Int.eq_ofNat_of_zero_le h0
  obtain ⟨e, he⟩ := Int.eq_ofNat_of_zero_le (le_trans h0 hs)
  rw [he] at hb hs
  have hb2 : e ≤ b.Lines.length := by omega
  have hs2 : s ≤ e := by omega
  refine ⟨(b.Lines.take e).drop s, ?_, ?_, ?_⟩
  · simp only [Buffer.GetLines, hn1, hn2, if_false, hclamp, he, slice]
    rw [if_pos ⟨h0, hs, hb⟩]
    simp
  · rw [he]
    simp only [List.length_drop, List.length_take]
    omega
  · intro k hk0 hk1
    rw [he] at hk1
    obtain ⟨k, rfl⟩ := Int.eq_ofNat_of_zero_le hk0
    have e1 : (s : Int) + (k : Int) = ((s + k : Nat) : Int) := by push_cast; rfl
    have hlt : s + k < e := by omega
    have heq : index ((b.Lines.take e).drop s) (k : Int) = index b.Lines ((s : Int) + k) := by
      rw [e1, index_natCast, index_natCast, List.getElem?_drop, List.getElem?_take]
      simp [hlt]
    refine ⟨heq, ?_⟩
    rw [heq, e1, index_natCast]
    have : s + k < b.Lines.length := by omega
    simp [List.getElem?_eq_getElem this]

/-- Witness for C19: GetLines(1, 7) of a three-line buffer is its last two
lines. -/
theorem GetLines_range_witness :
    ∃ res, Buffer.GetLines ⟨["a".data, "b".data, "c".data]⟩ 1 7 = some res ∧
      (res.length : Int) = 2 := by
  obtain ⟨res, h, hl, -⟩ := GetLines_range ⟨["a".data, "b".data, "c".data]⟩ 1 7
    (by decide) (by decide) (by decide)
  exact ⟨res, h, by rw [hl]; decide⟩

/-! ## GetStatus -/

/-- C14. For a state whose primary cursor is (L,P), GetStatus returns the
mode indicator, the filename, a blank, the modified indicator, three blanks,
the command buffer, "  row ", L+1 in decimal, " col " and P+1 in decimal; the
result is the same for every width (the function returns the string only). -/
theorem GetStatus_format (em : Vi) (width : Int) (c0 : Cursor)
    (h : index em.Editor.Cursors 0 = some c0) :
    em.GetStatus width = some
      ((if em.Mode = .ModeEdit then "--INSERT-- " else "") ++ em.Editor.filename ++ " " ++
        (if em.Editor.Modified = true then "(modified) " else "") ++ "   " ++
        em.CommandBuffer ++ "  row " ++ decimal (c0.Line + 1) ++ " col " ++
        decimal (c0.Pos + 1)) ∧
    ∀ w2 : Int, em.GetStatus w2 = em.GetStatus width := by
  refine ⟨?_, fun _ => rfl⟩
  simp only [Vi.GetStatus, h, Option.bind_eq_bind, Option.some_bind, Option.pure_def,
    Option.some.injEq, Sprintf, Editor.GetFilename]
  apply String.ext
  have h1 : " ".data = [' '] := by decide
  have h3 : "   ".data = [' ', ' ', ' '] := by decide
  have hr : "  row ".data = [' ', ' ', 'r', 'o', 'w', ' '] := by decide
  have hc : " col ".data = [' ', 'c', 'o', 'l', ' '] := by decide
  simp [sprintfChars, String.data_append, h1, h3, hr, hc]

/-- Witness for C14: edit mode, pending buffer "2", cursor (1,2). -/
theorem GetStatus_format_witness :
    Vi.GetStatus { NewVi sampleEditorX with CommandBuffer := "2", Mode := .ModeEdit } 80
      = some "--INSERT-- a.txt    2  row 2 col 3" := by
  have h := (GetStatus_format
    { NewVi sampleEditorX with CommandBuffer := "2", Mode := .ModeEdit } 80 ⟨1, 2⟩ rfl).1
  rw [h]
  decide

/-! ## Fluid selection -/

/-- C16. A fluid selection started with the primary cursor at A, the cursor
then set to B and UpdateSelection called: all three steps succeed, the stored
start is the lexicographically smaller of A and B and the stored end the
larger, the selection is enabled, the anchor SelectionStart is A, and setting
the cursor to any C afterwards changes neither the stored selection nor the
anchor. -/
theorem UpdateSelection_fluid (em : Vi) (A B : Cursor)
    (hs : em.Selection = .SelectionFluid)
    (hA : index em.Editor.Cursors 0 = some A) :
    ∃ em1 em2 em3, em.StartSelection = some em1 ∧ em1.setPrimary B = some em2 ∧
      em2.UpdateSelection = some em3 ∧
      em3.Editor.Selection.start
        = (if toLex (B.Line, B.Pos) < toLex (A.Line, A.Pos) then B else A) ∧
      em3.Editor.Selection.end_
        = (if toLex (B.Line, B.Pos) < toLex (A.Line, A.Pos) then A else B) ∧
      em3.Editor.Selection.enabled = true ∧
      em3.SelectionStart = A ∧
      ∀ C : Cursor, ∃ em4, em3.setPrimary C = some em4 ∧
        em4.Editor.Selection = em3.Editor.Selection ∧ em4.SelectionStart = A := by
  obtain ⟨ed, mode, cb, cnt, sel, ss, se⟩ := em
  obtain ⟨fn, buf, md, cs, esel⟩ := ed
  simp only at hs hA
  subst hs
  cases cs with
  | nil => simp [index] at hA
  | cons c rest =>
    have : c = A := by simpa [index] using hA
    subst this
    have hswap : (decide (B.Line < c.Line) || (decide (B.Line = c.Line) && decide (B.Pos < c.Pos)))
        = decide (toLex (B.Line, B.Pos) < toLex (c.Line, c.Pos)) := by
      rw [Bool.eq_iff_iff]
      simp [Prod.Lex.lt_iff]
    let sw : Bool := decide (toLex (B.Line, B.Pos) < toLex (c.Line, c.Pos))
    refine ⟨⟨⟨fn, buf, md, c :: rest, ⟨c, c, esel.block, true⟩⟩, mode, cb, cnt,
        .SelectionFluid, c, c⟩,
      ⟨⟨fn, buf, md, B :: rest, ⟨c, c, esel.block, true⟩⟩, mode, cb, cnt,
        .SelectionFluid, c, c⟩,
      ⟨⟨fn, buf, md, B :: rest,
          ⟨if sw then B else c, if sw then c else B, esel.block, true⟩⟩, mode, cb, cnt,
        .SelectionFluid, c, B⟩, ?_, ?_, ?_, ?_, ?_, rfl, rfl, ?_⟩
    · simp [Vi.StartSelection, Vi.UpdateSelection, index, Selection.SetEnd,
        Selection.SetStart, Selection.Enable]
    · simp [Vi.setPrimary, store]
    · have hiff : (B.Line < c.Line ∨ B.Line = c.Line ∧ B.Pos < c.Pos) ↔
          toLex (B.Line, B.Pos) < toLex (c.Line, c.Pos) := by
        simp [Prod.Lex.lt_iff]
      simp [Vi.UpdateSelection, index, Selection.SetEnd, Selection.SetStart, hiff, sw]
    · simp only [sw]
      by_cases h : toLex (B.Line, B.Pos) < toLex (c.Line, c.Pos) <;> simp [h]
    · simp only [sw]
      by_cases h : toLex (B.Line, B.Pos) < toLex (c.Line, c.Pos) <;> simp [h]
    · intro C
      exact ⟨⟨⟨fn, buf, md, C :: rest,
          ⟨if sw then B else c, if sw then c else B, esel.block, true⟩⟩, mode, cb, cnt,
        .SelectionFluid, c, B⟩, by simp [Vi.setPrimary, store], rfl, rfl⟩

/-- Witness for C16: anchor (0,0) in the sample document, cursor moved to (1,0). -/
theorem UpdateSelection_fluid_witness :
    ∃ em3, ((Vi.StartSelection { NewVi sampleEditor with Selection := .SelectionFluid }).bind
        fun em1 => (em1.setPrimary ⟨1, 0⟩).bind Vi.UpdateSelection) = some em3 ∧
      em3.Editor.Selection.start = ⟨0, 0⟩ ∧ em3.Editor.Selection.end_ = ⟨1, 0⟩ := by
  obtain ⟨em1, em2, em3, h1, h2, h3, h4, h5, -, -, -⟩ := UpdateSelection_fluid
    { NewVi sampleEditor with Selection := .SelectionFluid } ⟨0, 0⟩ ⟨1, 0⟩ rfl rfl
  refine ⟨em3, by simp [h1, h2, h3], ?_, ?_⟩
  · rw [h4]; decide
  · rw [h5]; decide

/-! ## SplitLines and the order of the cursors -/

theorem find_line_of_mem (cs : List Cursor) :
    cs.Pairwise (fun c d => c.Line ≠ d.Line) → ∀ c ∈ cs,
      cs.find? (fun d => decide (d.Line = c.Line)) = some c := by
  induction cs with
  | nil => intro _ c hc; cases hc
  | cons c0 cs ih =>
    intro hd c hc
    rw [List.pairwise_cons] at hd
    obtain ⟨hne, hd2⟩ := hd
    rcases List.mem_cons.mp hc with rfl | hc
    · simp [List.find?_cons]
    · have := hne c hc
      rw [List.find?_cons]
      simp only [decide_eq_true_eq, this, decide_False]
      exact ih hd2 c hc

theorem find_line_perm (cs cs2 : List Cursor)
    (hd : cs.Pairwise (fun c d => c.Line ≠ d.Line)) (hp : cs2.Perm cs) (j : Int) :
    cs2.find? (fun d => decide (d.Line = j)) = cs.find? (fun d => decide (d.Line = j)) := by
  have hd2 : cs2.Pairwise (fun c d => c.Line ≠ d.Line) :=
    hp.symm.pairwise hd (fun h => h.symm)
  by_cases h : ∃ c ∈ cs, c.Line = j
  · obtain ⟨c, hc, rfl⟩ := h
    rw [find_line_of_mem cs hd c hc, find_line_of_mem cs2 hd2 c (hp.mem_iff.mpr hc)]
  · have h1 : cs.find? (fun d => decide (d.Line = j)) = none := by
      rw [List.find?_eq_none]
      intro c hc
      simpa using fun e => h ⟨c, hc, e⟩
    have h2 : cs2.find? (fun d => decide (d.Line = j)) = none := by
      rw [List.find?_eq_none]
      intro c hc
      simpa using fun e => h ⟨c, hp.mem_iff.mp hc, e⟩
    rw [h1, h2]

theorem splitSpecFrom_congr (cs1 cs2 : List Cursor) (ls : List Line) :
    ∀ j : Int, (∀ i : Int, j ≤ i →
        cs1.find? (fun d => decide (d.Line = i)) = cs2.find? (fun d => decide (d.Line = i))) →
      splitSpecFrom cs1 j ls = splitSpecFrom cs2 j ls := by
  induction ls with
  | nil => intro j _; rfl
  | cons l ls ih =>
    intro j h
    rw [splitSpecFrom, splitSpecFrom, h j (le_refl _), ih (j + 1) (fun i hi => h i (by omega))]

theorem splitSpecFrom_append (cs : List Cursor) (xs ys : List Line) :
    ∀ j : Int, splitSpecFrom cs j (xs ++ ys)
      = splitSpecFrom cs j xs ++ splitSpecFrom cs (j + (xs.length : Int)) ys := by
  induction xs with
  | nil => intro j; simp [splitSpecFrom]
  | cons x xs ih =>
    intro j
    have e : j + ((x :: xs).length : Int) = j + 1 + (xs.length : Int) := by
      simp only [List.length_cons]; push_cast; omega
    rw [List.cons_append, splitSpecFrom, splitSpecFrom, ih (j + 1), e, List.append_assoc]

theorem splitSpecFrom_noHit (cs : List Cursor) (xs : List Line) :
    ∀ j : Int, (∀ c ∈ cs, c.Line < j ∨ j + (xs.length : Int) ≤ c.Line) →
      splitSpecFrom cs j xs = xs := by
  induction xs with
  | nil => intro j _; rfl
  | cons x xs ih =>
    intro j h
    have hnone : cs.find? (fun d => decide (d.Line = j)) = none := by
      rw [List.find?_eq_none]
      intro c hc
      have := h c hc
      simp only [List.length_cons] at this
      push_cast at this
      simp only [decide_eq_true_eq]
      omega
    rw [splitSpecFrom, hnone, ih (j + 1) (fun c hc => by
      have := h c hc
      simp only [List.length_cons] at this
      push_cast at this
      omega)]
    rfl

/-- The split loop over cursors on strictly increasing lines yields the buffer
in which each cursor's line is split at the cursor. -/
theorem splitLoop_eq_spec (cs : List Cursor) :
    ∀ (cur : List Line) (a : Int),
      cs.Pairwise (fun c d => c.Line < d.Line) →
      (∀ c ∈ cs, 0 ≤ c.Pos ∧ ∃ l, index cur (c.Line + a) = some l ∧ c.Pos ≤ (l.length : Int)) →
      Buffer.splitLoop cur a cs = some (splitSpecFrom cs (-a) cur) := by
  induction cs with
  | nil =>
    intro cur a _ _
    rw [Buffer.splitLoop, splitSpecFrom_noHit [] cur (-a) (by simp)]
  | cons c0 cs ih =>
    intro cur a hs hv
    obtain ⟨hp0, l0, hl0, hp⟩ := hv c0 (List.mem_cons_self _ _)
    obtain ⟨h0, hlt⟩ := index_lt_length _ _ _ hl0
    obtain ⟨n, hn⟩ := Int.eq_ofNat_of_zero_le h0
    have hn' : n < cur.length := by omega
    have hl0' : cur[n]? = some l0 := by rw [← index_natCast, ← hn]; exact hl0
    rw [List.pairwise_cons] at hs
    obtain ⟨hgt, hs'⟩ := hs
    have hsp := index_splice cur n (l0.take c0.Pos.toNat) (l0.drop c0.Pos.toNat) hn'
    have hshift : ∀ c ∈ cs, index (cur.take n ++ ([l0.take c0.Pos.toNat, l0.drop c0.Pos.toNat]
        ++ cur.drop (n + 1))) (c.Line + (a + 1)) = index cur (c.Line + a) := by
      intro c hc
      have := hgt c hc
      rw [hsp]
      have e : c.Line + (a + 1) - 1 = c.Line + a := by omega
      simp only [e]
      rw [if_neg (by omega), if_neg (by omega), if_neg (by omega)]
    rw [splitLoop_cons cur a c0 cs n hn l0 hl0' hp0 hp, ih _ (a + 1) hs' (by
      intro c hc
      obtain ⟨q0, l, hl, hq⟩ := hv c (List.mem_cons_of_mem _ hc)
      exact ⟨q0, l, by rw [hshift c hc]; exact hl, hq⟩)]
    congr 1
    have hcur : cur = cur.take n ++ ([l0] ++ cur.drop (n + 1)) := by
      have h2 : l0 = cur[n] := by
        rw [List.getElem?_eq_getElem hn'] at hl0'
        exact (Option.some.inj hl0').symm
      rw [h2, List.singleton_append, ← List.drop_eq_getElem_cons hn', List.take_append_drop]
    have hlenT : ((cur.take n).length : Int) = n := by
      rw [List.length_take]; omega
    have lhs : splitSpecFrom cs (-(a + 1))
        (cur.take n ++ ([l0.take c0.Pos.toNat, l0.drop c0.Pos.toNat] ++ cur.drop (n + 1)))
        = cur.take n ++ ([l0.take c0.Pos.toNat, l0.drop c0.Pos.toNat]
            ++ splitSpecFrom cs (c0.Line + 1) (cur.drop (n + 1))) := by
      rw [splitSpecFrom_append, splitSpecFrom_append, hlenT,
        splitSpecFrom_noHit cs (cur.take n) _ (fun c hc => by
          have := hgt c hc
          rw [hlenT]; omega),
        splitSpecFrom_noHit cs [l0.take c0.Pos.toNat, l0.drop c0.Pos.toNat] _ (fun c hc => by
          have := hgt c hc
          simp only [List.length_cons, List.length_nil]
          push_cast
          omega)]
      have e : -(a + 1) + (n : Int)
          + (([l0.take c0.Pos.toNat, l0.drop c0.Pos.toNat] : List Line).length : Int)
          = c0.Line + 1 := by
        simp only [List.length_cons, List.length_nil]
        push_cast
        omega
      rw [e]
    have rhs : splitSpecFrom (c0 :: cs) (-a) (cur.take n ++ ([l0] ++ cur.drop (n + 1)))
        = cur.take n ++ ([l0.take c0.Pos.toNat, l0.drop c0.Pos.toNat]
            ++ splitSpecFrom cs (c0.Line + 1) (cur.drop (n + 1))) := by
      rw [splitSpecFrom_append, splitSpecFrom_append, hlenT,
        splitSpecFrom_noHit (c0 :: cs) (cur.take n) _ (fun c hc => by
          rw [hlenT]
          rcases List.mem_cons.mp hc with rfl | hc
          · omega
          · have := hgt c hc
            omega)]
      have e1 : -a + (n : Int) = c0.Line := by omega
      have e2 : c0.Line + (([l0] : List Line).length : Int) = c0.Line + 1 := by simp
      rw [e1, e2, splitSpecFrom_congr (c0 :: cs) cs _ (c0.Line + 1) (fun i hi => by
        rw [List.find?_cons]
        have : ¬ (c0.Line = i) := by omega
        simp [this])]
      simp [splitSpecFrom, List.find?_cons]
    rw [lhs]
    conv_rhs => rw [hcur]
    rw [rhs]

/-- C20, the claim as stated, fails: on the buffer "ab", "cd" the valid
cursors (1,1), (0,1), a permutation of the ascending list (0,1), (1,1), are
handled in list order and give "ab", "c", "", "d", while the ascending list
gives "a", "b", "c", "d". -/
theorem SplitLines_permutation_counterexample :
    (∀ c ∈ ([⟨1, 1⟩, ⟨0, 1⟩] : Cursors), c.Valid ⟨["ab".data, "cd".data]⟩) ∧
    ([⟨1, 1⟩, ⟨0, 1⟩] : Cursors).Perm [⟨0, 1⟩, ⟨1, 1⟩] ∧
    Buffer.SplitLines ⟨["ab".data, "cd".data]⟩ [⟨1, 1⟩, ⟨0, 1⟩]
      = some ⟨["ab".data, "c".data, "".data, "d".data]⟩ ∧
    Buffer.SplitLines ⟨["ab".data, "cd".data]⟩ [⟨0, 1⟩, ⟨1, 1⟩]
      = some ⟨["a".data, "b".data, "c".data, "d".data]⟩ := by
  refine ⟨by decide, ?_, by decide, by decide⟩
  exact List.Perm.swap _ _ _

/-- C20, amended. SplitLines handles the cursors in list order. Applied to a
list of valid cursors in strictly ascending line order it yields the buffer in
which every cursor's line is split at the cursor and every other line is kept;
that buffer is determined by the set of cursors: it is the split buffer of any
permutation of the list. -/
theorem SplitLines_ascending_spec (b : Buffer) (cs cs2 : Cursors)
    (hvalid : ∀ c ∈ cs, c.Valid b)
    (hsorted : cs.Pairwise (fun c d => c.Line < d.Line))
    (hperm : cs2.Perm cs) :
    b.SplitLines cs = some ⟨SplitSpec cs2 b.Lines⟩ := by
  have hd : cs.Pairwise (fun c d => c.Line ≠ d.Line) :=
    hsorted.imp (fun h => ne_of_lt h)
  have h := splitLoop_eq_spec cs b.Lines 0 hsorted (by
    intro c hc
    obtain ⟨l, hl, h2, h3⟩ := valid_line b c (hvalid c hc)
    exact ⟨h2, l, by simpa using hl, h3⟩)
  rw [Buffer.SplitLines, h]
  simp only [Option.map_some', neg_zero, SplitSpec]
  rw [splitSpecFrom_congr cs2 cs b.Lines 0 (fun i _ => find_line_perm cs cs2 hd hperm i)]

/-- Witness for the amended C20: the ascending list (0,1), (1,1) on "ab",
"cd" and its permutation (1,1), (0,1). -/
theorem SplitLines_ascending_spec_witness :
    Buffer.SplitLines ⟨["ab".data, "cd".data]⟩ [⟨0, 1⟩, ⟨1, 1⟩]
      = some ⟨SplitSpec [⟨1, 1⟩, ⟨0, 1⟩] ["ab".data, "cd".data]⟩ :=
  SplitLines_ascending_spec ⟨["ab".data, "cd".data]⟩ [⟨0, 1⟩, ⟨1, 1⟩] [⟨1, 1⟩, ⟨0, 1⟩]
    (by decide) (by decide) (List.Perm.swap _ _ _)


/-! ## SaveFile -/

/-- C21, evaluated on the code. The editor's filename is "a.txt" and the file
"b.txt" exists. SaveFile("b.txt", false) returns ErrSaveWouldOverwrite and
writes nothing, but the editor's filename is "b.txt" afterwards; the same call
repeated is not refused: it returns no error and overwrites "b.txt" with the
buffer text, the old text going to "b.txt.bak". -/
theorem SaveFile_refusal_renames :
    sampleEditor.filename = "a.txt" ∧
    (Editor.SaveFile sampleEditor "b.txt" false sampleFS).1 = some .ErrSaveWouldOverwrite ∧
    (Editor.SaveFile sampleEditor "b.txt" false sampleFS).2.2 "b.txt" = .present "old\n" ∧
    (Editor.SaveFile sampleEditor "b.txt" false sampleFS).2.1.filename = "b.txt" ∧
    (Editor.SaveFile (Editor.SaveFile sampleEditor "b.txt" false sampleFS).2.1 "b.txt" false
      (Editor.SaveFile sampleEditor "b.txt" false sampleFS).2.2).1 = none ∧
    (Editor.SaveFile (Editor.SaveFile sampleEditor "b.txt" false sampleFS).2.1 "b.txt" false
      (Editor.SaveFile sampleEditor "b.txt" false sampleFS).2.2).2.2 "b.txt"
        = .present "abcdef\nx\n" ∧
    (Editor.SaveFile (Editor.SaveFile sampleEditor "b.txt" false sampleFS).2.1 "b.txt" false
      (Editor.SaveFile sampleEditor "b.txt" false sampleFS).2.2).2.2 "b.txt.bak"
        = .present "old\n" := by
  decide

/-! ## A selection after a cancelled one -/

/-- C24, evaluated on the code. On "abcdef", "x": a block selection is started
at (0,0) and cancelled; the cursor is set to (0,3), a fluid selection is
started, the cursor is set to (1,0) and UpdateSelection is called. The stored
selection is start (0,3), end (1,0), enabled, and still in block shape, so the
position (0,4), which lies between (0,3) and (1,0), is not selected. -/
theorem Fluid_after_block_is_block :
    ((((Vi.HandleSelectionBlock (NewVi sampleEditor) (.CharacterEvent 'v')).bind
        fun r1 => (r1.2.CancelSelection.setPrimary ⟨0, 3⟩).bind
        fun em3 => (Vi.HandleSelectionFluid em3 (.CharacterEvent 'v')).bind
        fun r4 => (r4.2.setPrimary ⟨1, 0⟩).bind Vi.UpdateSelection).map
      fun em => (em.Selection, em.Editor.Selection, em.Editor.Selection.InSelection 0 4))
      = some (.SelectionFluid, ⟨⟨0, 3⟩, ⟨1, 0⟩, true, true⟩, false)) ∧
    (toLex ((0 : Int), (3 : Int)) ≤ toLex ((0 : Int), (4 : Int)) ∧
      toLex ((0 : Int), (4 : Int)) ≤ toLex ((1 : Int), (0 : Int))) := by
  refine ⟨by decide, ?_, ?_⟩ <;> simp [Prod.Lex.le_iff]

/-! ## Cursors sharing a line -/

/-- C25, evaluated on the code. Two coinciding valid cursors at the end of the
line "abc": the first removes the last rune, the second then slices the
two-rune line from index 3, which is out of range. -/
theorem RemoveRuneBeforeCursors_sameLine_fails :
    (∀ c ∈ ([⟨0, 3⟩, ⟨0, 3⟩] : Cursors), c.Valid ⟨["abc".data]⟩) ∧
    Buffer.RemoveRuneBeforeCursors ⟨["abc".data]⟩ [⟨0, 3⟩] = some ⟨["ab".data]⟩ ∧
    Buffer.RemoveRuneBeforeCursors ⟨["abc".data]⟩ [⟨0, 3⟩, ⟨0, 3⟩] = none := by
  decide

/-! ## SplitLines keeps the text -/

theorem sliceTo_eq_some {α : Type} (l r : List α) (i : Int) (h : sliceTo l i = some r) :
    0 ≤ i ∧ i ≤ (l.length : Int) ∧ r = l.take i.toNat := by
  unfold sliceTo at h
  split at h
  · next hc => exact ⟨hc.1, hc.2, (Option.some.inj h).symm⟩
  · cases h

theorem sliceFrom_eq_some {α : Type} (l r : List α) (i : Int) (h : sliceFrom l i = some r) :
    0 ≤ i ∧ i ≤ (l.length : Int) ∧ r = l.drop i.toNat := by
  unfold sliceFrom at h
  split at h
  · next hc => exact ⟨hc.1, hc.2, (Option.some.inj h).symm⟩
  · cases h

/-- Whatever the cursors, a split loop that completes keeps the concatenation
of the lines and adds one line per cursor. -/
theorem splitLoop_flatten (cs : List Cursor) :
    ∀ (cur res : List Line) (a : Int), Buffer.splitLoop cur a cs = some res →
      res.flatten = cur.flatten ∧ res.length = cur.length + cs.length := by
  induction cs with
  | nil =>
    intro cur res a h
    simp only [Buffer.splitLoop, Option.some.injEq] at h
    subst h
    exact ⟨rfl, rfl⟩
  | cons c cs ih =>
    intro cur res a h
    rw [Buffer.splitLoop] at h
    simp only [Option.bind_eq_bind, Option.bind_eq_some] at h
    obtain ⟨line, hline, before, hb, after, ha, head, hh, tail, ht, hrec⟩ := h
    obtain ⟨h0, hlt⟩ := index_lt_length _ _ _ hline
    obtain ⟨n, hn⟩ := Int.eq_ofNat_of_zero_le h0
    have hn' : n < cur.length := by omega
    rw [hn, index_natCast] at hline
    obtain ⟨-, -, rfl⟩ := sliceFrom_eq_some _ _ _ hb
    obtain ⟨-, -, rfl⟩ := sliceTo_eq_some _ _ _ ha
    obtain ⟨-, -, rfl⟩ := sliceTo_eq_some _ _ _ hh
    obtain ⟨-, -, rfl⟩ := sliceFrom_eq_some _ _ _ ht
    have e1 : (c.Line + a).toNat = n := by omega
    have e2 : (c.Line + a + 1).toNat = n + 1 := by omega
    rw [e1, e2] at hrec
    obtain ⟨hf, hl⟩ := ih _ _ _ hrec
    have hline2 : line = cur[n] := by
      rw [List.getElem?_eq_getElem hn'] at hline
      exact (Option.some.inj hline).symm
    have hcur : cur = cur.take n ++ ([line] ++ cur.drop (n + 1)) := by
      rw [hline2, List.singleton_append, ← List.drop_eq_getElem_cons hn', List.take_append_drop]
    constructor
    · rw [hf]
      conv_rhs => rw [hcur]
      simp only [List.flatten_append, List.flatten_cons, List.flatten_nil, List.append_nil,
        List.take_append_drop]
    · rw [hl]
      simp only [List.length_append, List.length_take, List.length_cons, List.length_nil,
        List.length_drop]
      omega

/-- C26. Whenever SplitLines completes, whatever the order of the cursors and
however many stand on one line, the concatenation of all lines' runes in line
order is the same before and after, and the number of lines has grown by the
number of cursors. -/
theorem SplitLines_keeps_text (b b2 : Buffer) (cs : Cursors)
    (h : b.SplitLines cs = some b2) :
    b2.Lines.flatten = b.Lines.flatten ∧ b2.Length = b.Length + cs.length := by
  simp only [Buffer.SplitLines, Option.map_eq_some'] at h
  obtain ⟨res, hres, rfl⟩ := h
  obtain ⟨hf, hl⟩ := splitLoop_flatten cs b.Lines res 0 hres
  exact ⟨hf, by simp [Buffer.Length, hl]⟩

/-- Witness for C26: the cursors (1,1), (0,1), (0,0), out of order and two on
one line, on "ab", "cd". -/
theorem SplitLines_keeps_text_witness :
    ∃ b2, Buffer.SplitLines ⟨["ab".data, "cd".data]⟩ [⟨1, 1⟩, ⟨0, 1⟩, ⟨0, 0⟩] = some b2 ∧
      b2.Lines.flatten = "abcd".data ∧ b2.Length = 5 := by
  have h : Buffer.SplitLines ⟨["ab".data, "cd".data]⟩ [⟨1, 1⟩, ⟨0, 1⟩, ⟨0, 0⟩]
      = some ⟨["ab".data, "c".data, "".data, "".data, "d".data]⟩ := by decide
  have h2 := SplitLines_keeps_text _ _ _ h
  exact ⟨_, h, h2.1, h2.2⟩

/-! ## The alphabet of the command buffer -/

theorem HandleCommandBuffer_alphabet (em em2 : Vi) (ev : Event) (r : Bool)
    (hi : em.BufferInAlphabet) (h : Vi.HandleCommandBuffer em ev = some (r, em2)) :
    em2.BufferInAlphabet := by
  cases ev with
  | KeyEvent m k c => simp [Vi.HandleCommandBuffer] at h
  | CharacterEvent c =>
    simp only [Vi.HandleCommandBuffer] at h
    split at h
    · next hc =>
      simp only [Option.some.injEq, Prod.mk.injEq] at h
      obtain ⟨-, rfl⟩ := h
      intro x hx
      simp only [String.data_append, List.mem_append] at hx
      rcases hx with hx | hx
      · exact hi x hx
      · have : x = c := by simpa [String.singleton] using hx
        subst this
        simpa using hc
    · simp only [Option.some.injEq, Prod.mk.injEq] at h
      obtain ⟨-, rfl⟩ := h
      exact hi

theorem HandleToModeEdit_buffer (env : ViEnv) (em em2 : Vi) (ev : Event) (r : Bool)
    (h : Vi.HandleToModeEdit env em ev = some (r, em2)) :
    em2.CommandBuffer = em.CommandBuffer := by
  cases ev with
  | KeyEvent m k c => simp [Vi.HandleToModeEdit] at h
  | CharacterEvent c =>
    simp only [Vi.HandleToModeEdit, Option.bind_eq_bind, Option.bind_eq_some, Option.pure_def,
      Option.some.injEq, Prod.mk.injEq] at h
    obtain ⟨first, -, -, rfl⟩ := h
    rfl

theorem HandleAnyRune_buffer (env : ViEnv) (em em2 : Vi) (ev : Event) (r : Bool)
    (h : Vi.HandleAnyRune env em ev = some (r, em2)) :
    em2.CommandBuffer = em.CommandBuffer := by
  cases ev with
  | KeyEvent m k c => simp [Vi.HandleAnyRune] at h
  | CharacterEvent c =>
    simp only [Vi.HandleAnyRune, Option.bind_eq_bind, Option.bind_eq_some, Option.pure_def,
      Option.some.injEq, Prod.mk.injEq] at h
    obtain ⟨b, -, -, rfl⟩ := h
    rfl

theorem emptyBuffer_alphabet (em : Vi) (h : em.CommandBuffer = "") : em.BufferInAlphabet := by
  intro c hc
  rw [h] at hc
  simp at hc

theorem CheckExecuteCommandBuffer_alphabet (env : ViEnv) (em : Vi)
    (hi : em.BufferInAlphabet) : (Vi.CheckExecuteCommandBuffer env em).BufferInAlphabet := by
  unfold Vi.CheckExecuteCommandBuffer
  simp only
  split
  · exact emptyBuffer_alphabet _ rfl
  · split
    · exact emptyBuffer_alphabet _ rfl
    · exact hi

/-- Every handler of the dispatch table keeps the command buffer inside the
alphabet, provided the cursor-movement handler keeps or empties it. -/
theorem dispatchTable_alphabet (env : ViEnv)
    (henv : ∀ em ev, (env.HandleMoveCursors em ev).2.CommandBuffer = em.CommandBuffer ∨
      (env.HandleMoveCursors em ev).2.CommandBuffer = "")
    (d : Dispatch) (hd : d ∈ dispatchTable env) (em em2 : Vi) (ev : Event) (r : Bool)
    (hi : em.BufferInAlphabet) (h : d.Handler em ev = some (r, em2)) :
    em2.BufferInAlphabet := by
  simp only [dispatchTable, List.mem_cons, List.mem_singleton, List.not_mem_nil, or_false] at hd
  rcases hd with rfl | rfl | rfl | rfl | rfl | rfl
  · simp only [Vi.HandleToModeCommand, Option.some.injEq, Prod.mk.injEq] at h
    obtain ⟨-, rfl⟩ := h
    exact hi
  · simp only [Vi.HandleCommandClear, Option.some.injEq, Prod.mk.injEq] at h
    obtain ⟨-, rfl⟩ := h
    exact emptyBuffer_alphabet _ rfl
  · have := HandleToModeEdit_buffer env em em2 ev r h
    intro c hc
    rw [this] at hc
    exact hi c hc
  · simp only [Option.some.injEq] at h
    have hb := henv em ev
    rw [h] at hb
    rcases hb with hb | hb
    · intro c hc
      simp only at hb
      rw [hb] at hc
      exact hi c hc
    · exact emptyBuffer_alphabet _ hb
  · exact HandleCommandBuffer_alphabet em em2 ev r hi h
  · have := HandleAnyRune_buffer env em em2 ev r h
    intro c hc
    rw [this] at hc
    exact hi c hc

theorem Do_alphabet (d : Dispatch)
    (hd : ∀ (em em2 : Vi) (ev : Event) (r : Bool), em.BufferInAlphabet →
      d.Handler em ev = some (r, em2) → em2.BufferInAlphabet)
    (em em2 : Vi) (ev : Event) (mode : ViMode) (r : Bool)
    (hi : em.BufferInAlphabet) (h : d.Do em ev mode = some (r, em2)) :
    em2.BufferInAlphabet := by
  unfold Dispatch.Do at h
  split at h
  · exact hd em em2 ev r hi h
  · split at h
    · exact hd em em2 _ r hi h
    · simp only [Option.some.injEq, Prod.mk.injEq] at h
      obtain ⟨-, rfl⟩ := h
      exact hi

theorem handleLoop_alphabet (env : ViEnv) (ds : List Dispatch)
    (hds : ∀ d ∈ ds, ∀ (em em2 : Vi) (ev : Event) (r : Bool), em.BufferInAlphabet →
      d.Handler em ev = some (r, em2) → em2.BufferInAlphabet) :
    ∀ (em em2 : Vi) (ev : Event) (r : Bool), em.BufferInAlphabet →
      Vi.handleLoop env ds em ev = some (r, em2) → em2.BufferInAlphabet := by
  induction ds with
  | nil =>
    intro em em2 ev r hi h
    simp only [Vi.handleLoop, Option.some.injEq, Prod.mk.injEq] at h
    obtain ⟨-, rfl⟩ := h
    exact hi
  | cons d ds ih =>
    intro em em2 ev r hi h
    rw [Vi.handleLoop] at h
    have hd := Do_alphabet d (hds d (List.mem_cons_self _ _)) em
    cases hdo : d.Do em ev em.Mode with
    | none => rw [hdo] at h; cases h
    | some res =>
      obtain ⟨b, em1⟩ := res
      have h1 := hd em1 ev em.Mode b hi hdo
      rw [hdo] at h
      cases b with
      | true =>
        simp only [Option.some.injEq, Prod.mk.injEq] at h
        obtain ⟨-, rfl⟩ := h
        exact CheckExecuteCommandBuffer_alphabet env em1 h1
      | false =>
        exact ih (fun d2 hd2 => hds d2 (List.mem_cons_of_mem _ hd2)) em1 em2 ev r h1 h

/-- C27. In every state reached from NewVi by calls of HandleEvent the command
buffer holds only runes of the alphabet "hjklxXdwc0123456789", provided the
cursor-movement handler (which the sources do not contain) keeps or empties
the command buffer; HandleCommandBuffer appends a rune of the alphabet and
reports true, and for any other rune reports false and returns the state as
it was. -/
theorem CommandBuffer_alphabet (env : ViEnv) (e : Editor)
    (henv : ∀ em ev, (env.HandleMoveCursors em ev).2.CommandBuffer = em.CommandBuffer ∨
      (env.HandleMoveCursors em ev).2.CommandBuffer = "") :
    (∀ em, Vi.Reachable env e em → em.BufferInAlphabet) ∧
    (∀ (em : Vi) (r : Char), r ∈ commands.data →
      Vi.HandleCommandBuffer em (.CharacterEvent r)
        = some (true, { em with CommandBuffer := em.CommandBuffer ++ String.singleton r })) ∧
    (∀ (em : Vi) (r : Char), r ∉ commands.data →
      Vi.HandleCommandBuffer em (.CharacterEvent r) = some (false, em)) := by
  refine ⟨?_, ?_, ?_⟩
  · intro em hr
    induction hr with
    | init => exact emptyBuffer_alphabet _ rfl
    | step em1 em2 ev r _ hstep ih =>
      exact handleLoop_alphabet env (dispatchTable env)
        (fun d hd => dispatchTable_alphabet env henv d hd) em1 em2 ev r ih hstep
  · intro em r hr
    simp [Vi.HandleCommandBuffer, hr]
  · intro em r hr
    simp [Vi.HandleCommandBuffer, hr]

theorem specEnv_keeps_buffer (em : Vi) (ev : Event) :
    (specEnv.HandleMoveCursors em ev).2.CommandBuffer = em.CommandBuffer ∨
      (specEnv.HandleMoveCursors em ev).2.CommandBuffer = "" := by
  left
  cases ev with
  | CharacterEvent c => rfl
  | KeyEvent m k c =>
    simp only [specEnv, specHandleMoveCursors]
    split <;> rfl

/-- Witness for C27: the state reached by the events '2', 'z', '3'. -/
theorem CommandBuffer_alphabet_witness :
    Vi.Reachable specEnv sampleEditor { NewVi sampleEditor with CommandBuffer := "23" } ∧
    Vi.BufferInAlphabet { NewVi sampleEditor with CommandBuffer := "23" } := by
  have h1 : Vi.Reachable specEnv sampleEditor { NewVi sampleEditor with CommandBuffer := "2" } :=
    Vi.Reachable.step _ _ (.CharacterEvent '2') true Vi.Reachable.init (by decide)
  have h2 : Vi.Reachable specEnv sampleEditor { NewVi sampleEditor with CommandBuffer := "2" } :=
    Vi.Reachable.step _ _ (.CharacterEvent 'z') false h1 (by decide)
  have h3 : Vi.Reachable specEnv sampleEditor { NewVi sampleEditor with CommandBuffer := "23" } :=
    Vi.Reachable.step _ _ (.CharacterEvent '3') true h2 (by decide)
  exact ⟨h3, (CommandBuffer_alphabet specEnv sampleEditor specEnv_keeps_buffer).1 _ h3⟩

/-! ## WordStarts -/

theorem mem_wordStartsFrom (t : CharTable) (l : List Char) :
    ∀ (prev : Option CharClass) (k j : Nat),
      j ∈ wordStartsFrom t prev k l ↔
        k ≤ j ∧ ∃ c, l[j - k]? = some c ∧ t.classOf c ≠ .Whitespace ∧
          (if j = k then prev ≠ some (t.classOf c)
            else ∃ d, l[j - k - 1]? = some d ∧ t.classOf d ≠ t.classOf c) := by
  induction l with
  | nil => intro prev k j; simp [wordStartsFrom]
  | cons x xs ih =>
    intro prev k j
    rw [wordStartsFrom, List.mem_append, ih]
    constructor
    · rintro (h | ⟨hk, c, hc, hw, hp⟩)
      · split at h
        · next hcond =>
          have hj : j = k := by simpa using h
          subst hj
          exact ⟨le_refl _, x, by simp, hcond.1, by simpa using hcond.2⟩
        · cases h
      · obtain ⟨m, rfl⟩ : ∃ m, j = k + 1 + m := ⟨j - (k + 1), by omega⟩
        have e1 : k + 1 + m - (k + 1) = m := by omega
        have e2 : k + 1 + m - k = m + 1 := by omega
        rw [e1] at hc hp
        refine ⟨by omega, c, by rw [e2]; simpa using hc, hw, ?_⟩
        rw [if_neg (by omega), e2]
        by_cases hm : m = 0
        · subst hm
          rw [if_pos (by omega)] at hp
          exact ⟨x, by simp, by simpa using hp⟩
        · rw [if_neg (by omega)] at hp
          obtain ⟨d, hd, hdc⟩ := hp
          obtain ⟨m2, rfl⟩ : ∃ m2, m = m2 + 1 := ⟨m - 1, by omega⟩
          exact ⟨d, by simpa using hd, hdc⟩
    · rintro ⟨hk, c, hc, hw, hp⟩
      by_cases hj : j = k
      · subst hj
        left
        rw [if_pos rfl] at hp
        have hx : c = x := by simpa using hc.symm
        subst hx
        rw [if_pos ⟨hw, hp⟩]
        simp
      · right
        obtain ⟨m, rfl⟩ : ∃ m, j = k + 1 + m := ⟨j - (k + 1), by omega⟩
        have e1 : k + 1 + m - (k + 1) = m := by omega
        have e2 : k + 1 + m - k = m + 1 := by omega
        rw [if_neg hj, e2] at hp
        rw [e2] at hc
        rw [e1]
        refine ⟨by omega, c, by simpa using hc, hw, ?_⟩
        obtain ⟨d, hd, hdc⟩ := hp
        by_cases hm : m = 0
        · subst hm
          rw [if_pos (by omega)]
          have hx : d = x := by simpa using hd.symm
          subst hx
          simpa using hdc
        · rw [if_neg (by omega)]
          obtain ⟨m2, rfl⟩ : ∃ m2, m = m2 + 1 := ⟨m - 1, by omega⟩
          exact ⟨d, by simpa using hd, hdc⟩

theorem wordStartsFrom_sorted (t : CharTable) (l : List Char) :
    ∀ (prev : Option CharClass) (k : Nat),
      (wordStartsFrom t prev k l).Pairwise (fun a b => a < b) := by
  induction l with
  | nil => intro prev k; simp [wordStartsFrom]
  | cons x xs ih =>
    intro prev k
    rw [wordStartsFrom, List.pairwise_append]
    refine ⟨by split <;> simp, ih _ _, ?_⟩
    intro a ha b hb
    have hb2 := ((mem_wordStartsFrom t xs _ _ _).mp hb).1
    split at ha
    · have : a = k := by simpa using ha
      omega
    · cases ha

/-- C22. WordStarts, as the specification describes it, returns its offsets in
strictly increasing order; on a non-empty line they are exactly the offsets i
with line[i] not whitespace and i = 0 or line[i-1] of another character class;
a non-empty line of whitespace only gives the empty list, the empty line
gives [0]. -/
theorem WordStarts_spec (t : CharTable) (line : Line) :
    (WordStarts t line).Pairwise (fun a b => a < b) ∧
    (line ≠ [] → ∀ i : Int, i ∈ WordStarts t line ↔
      ∃ c, index line i = some c ∧ t.classOf c ≠ .Whitespace ∧
        (i = 0 ∨ ∃ d, index line (i - 1) = some d ∧ t.classOf d ≠ t.classOf c)) ∧
    (line ≠ [] → (∀ c ∈ line, t.classOf c = .Whitespace) → WordStarts t line = []) ∧
    WordStarts t [] = [0] := by
  have hmem : line ≠ [] → ∀ i : Int, i ∈ WordStarts t line ↔
      ∃ c, index line i = some c ∧ t.classOf c ≠ .Whitespace ∧
        (i = 0 ∨ ∃ d, index line (i - 1) = some d ∧ t.classOf d ≠ t.classOf c) := by
    intro hne i
    rw [WordStarts, if_neg hne, List.mem_map]
    constructor
    · rintro ⟨j, hj, rfl⟩
      obtain ⟨-, c, hc, hw, hp⟩ := (mem_wordStartsFrom t line none 0 j).mp hj
      simp only [Nat.sub_zero] at hc hp
      refine ⟨c, by simpa [index] using hc, hw, ?_⟩
      by_cases h0 : j = 0
      · left; simp [h0]
      · right
        rw [if_neg h0] at hp
        obtain ⟨d, hd, hdc⟩ := hp
        have e : (Int.ofNat j) - 1 = ((j - 1 : Nat) : Int) := by
          simp only [Int.ofNat_eq_coe]; omega
        exact ⟨d, by rw [e, index_natCast]; exact hd, hdc⟩
    · rintro ⟨c, hc, hw, hp⟩
      obtain ⟨h0, -⟩ := index_lt_length _ _ _ hc
      obtain ⟨j, rfl⟩ := Int.eq_ofNat_of_zero_le h0
      rw [index_natCast] at hc
      refine ⟨j, ?_, rfl⟩
      rw [mem_wordStartsFrom]
      simp only [Nat.sub_zero]
      refine ⟨Nat.zero_le _, c, hc, hw, ?_⟩
      by_cases hj : j = 0
      · rw [if_pos hj]; simp
      · rw [if_neg hj]
        rcases hp with hp | ⟨d, hd, hdc⟩
        · exact absurd (by exact_mod_cast hp) hj
        · have e : ((j : Nat) : Int) - 1 = ((j - 1 : Nat) : Int) := by omega
          rw [e, index_natCast] at hd
          exact ⟨d, hd, hdc⟩
  refine ⟨?_, hmem, ?_, by simp [WordStarts]⟩
  · unfold WordStarts
    split
    · simp
    · rw [List.pairwise_map]
      exact (wordStartsFrom_sorted t line none 0).imp (fun h => by
        simp only [Int.ofNat_eq_coe]; exact_mod_cast h)
  · intro hne hall
    rw [List.eq_nil_iff_forall_not_mem]
    intro i hi
    obtain ⟨c, hc, hw, -⟩ := (hmem hne i).mp hi
    obtain ⟨h0, -⟩ := index_lt_length _ _ _ hc
    obtain ⟨j, rfl⟩ := Int.eq_ofNat_of_zero_le h0
    rw [index_natCast] at hc
    obtain ⟨hj1, hj2⟩ := List.getElem?_eq_some_iff.mp hc
    exact hw (hall c (hj2 ▸ List.getElem_mem hj1))

/-- Witness for C22: the line of the test "Mix of alphanum, separator words". -/
theorem WordStarts_spec_witness :
    WordStarts asciiTable "this, is! a *!@&#^ test".data = [0, 4, 6, 8, 10, 12, 19] ∧
    (WordStarts asciiTable "this, is! a *!@&#^ test".data).Pairwise (fun a b => a < b) ∧
    (4 : Int) ∈ WordStarts asciiTable "this, is! a *!@&#^ test".data := by
  obtain ⟨h1, h2, -, -⟩ := WordStarts_spec asciiTable "this, is! a *!@&#^ test".data
  refine ⟨by decide, h1, (h2 (by decide) 4).mpr ⟨',', by decide, by decide, Or.inr ⟨'s', by decide, by decide⟩⟩⟩

/-! ## JumpWordForward -/

theorem runStart_zero (t : CharTable) (pw : Bool) (x : Char) (xs : List Char) :
    runStart t pw (x :: xs) 0 ↔ t.isSpace x = false ∧ pw = true := by
  simp [runStart]

theorem runStart_succ (t : CharTable) (pw : Bool) (x : Char) (xs : List Char) (q : Nat) :
    runStart t pw (x :: xs) (q + 1) ↔ runStart t (t.isSpace x) xs q := by
  unfold runStart
  simp only [List.getElem?_cons_succ, Nat.add_sub_cancel, Nat.succ_ne_zero, if_false]
  constructor
  · rintro ⟨c, hc, hw, d, hd, hdw⟩
    refine ⟨c, hc, hw, ?_⟩
    cases q with
    | zero =>
      simp only [List.getElem?_cons_zero, Option.some.injEq] at hd
      subst hd
      simpa using hdw
    | succ m =>
      rw [if_neg (by omega)]
      exact ⟨d, by simpa using hd, hdw⟩
  · rintro ⟨c, hc, hw, hp⟩
    refine ⟨c, hc, hw, ?_⟩
    cases q with
    | zero => exact ⟨x, by simp, by simpa using hp⟩
    | succ m =>
      rw [if_neg (by omega)] at hp
      obtain ⟨d, hd, hdw⟩ := hp
      exact ⟨d, by simpa using hd, hdw⟩

theorem runStart_lt_length (t : CharTable) (pw : Bool) (l : List Char) (q : Nat)
    (h : runStart t pw l q) : q < l.length := by
  obtain ⟨c, hc, -⟩ := h
  exact (List.getElem?_eq_some_iff.mp hc).1

theorem skipAfter_cons (t : CharTable) (pw : Bool) (y : Char) (zs : List Char)
    (h : ¬ (pw = true ∧ t.isSpace y = false)) :
    skipAfter t pw (y :: zs) = skipAfter t (t.isSpace y) zs := by
  cases pw <;> cases hy : t.isSpace y <;>
    simp_all [skipAfter, skipRunAndSpace, List.dropWhile_cons]

theorem skipAfter_cons_start (t : CharTable) (y : Char) (zs : List Char)
    (hy : t.isSpace y = false) : skipAfter t true (y :: zs) = y :: zs := by
  simp [skipAfter, List.dropWhile_cons, hy]

/-- The scan stops at the first run start: nothing is left exactly when the
list holds no run start, and otherwise what is left begins at the least run
start. -/
theorem skipAfter_spec (t : CharTable) (ys : List Char) :
    ∀ pw : Bool,
      (skipAfter t pw ys = [] → ∀ q, ¬ runStart t pw ys q) ∧
      (skipAfter t pw ys ≠ [] →
        (skipAfter t pw ys).length ≤ ys.length ∧
        runStart t pw ys (ys.length - (skipAfter t pw ys).length) ∧
        ∀ q, q < ys.length - (skipAfter t pw ys).length → ¬ runStart t pw ys q) := by
  induction ys with
  | nil =>
    intro pw
    refine ⟨fun _ q h => ?_, fun h => ?_⟩
    · exact absurd (runStart_lt_length t pw [] q h) (by simp)
    · exfalso; apply h; cases pw <;> simp [skipAfter, skipRunAndSpace]
  | cons y zs ih =>
    intro pw
    by_cases hs : pw = true ∧ t.isSpace y = false
    · obtain ⟨rfl, hy⟩ := hs
      rw [skipAfter_cons_start t y zs hy]
      refine ⟨fun h => (by cases h), fun _ => ⟨le_refl _, ?_, fun q hq => (by omega)⟩⟩
      rw [Nat.sub_self, runStart_zero]
      exact ⟨hy, rfl⟩
    · rw [skipAfter_cons t pw y zs hs]
      obtain ⟨ih1, ih2⟩ := ih (t.isSpace y)
      have h0 : ¬ runStart t pw (y :: zs) 0 := by
        rw [runStart_zero]
        exact fun h => hs ⟨h.2, h.1⟩
      refine ⟨fun h q => ?_, fun h => ?_⟩
      · cases q with
        | zero => exact h0
        | succ m => rw [runStart_succ]; exact ih1 h m
      · obtain ⟨hl, hr, hm⟩ := ih2 h
        have e : (y :: zs).length - (skipAfter t (t.isSpace y) zs).length
            = zs.length - (skipAfter t (t.isSpace y) zs).length + 1 := by
          simp only [List.length_cons]; omega
        refine ⟨by simp only [List.length_cons]; omega, ?_, ?_⟩
        · rw [e, runStart_succ]; exact hr
        · intro q hq
          cases q with
          | zero => exact h0
          | succ m => rw [runStart_succ]; exact hm m (by omega)

theorem skipRunAndSpace_cons (t : CharTable) (x : Char) (xs : List Char) :
    skipRunAndSpace t (x :: xs) = skipAfter t (t.isSpace x) xs := by
  cases hx : t.isSpace x <;> simp [skipAfter, skipRunAndSpace, List.dropWhile_cons, hx]

/-- A run start of a line after position `|pre|` is a run start of what
follows that position. -/
theorem runStart_append (t : CharTable) (pre : List Char) (x : Char) (xs : List Char) :
    ∀ (pw : Bool) (q : Nat),
      runStart t pw (pre ++ x :: xs) (pre.length + 1 + q) ↔ runStart t (t.isSpace x) xs q := by
  induction pre with
  | nil =>
    intro pw q
    have e : ([] : List Char).length + 1 + q = q + 1 := by simp; omega
    rw [e, List.nil_append, runStart_succ]
  | cons p pre ih =>
    intro pw q
    have e : (p :: pre).length + 1 + q = (pre.length + 1 + q) + 1 := by
      simp only [List.length_cons]; omega
    rw [e, List.cons_append, runStart_succ, ih]

theorem firstStop_spec (t : CharTable) (l : Line) :
    (∀ q, firstStop t l = some q →
      ((l = [] ∧ q = 0) ∨ runStart t true l q) ∧
      ∀ q2, q2 < q → ¬ ((l = [] ∧ q2 = 0) ∨ runStart t true l q2)) ∧
    (firstStop t l = none → ∀ q, ¬ ((l = [] ∧ q = 0) ∨ runStart t true l q)) := by
  have hsk : l.dropWhile t.isSpace = skipAfter t true l := by simp [skipAfter]
  obtain ⟨h1, h2⟩ := skipAfter_spec t l true
  unfold firstStop
  by_cases hl : l = []
  · subst hl
    simp
  · rw [if_neg hl, hsk]
    by_cases hr : skipAfter t true l = []
    · rw [if_pos hr]
      refine ⟨fun q h => (by cases h), fun _ q h => ?_⟩
      rcases h with ⟨h, -⟩ | h
      · exact hl h
      · exact h1 hr q h
    · rw [if_neg hr]
      obtain ⟨-, hs, hm⟩ := h2 hr
      refine ⟨fun q h => ?_, fun h => by cases h⟩
      simp only [Option.some.injEq] at h
      subst h
      refine ⟨Or.inr hs, fun q2 hq2 h => ?_⟩
      rcases h with ⟨h, -⟩ | h
      · exact hl h
      · exact hm q2 hq2 h

theorem IsStop_cons_zero (t : CharTable) (l : Line) (ls : List Line) (q : Nat) :
    IsStop t (l :: ls) 0 q ↔ ((l = [] ∧ q = 0) ∨ runStart t true l q) := by
  simp [IsStop]

theorem IsStop_cons_succ (t : CharTable) (l : Line) (ls : List Line) (k q : Nat) :
    IsStop t (l :: ls) (k + 1) q ↔ IsStop t ls k q := by
  simp [IsStop]

theorem IsStop_drop (t : CharTable) (lines : List Line) (n k q : Nat) :
    IsStop t (lines.drop n) k q ↔ IsStop t lines (n + k) q := by
  simp [IsStop, List.getElem?_drop]

theorem nextLineStop_spec (t : CharTable) (ls : List Line) :
    ∀ j0 : Nat,
      (∀ j q, nextLineStop t j0 ls = some (j, q) →
        ∃ k, j = j0 + k ∧ IsStop t ls k q ∧
          ∀ k2 q2, (k2 < k ∨ (k2 = k ∧ q2 < q)) → ¬ IsStop t ls k2 q2) ∧
      (nextLineStop t j0 ls = none → ∀ k q, ¬ IsStop t ls k q) := by
  induction ls with
  | nil =>
    intro j0
    refine ⟨fun j q h => (by cases h), fun _ k q h => ?_⟩
    obtain ⟨l, hl, -⟩ := h
    simp at hl
  | cons l ls ih =>
    intro j0
    obtain ⟨f1, f2⟩ := firstStop_spec t l
    rw [nextLineStop]
    cases hf : firstStop t l with
    | some q0 =>
      simp only
      obtain ⟨hs, hm⟩ := f1 q0 hf
      refine ⟨fun j q h => ?_, fun h => by cases h⟩
      simp only [Option.some.injEq, Prod.mk.injEq] at h
      obtain ⟨rfl, rfl⟩ := h
      refine ⟨0, rfl, (IsStop_cons_zero t l ls q0).mpr hs, ?_⟩
      rintro k2 q2 (hk | ⟨rfl, hq⟩)
      · omega
      · rw [IsStop_cons_zero]; exact hm q2 hq
    | none =>
      simp only
      obtain ⟨i1, i2⟩ := ih (j0 + 1)
      have hnone := f2 hf
      refine ⟨fun j q h => ?_, fun h k q => ?_⟩
      · obtain ⟨k, rfl, hs, hm⟩ := i1 j q h
        refine ⟨k + 1, by omega, (IsStop_cons_succ t l ls k q).mpr hs, ?_⟩
        intro k2 q2 hlt
        cases k2 with
        | zero => rw [IsStop_cons_zero]; exact hnone q2
        | succ m =>
          rw [IsStop_cons_succ]
          apply hm m q2
          rcases hlt with h1 | ⟨h1, h2⟩
          · left; omega
          · right; exact ⟨by omega, h2⟩
      · cases k with
        | zero => rw [IsStop_cons_zero]; exact hnone q
        | succ m => rw [IsStop_cons_succ]; exact i2 h m q

/-- The scan of the cursor line from position `P`: what it leaves begins at
the least run start after `P`, and it leaves nothing exactly when the line
has no run start after `P`. -/
theorem skip_in_line (t : CharTable) (l : List Char) (P : Nat) (hP : P ≤ l.length) :
    (skipRunAndSpace t (l.drop P) = [] → ∀ q, P < q → ¬ runStart t true l q) ∧
    (skipRunAndSpace t (l.drop P) ≠ [] →
      P < l.length - (skipRunAndSpace t (l.drop P)).length ∧
      l.length - (skipRunAndSpace t (l.drop P)).length < l.length ∧
      runStart t true l (l.length - (skipRunAndSpace t (l.drop P)).length) ∧
      ∀ q, P < q → q < l.length - (skipRunAndSpace t (l.drop P)).length →
        ¬ runStart t true l q) := by
  cases hrest : l.drop P with
  | nil =>
    have hlen : l.length ≤ P := by
      have := congrArg List.length hrest
      simp at this
      omega
    refine ⟨fun _ q hq h => ?_, fun h => ?_⟩
    · have := runStart_lt_length t true l q h
      omega
    · exact absurd (by simp [skipRunAndSpace]) h
  | cons x xs =>
    have hl : l = l.take P ++ x :: xs := by rw [← hrest, List.take_append_drop]
    have hpre : (l.take P).length = P := by simp; omega
    have hlen : l.length = P + 1 + xs.length := by
      have := congrArg List.length hl
      simp only [List.length_append, hpre, List.length_cons] at this
      omega
    rw [skipRunAndSpace_cons]
    obtain ⟨h1, h2⟩ := skipAfter_spec t xs (t.isSpace x)
    have hshift : ∀ q, runStart t true l (P + 1 + q) ↔ runStart t (t.isSpace x) xs q := by
      intro q
      have := runStart_append t (l.take P) x xs true q
      rw [hpre, ← hl] at this
      exact this
    refine ⟨fun hr q hq h => ?_, fun hr => ?_⟩
    · obtain ⟨m, rfl⟩ : ∃ m, q = P + 1 + m := ⟨q - (P + 1), by omega⟩
      exact h1 hr m ((hshift m).mp h)
    · obtain ⟨hle, hs, hm⟩ := h2 hr
      have hpos : 0 < (skipAfter t (t.isSpace x) xs).length := by
        cases hsk : skipAfter t (t.isSpace x) xs with
        | nil => exact absurd hsk hr
        | cons a as => simp
      have e : l.length - (skipAfter t (t.isSpace x) xs).length
          = P + 1 + (xs.length - (skipAfter t (t.isSpace x) xs).length) := by omega
      refine ⟨by omega, by omega, ?_, ?_⟩
      · rw [e, hshift]; exact hs
      · intro q hq1 hq2 h
        obtain ⟨m, rfl⟩ : ∃ m, q = P + 1 + m := ⟨q - (P + 1), by omega⟩
        exact hm m (by omega) ((hshift m).mp h)

theorem valid_of_getElem? (b : Buffer) (j q : Nat) (l : Line)
    (hl : b.Lines[j]? = some l) (hq : q ≤ l.length) : Cursor.Valid b ⟨j, q⟩ := by
  have hj : j < b.Lines.length := (List.getElem?_eq_some_iff.mp hl).1
  refine ⟨by simp, by simp [Buffer.Length, hj], by simp, ?_⟩
  simp only [index_natCast, hl, Option.getD_some]
  exact_mod_cast hq

theorem IsStop_valid (t : CharTable) (b : Buffer) (j q : Nat) (h : IsStop t b.Lines j q) :
    Cursor.Valid b ⟨j, q⟩ := by
  obtain ⟨l, hl, hs⟩ := h
  refine valid_of_getElem? b j q l hl ?_
  rcases hs with ⟨-, rfl⟩ | hs
  · exact Nat.zero_le _
  · exact le_of_lt (runStart_lt_length t true l q hs)

/-- C23. JumpWordForward, as the specification and the tests describe it,
from a valid cursor (L,P): the result is a valid position of the buffer; it is
the first position after the cursor, in buffer order, that begins a
whitespace-delimited run of non-whitespace characters or is position 0 of an
empty line; when no position after the cursor is such a stop, the result is
the last character of the last line (position 0 when that line is empty). -/
theorem JumpWordForward_first_stop (t : CharTable) (b : Buffer) (L P : Nat)
    (hv : Cursor.Valid b ⟨L, P⟩) :
    ∃ j q : Nat, JumpWordForward t b ⟨L, P⟩ = ((j : Int), (q : Int)) ∧
      Cursor.Valid b ⟨j, q⟩ ∧
      ((IsStop t b.Lines j q ∧ toLex (L, P) < toLex (j, q) ∧
          ∀ j2 q2, toLex (L, P) < toLex (j2, q2) → IsStop t b.Lines j2 q2 →
            toLex (j, q) ≤ toLex (j2, q2)) ∨
       ((∀ j2 q2, toLex (L, P) < toLex (j2, q2) → ¬ IsStop t b.Lines j2 q2) ∧
          j = b.Lines.length - 1 ∧
          q = (b.Lines.getD (b.Lines.length - 1) []).length - 1)) := by
  obtain ⟨l, hl, -, hp⟩ := valid_line b ⟨L, P⟩ hv
  simp only [index_natCast] at hl
  have hL : L < b.Lines.length := (List.getElem?_eq_some_iff.mp hl).1
  have hP : P ≤ l.length := by simp only at hp; exact_mod_cast hp
  have hget : b.Lines.getD L [] = l := by simp [List.getD_eq_getElem?_getD, hl]
  obtain ⟨s1, s2⟩ := skip_in_line t l P hP
  refine ⟨(jumpWordForwardFrom t b.Lines L P).1, (jumpWordForwardFrom t b.Lines L P).2,
    by simp [JumpWordForward], ?_⟩
  unfold jumpWordForwardFrom
  simp only [hget]
  by_cases hr : skipRunAndSpace t (l.drop P) = []
  · -- the cursor line is exhausted
    have hnoL : ∀ q2, P < q2 → ¬ IsStop t b.Lines L q2 := by
      intro q2 hq2 h
      obtain ⟨l2, hl2, hs⟩ := h
      rw [hl] at hl2
      cases hl2
      rcases hs with ⟨-, rfl⟩ | hs
      · omega
      · exact s1 hr q2 hq2 hs
    rw [if_neg (by simpa using hr)]
    obtain ⟨n1, n2⟩ := nextLineStop_spec t (b.Lines.drop (L + 1)) (L + 1)
    cases hn : nextLineStop t (L + 1) (b.Lines.drop (L + 1)) with
    | some s =>
      obtain ⟨j, q⟩ := s
      simp only
      obtain ⟨k, rfl, hs, hm⟩ := n1 j q hn
      rw [IsStop_drop] at hs
      refine ⟨IsStop_valid t b _ _ hs, Or.inl ⟨hs, ?_, ?_⟩⟩
      · rw [Prod.Lex.lt_iff]; left; simp only; omega
      · intro j2 q2 hafter hs2
        rw [Prod.Lex.lt_iff] at hafter
        simp only at hafter
        rw [Prod.Lex.le_iff]
        simp only
        rcases hafter with h1 | ⟨h1, h2⟩
        · obtain ⟨k2, rfl⟩ : ∃ k2, j2 = L + 1 + k2 := ⟨j2 - (L + 1), by omega⟩
          by_contra hcon
          apply hm k2 q2 _ ((IsStop_drop t b.Lines (L + 1) k2 q2).mpr hs2)
          by_cases hk : k2 < k
          · exact Or.inl hk
          · right
            constructor
            · by_contra hne
              exact hcon (Or.inl (by omega))
            · by_contra hq
              exact hcon (by
                by_cases hk2 : k2 = k
                · exact Or.inr ⟨by omega, by omega⟩
                · exact Or.inl (by omega))
        · subst h1
          exact absurd hs2 (hnoL q2 h2)
    | none =>
      simp only
      have hlast : ∃ l3, b.Lines[b.Lines.length - 1]? = some l3 :=
        ⟨b.Lines[b.Lines.length - 1], List.getElem?_eq_getElem (by omega)⟩
      obtain ⟨l3, hl3⟩ := hlast
      have hget3 : b.Lines.getD (b.Lines.length - 1) [] = l3 := by
        simp [List.getD_eq_getElem?_getD, hl3]
      refine ⟨valid_of_getElem? b _ _ l3 hl3 (by rw [hget3]; omega), Or.inr ⟨?_, trivial, trivial⟩⟩
      intro j2 q2 hafter hs2
      rw [Prod.Lex.lt_iff] at hafter
      simp only at hafter
      rcases hafter with h1 | ⟨h1, h2⟩
      · obtain ⟨k2, rfl⟩ : ∃ k2, j2 = L + 1 + k2 := ⟨j2 - (L + 1), by omega⟩
        exact n2 hn k2 q2 ((IsStop_drop t b.Lines (L + 1) k2 q2).mpr hs2)
      · subst h1
        exact hnoL q2 h2 hs2
  · -- the next run start lies on the cursor line
    obtain ⟨h1, h2, hs, hm⟩ := s2 hr
    rw [if_pos (by simpa using hr)]
    simp only
    have hstop : IsStop t b.Lines L (l.length - (skipRunAndSpace t (l.drop P)).length) :=
      ⟨l, hl, Or.inr hs⟩
    refine ⟨IsStop_valid t b _ _ hstop, Or.inl ⟨hstop, ?_, ?_⟩⟩
    · rw [Prod.Lex.lt_iff]; right; exact ⟨rfl, h1⟩
    · intro j2 q2 hafter hs2
      rw [Prod.Lex.lt_iff] at hafter
      simp only at hafter
      rw [Prod.Lex.le_iff]
      simp only
      rcases hafter with h3 | ⟨h3, h4⟩
      · exact Or.inl h3
      · subst h3
        right
        refine ⟨rfl, ?_⟩
        by_contra hlt
        obtain ⟨l2, hl2, hst⟩ := hs2
        rw [hl] at hl2
        cases hl2
        rcases hst with ⟨-, rfl⟩ | hst
        · omega
        · exact hm q2 h4 (by omega) hst

/-- Witness for C23: the cursors of `TestJumpWordForward`. -/
theorem JumpWordForward_first_stop_witness :
    [(0, 0), (0, 19), (1, 0), (2, 11), (4, 5)].map
        (fun p : Nat × Nat => JumpWordForward asciiTable testBuffer ⟨p.1, p.2⟩)
      = [(0, 5), (1, 0), (2, 2), (3, 0), (4, 8)] ∧
    ∃ j q : Nat, JumpWordForward asciiTable testBuffer ⟨(0 : Nat), (0 : Nat)⟩
        = ((j : Int), (q : Int)) ∧ Cursor.Valid testBuffer ⟨j, q⟩ := by
  obtain ⟨j, q, h, hvalid, -⟩ := JumpWordForward_first_stop asciiTable testBuffer 0 0 (by decide)
  exact ⟨by decide, j, q, h, hvalid⟩

/-! ## Storage: the rune lists are right when no two lines share an array -/

theorem getD_set_self (mem : List (List Char)) (i : Nat) (x : List Char) (h : i < mem.length) :
    (mem.set i x).getD i [] = x := by
  simp [List.getElem?_set, h]

theorem getD_set_ne (mem : List (List Char)) (i j : Nat) (x : List Char) (h : i ≠ j) :
    (mem.set i x).getD j [] = mem.getD j [] := by
  simp [List.getElem?_set, h]

theorem getD_append_left (mem : List (List Char)) (j : Nat) (x : List Char)
    (h : j < mem.length) : (mem ++ [x]).getD j [] = mem.getD j [] := by
  simp [List.getElem?_append_left h]

theorem getD_append_length (mem : List (List Char)) (x : List Char) :
    (mem ++ [x]).getD mem.length [] = x := by
  simp

/-- Reading the window enlarged by a write behind it. -/
theorem runes_writeAt (A : List Char) (off len : Nat) (elems : List Char)
    (h : off + len + elems.length ≤ A.length) :
    ((Mem.writeAt A (off + len) elems).drop off).take (len + elems.length)
      = (A.drop off).take len ++ elems := by
  unfold Mem.writeAt
  have h1 : (A.take (off + len)).length = off + len := by
    rw [List.length_take]; omega
  rw [List.append_assoc, List.drop_append_of_le_length (by omega), List.drop_take]
  have h2 : off + len - off = len := by omega
  rw [h2]
  have h3 : ((A.drop off).take len).length = len := by
    rw [List.length_take, List.length_drop]; omega
  rw [← List.append_assoc]
  exact List.take_left' (by rw [List.length_append, h3])

/-- What `append` yields: the runes of the slice followed by the new ones;
every window of another array is untouched; the result lies inside its
array, which is the array of the slice or a fresh one. -/
theorem append_spec (grow : Nat → Nat → Nat) (mem : List (List Char)) (s : Mem.Line)
    (elems : List Char) (harr : s.arr < mem.length)
    (hin : s.off + s.len ≤ (mem.getD s.arr []).length) :
    (Mem.append grow mem s elems).2.runes (Mem.append grow mem s elems).1
      = s.runes mem ++ elems ∧
    (∀ u : Mem.Line, u.arr ≠ s.arr → u.arr < mem.length →
      (Mem.append grow mem s elems).1.getD u.arr [] = mem.getD u.arr []) ∧
    (Mem.append grow mem s elems).2.arr < (Mem.append grow mem s elems).1.length ∧
    (Mem.append grow mem s elems).2.off + (Mem.append grow mem s elems).2.len
      ≤ ((Mem.append grow mem s elems).1.getD (Mem.append grow mem s elems).2.arr []).length ∧
    mem.length ≤ (Mem.append grow mem s elems).1.length ∧
    ((Mem.append grow mem s elems).2.arr = s.arr ∨
      (Mem.append grow mem s elems).2.arr = mem.length) := by
  unfold Mem.append
  by_cases hc : s.len + elems.length ≤ s.cap mem
  · rw [if_pos hc]
    have hcap : s.off + s.len + elems.length ≤ (mem.getD s.arr []).length := by
      unfold Mem.Line.cap at hc; omega
    refine ⟨?_, ?_, ?_, ?_, ?_, Or.inl rfl⟩
    · simp only [Mem.Line.runes]
      rw [getD_set_self mem _ _ harr]
      exact runes_writeAt _ _ _ _ hcap
    · intro u hu _
      exact getD_set_ne mem _ _ _ (fun h => hu h.symm)
    · simpa using harr
    · simp only
      rw [getD_set_self mem _ _ harr]
      simp only [Mem.writeAt, List.length_append, List.length_take, List.length_drop]
      omega
    · simp
  · rw [if_neg hc]
    have hlen : (s.runes mem).length = s.len := by
      simp only [Mem.Line.runes, List.length_take, List.length_drop]; omega
    refine ⟨?_, ?_, ?_, ?_, ?_, Or.inr rfl⟩
    · simp only [Mem.Line.runes]
      rw [getD_append_length]
      simp only [List.drop_zero]
      exact List.take_left' rfl
    · intro u _ hu
      exact getD_append_left mem _ _ hu
    · simp
    · simp only
      rw [getD_append_length]
      simp only [List.length_append, List.length_replicate]
      omega
    · simp

theorem writeAt_length (A : List Char) (k : Nat) (elems : List Char)
    (h : k + elems.length ≤ A.length) : (Mem.writeAt A k elems).length = A.length := by
  simp only [Mem.writeAt, List.length_append, List.length_take, List.length_drop]
  omega

theorem append_lengths (grow : Nat → Nat → Nat) (mem : List (List Char)) (s : Mem.Line)
    (elems : List Char) (harr : s.arr < mem.length)
    (hin : s.off + s.len ≤ (mem.getD s.arr []).length) (j : Nat) (hj : j < mem.length) :
    ((Mem.append grow mem s elems).1.getD j []).length = (mem.getD j []).length := by
  unfold Mem.append
  by_cases hc : s.len + elems.length ≤ s.cap mem
  · rw [if_pos hc]
    by_cases hjs : s.arr = j
    · subst hjs
      simp only
      rw [getD_set_self mem _ _ harr]
      apply writeAt_length
      unfold Mem.Line.cap at hc
      omega
    · exact congrArg List.length (getD_set_ne mem _ _ _ hjs)
  · rw [if_neg hc]
    exact congrArg List.length (getD_append_left mem _ _ hj)

theorem runes_length (mem : List (List Char)) (s : Mem.Line)
    (h : s.off + s.len ≤ (mem.getD s.arr []).length) : (s.runes mem).length = s.len := by
  simp only [Mem.Line.runes, List.length_take, List.length_drop]
  omega

theorem runes_sliceTo (mem : List (List Char)) (s : Mem.Line) (k : Nat) (hk : k ≤ s.len) :
    (⟨s.arr, s.off, k⟩ : Mem.Line).runes mem = (s.runes mem).take k := by
  simp only [Mem.Line.runes, List.take_take, Nat.min_eq_left hk]

theorem runes_sliceFrom (mem : List (List Char)) (s : Mem.Line) (k : Nat) :
    (⟨s.arr, s.off + k, s.len - k⟩ : Mem.Line).runes mem = (s.runes mem).drop k := by
  simp only [Mem.Line.runes]
  rw [List.drop_take, List.drop_drop]

theorem separate_iff (b : Mem.Buffer) :
    b.Separate ↔ ∀ (i j : Nat) (u v : Mem.Line),
      b.Lines[i]? = some u → b.Lines[j]? = some v → i ≠ j → u.arr ≠ v.arr := by
  unfold Mem.Buffer.Separate
  rw [List.pairwise_iff_getElem]
  constructor
  · intro h i j u v hu hv hij
    obtain ⟨hi, rfl⟩ := List.getElem?_eq_some_iff.mp hu
    obtain ⟨hj, rfl⟩ := List.getElem?_eq_some_iff.mp hv
    rcases Nat.lt_or_gt_of_ne hij with hlt | hgt
    · exact h i j hi hj hlt
    · exact fun e => h j i hj hi hgt e.symm
  · intro h i j hi hj hlt
    exact h i j _ _ (List.getElem?_eq_getElem hi) (List.getElem?_eq_getElem hj) (Nat.ne_of_lt hlt)

theorem mem_of_getElem? {α : Type} (l : List α) (n : Nat) (x : α) (h : l[n]? = some x) :
    x ∈ l := by
  obtain ⟨h1, h2⟩ := List.getElem?_eq_some_iff.mp h
  exact h2 ▸ List.getElem_mem h1

/-- What a successful edit of one line is, on rune lists. -/
theorem editLine_eq_some (extra : List Char) (k1 k2 : Int) (b : Ovim.Buffer) (lineNo : Int)
    (v : Ovim.Buffer) (h : Buffer.editLine extra k1 k2 b lineNo = some v) :
    ∃ (n a c : Nat) (l : Line), lineNo = n ∧ k1 = a ∧ k2 = c ∧ b.Lines[n]? = some l ∧
      a ≤ l.length ∧ c ≤ l.length ∧
      v = ⟨b.Lines.set n (l.take a ++ (extra ++ l.drop c))⟩ := by
  unfold Buffer.editLine at h
  cases hl : index b.Lines lineNo with
  | none => simp [hl] at h
  | some l =>
    obtain ⟨h0, hlt⟩ := index_lt_length _ _ _ hl
    obtain ⟨n, rfl⟩ := Int.eq_ofNat_of_zero_le h0
    rw [index_natCast] at hl
    by_cases hk1 : 0 ≤ k1 ∧ k1 ≤ (l.length : Int)
    · by_cases hk2 : 0 ≤ k2 ∧ k2 ≤ (l.length : Int)
      · obtain ⟨a, rfl⟩ := Int.eq_ofNat_of_zero_le hk1.1
        obtain ⟨c, rfl⟩ := Int.eq_ofNat_of_zero_le hk2.1
        have ha : a ≤ l.length := by omega
        have hc : c ≤ l.length := by omega
        have hn : n < b.Lines.length := by omega
        refine ⟨n, a, c, l, rfl, rfl, rfl, hl, ha, hc, ?_⟩
        simp [index_natCast, hl, sliceTo, sliceFrom, store, ha, hc, hn] at h
        exact h.symm
      · simp [index_natCast, hl, sliceTo, sliceFrom, hk1, hk2] at h
    · simp [index_natCast, hl, sliceTo, hk1] at h

/-- The storage edit of one line at a line that exists, with bounds inside
the line. -/
theorem mem_editLine_eq (grow : Nat → Nat → Nat) (extra : List Char) (b : Mem.Buffer)
    (n a c : Nat) (s : Mem.Line) (hs : b.Lines[n]? = some s) (ha : a ≤ s.len) (hc : c ≤ s.len)
    (hin : s.off + s.len ≤ (b.mem.getD s.arr []).length) :
    Mem.Buffer.editLine grow extra a c b n
      = some ⟨(Mem.append grow b.mem ⟨s.arr, s.off, a⟩
                (extra ++ (⟨s.arr, s.off + c, s.len - c⟩ : Mem.Line).runes b.mem)).1,
              b.Lines.set n (Mem.append grow b.mem ⟨s.arr, s.off, a⟩
                (extra ++ (⟨s.arr, s.off + c, s.len - c⟩ : Mem.Line).runes b.mem)).2⟩ := by
  have hn : n < b.Lines.length := (List.getElem?_eq_some_iff.mp hs).1
  have hcap : a ≤ s.cap b.mem := by unfold Mem.Line.cap; omega
  unfold Mem.Buffer.editLine
  simp [index_natCast, hs, Mem.Line.sliceTo, Mem.Line.sliceFrom, store, hcap, hc, hn]

/-- One edit of a line on the storage does what the edit on rune lists does,
when no two lines share an array. -/
theorem editLine_sim (grow : Nat → Nat → Nat) (extra : List Char) (k1 k2 : Int)
    (b : Mem.Buffer) (lineNo : Int) (v : Ovim.Buffer) (hwf : b.WF) (hsep : b.Separate)
    (h : Buffer.editLine extra k1 k2 b.view lineNo = some v) :
    ∃ b2, Mem.Buffer.editLine grow extra k1 k2 b lineNo = some b2 ∧ b2.view = v ∧
      b2.WF ∧ b2.Separate := by
  obtain ⟨n, a, c, l, rfl, rfl, rfl, hl, ha, hc, rfl⟩ := editLine_eq_some _ _ _ _ _ _ h
  simp only [Mem.Buffer.view, List.getElem?_map, Option.map_eq_some'] at hl
  obtain ⟨s, hs, rfl⟩ := hl
  obtain ⟨harr, hin⟩ := hwf s (mem_of_getElem? _ _ _ hs)
  rw [runes_length _ _ hin] at ha hc
  have hn : n < b.Lines.length := (List.getElem?_eq_some_iff.mp hs).1
  have hpin : s.off + a ≤ (b.mem.getD s.arr []).length := by omega
  obtain ⟨hrun, hother, hrarr, hrin, hmono, hwhere⟩ := append_spec grow b.mem ⟨s.arr, s.off, a⟩
    (extra ++ (⟨s.arr, s.off + c, s.len - c⟩ : Mem.Line).runes b.mem) harr hpin
  have hlens := append_lengths grow b.mem ⟨s.arr, s.off, a⟩
    (extra ++ (⟨s.arr, s.off + c, s.len - c⟩ : Mem.Line).runes b.mem) harr hpin
  rw [mem_editLine_eq grow extra b n a c s hs ha hc hin]
  generalize Mem.append grow b.mem ⟨s.arr, s.off, a⟩
    (extra ++ (⟨s.arr, s.off + c, s.len - c⟩ : Mem.Line).runes b.mem) = res at *
  rw [runes_sliceTo _ _ _ ha, runes_sliceFrom] at hrun
  have hsep2 := (separate_iff b).mp hsep
  refine ⟨_, rfl, ?_, ?_, ?_⟩
  · -- the view
    simp only [Mem.Buffer.view]
    congr 1
    apply List.ext_getElem?
    intro j
    rw [List.getElem?_map, List.getElem?_set, List.getElem?_set, List.length_map]
    by_cases hnj : n = j
    · subst hnj
      simp only [if_true, hn, Option.map_some', hrun]
    · simp only [if_neg hnj, List.getElem?_map]
      cases huj : b.Lines[j]? with
      | none => rfl
      | some u =>
        simp only [Option.map_some', Mem.Line.runes]
        rw [hother u (hsep2 j n u s huj hs (fun e => hnj e.symm))
          (hwf u (mem_of_getElem? _ _ _ huj)).1]
  · -- every header lies inside its array
    intro u hu
    rcases List.mem_or_eq_of_mem_set hu with hu | rfl
    · obtain ⟨h1, h2⟩ := hwf u hu
      have h3 : u.arr < res.1.length := by omega
      exact ⟨h3, by show _ ≤ (res.1.getD u.arr []).length; rw [hlens u.arr h1]; exact h2⟩
    · exact ⟨hrarr, hrin⟩
  · -- no two lines share an array
    rw [separate_iff]
    intro i j u v hu hv hij
    simp only [List.getElem?_set] at hu hv
    have key : ∀ w : Mem.Line, ∀ m : Nat, b.Lines[m]? = some w → n ≠ m → res.2.arr ≠ w.arr := by
      intro w m hw hm e
      have h1 := (hwf w (mem_of_getElem? _ _ _ hw)).1
      rcases hwhere with h2 | h2
      · exact hsep2 n m s w hs hw hm (by rw [← e, h2])
      · omega
    by_cases hi : n = i
    · subst hi
      rw [if_pos rfl, if_pos hn] at hu
      cases hu
      rw [if_neg hij] at hv
      exact key v j hv hij
    · rw [if_neg hi] at hu
      by_cases hj : n = j
      · subst hj
        rw [if_pos rfl, if_pos hn] at hv
        cases hv
        exact fun e => key u i hu hi e.symm
      · rw [if_neg hj] at hv
        exact hsep2 i j u v hu hv hij

/-- A loop over the cursors on the storage does what the loop on rune lists
does, when each step does. -/
theorem foldlM_sim (stepM : Mem.Buffer → Cursor → Option Mem.Buffer)
    (stepV : Ovim.Buffer → Cursor → Option Ovim.Buffer)
    (hstep : ∀ (b : Mem.Buffer) (c : Cursor) (v : Ovim.Buffer), b.WF → b.Separate →
      stepV b.view c = some v →
      ∃ b2, stepM b c = some b2 ∧ b2.view = v ∧ b2.WF ∧ b2.Separate)
    (cs : List Cursor) :
    ∀ (b : Mem.Buffer) (v : Ovim.Buffer), b.WF → b.Separate →
      cs.foldlM stepV b.view = some v →
      ∃ b2, cs.foldlM stepM b = some b2 ∧ b2.view = v ∧ b2.WF ∧ b2.Separate := by
  induction cs with
  | nil =>
    intro b v hwf hsep h
    simp only [List.foldlM_nil] at h
    cases h
    exact ⟨b, rfl, rfl, hwf, hsep⟩
  | cons c cs ih =>
    intro b v hwf hsep h
    rw [List.foldlM_cons] at h
    cases h1 : stepV b.view c with
    | none => rw [h1] at h; cases h
    | some v1 =>
      rw [h1] at h
      obtain ⟨b1, hb1, hv1, hwf1, hsep1⟩ := hstep b c v1 hwf hsep h1
      subst hv1
      obtain ⟨b2, hb2, hv2, hwf2, hsep2⟩ := ih b1 v hwf1 hsep1 h
      exact ⟨b2, by rw [List.foldlM_cons, hb1]; exact hb2, hv2, hwf2, hsep2⟩

theorem putRuneAt_editLine (r : Char) (b : Ovim.Buffer) (c : Cursor) :
    Buffer.putRuneAt r b c = Buffer.editLine [r] c.Pos c.Pos b c.Line := rfl

theorem mem_putRuneAt_editLine (grow : Nat → Nat → Nat) (r : Char) (b : Mem.Buffer)
    (c : Cursor) :
    Mem.Buffer.putRuneAt grow r b c = Mem.Buffer.editLine grow [r] c.Pos c.Pos b c.Line := rfl

theorem removeRuneBefore_editLine (b : Ovim.Buffer) (c : Cursor) :
    Buffer.removeRuneBefore b c
      = if c.Pos > 0 then Buffer.editLine [] (c.Pos - 1) c.Pos b c.Line else some b := rfl

theorem mem_removeRuneBefore_editLine (grow : Nat → Nat → Nat) (b : Mem.Buffer) (c : Cursor) :
    Mem.Buffer.removeRuneBefore grow b c
      = if c.Pos > 0 then Mem.Buffer.editLine grow [] (c.Pos - 1) c.Pos b c.Line
        else some b := rfl

theorem PutRuneAtCursors_sim (grow : Nat → Nat → Nat) (b : Mem.Buffer) (cs : Cursors)
    (r : Char) (v : Ovim.Buffer) (hwf : b.WF) (hsep : b.Separate)
    (h : b.view.PutRuneAtCursors cs r = some v) :
    ∃ b2, Mem.Buffer.PutRuneAtCursors grow b cs r = some b2 ∧ b2.view = v ∧
      b2.WF ∧ b2.Separate :=
  foldlM_sim (Mem.Buffer.putRuneAt grow r) (Buffer.putRuneAt r)
    (fun b c v hwf hsep h => editLine_sim grow [r] c.Pos c.Pos b c.Line v hwf hsep h)
    cs b v hwf hsep h

theorem RemoveRuneBeforeCursors_sim (grow : Nat → Nat → Nat) (b : Mem.Buffer) (cs : Cursors)
    (v : Ovim.Buffer) (hwf : b.WF) (hsep : b.Separate)
    (h : b.view.RemoveRuneBeforeCursors cs = some v) :
    ∃ b2, Mem.Buffer.RemoveRuneBeforeCursors grow b cs = some b2 ∧ b2.view = v ∧
      b2.WF ∧ b2.Separate := by
  refine foldlM_sim (Mem.Buffer.removeRuneBefore grow) Buffer.removeRuneBefore ?_
    cs b v hwf hsep h
  intro b c v hwf hsep h
  rw [removeRuneBefore_editLine] at h
  rw [mem_removeRuneBefore_editLine]
  by_cases hp : c.Pos > 0
  · rw [if_pos hp] at h ⊢
    exact editLine_sim grow [] (c.Pos - 1) c.Pos b c.Line v hwf hsep h
  · rw [if_neg hp] at h ⊢
    cases h
    exact ⟨b, rfl, rfl, hwf, hsep⟩

/-! ## PutRuneAtCursors on the storage -/

/-- C2, the claim as stated, fails. The line "abc" in an array of its own, the
two valid cursors (0,1) and (0,2) in this order: PutRuneAtCursors yields
"a__bc", since the second insertion is made at index 2 of the line already
changed by the first, while the claim requires "a_b_c", one rune before each
of the original indices 1 and 2. -/
theorem PutRuneAtCursors_ascending_counterexample :
    (Mem.Buffer.ofLines ["abc".data]).WF ∧ (Mem.Buffer.ofLines ["abc".data]).Separate ∧
    (∀ c ∈ ([⟨0, 1⟩, ⟨0, 2⟩] : Cursors), c.Valid (Mem.Buffer.ofLines ["abc".data]).view) ∧
    ((Mem.Buffer.ofLines ["abc".data]).PutRuneAtCursors growDouble [⟨0, 1⟩, ⟨0, 2⟩] '_').map
      (fun b => b.view.Lines) = some ["a__bc".data] ∧
    PutRuneSpec '_' [⟨0, 1⟩, ⟨0, 2⟩] (Mem.Buffer.ofLines ["abc".data]).view.Lines
      = ["a_b_c".data] ∧
    ((Mem.Buffer.ofLines ["abc".data]).PutRuneAtCursors growDouble [⟨0, 1⟩, ⟨0, 2⟩] '_').map
      (fun b => b.view.Lines)
      ≠ some (PutRuneSpec '_' [⟨0, 1⟩, ⟨0, 2⟩] (Mem.Buffer.ofLines ["abc".data]).view.Lines) := by
  refine ⟨by decide, by decide, by decide, by decide, by decide, by decide⟩

/-- C2, amended. For every buffer whose lines share no backing array, every
growth policy of `append`, and every list of valid cursors in which the
cursors of one line are listed in strictly descending position (several
cursors may stand on one line), PutRuneAtCursors completes, keeps the number
of lines, and yields the buffer the claim describes: each line is the original
line with one r immediately before each original index at which a cursor of
that line stands, so lines without a cursor are unchanged; the lines of the
result again share no array. The cursor list is an input only: the function
reads it and returns no cursor. -/
theorem PutRuneAtCursors_descending_ownStorage (g : Nat → Nat → Nat) (b : Mem.Buffer)
    (cs : Cursors) (r : Char) (hwf : b.WF) (hsep : b.Separate) (hvalid : ∀ c ∈ cs, c.Valid b.view)
    (hdesc : cs.Pairwise (fun c d => c.Line = d.Line → d.Pos < c.Pos)) :
    ∃ b2, Mem.Buffer.PutRuneAtCursors g b cs r = some b2 ∧
      b2.view.Length = b.view.Length ∧
      b2.view.Lines = PutRuneSpec r cs b.view.Lines ∧
      (∀ j : Int, (∀ c ∈ cs, c.Line ≠ j) → index b2.view.Lines j = index b.view.Lines j) ∧
      b2.WF ∧ b2.Separate := by
  obtain ⟨v, hv, hspec⟩ := PutRuneAtCursors_descending r cs b.view hvalid hdesc
  obtain ⟨b2, hb2, rfl, hwf2, hsep2⟩ := PutRuneAtCursors_sim g b cs r v hwf hsep hv
  refine ⟨b2, hb2, ?_, hspec, ?_, hwf2, hsep2⟩
  · simp only [Buffer.Length, hspec, PutRuneSpec_length]
  · intro j hj
    rw [hspec]
    exact PutRuneSpec_frame r cs _ j hj

/-- Witness for the amended C2: cursors (0,2), (1,0), (0,1) on "abc", "de". -/
theorem PutRuneAtCursors_descending_ownStorage_witness :
    ∃ b2, Mem.Buffer.PutRuneAtCursors growDouble (Mem.Buffer.ofLines ["abc".data, "de".data])
        [⟨0, 2⟩, ⟨1, 0⟩, ⟨0, 1⟩] '_' = some b2 ∧
      b2.view.Lines = ["a_b_c".data, "_de".data] := by
  obtain ⟨b2, h, -, hs, -, -, -⟩ := PutRuneAtCursors_descending_ownStorage growDouble
    (Mem.Buffer.ofLines ["abc".data, "de".data]) [⟨0, 2⟩, ⟨1, 0⟩, ⟨0, 1⟩] '_'
    (by decide) (by decide) (by decide) (by decide)
  refine ⟨b2, h, ?_⟩
  rw [hs]
  decide

/-! ## RemoveRuneBeforeCursors on the storage -/

/-- C3, evaluated on the code. The line "abcd" is split at (0,2): "ab" and
"cd" are windows of one array, and "ab" keeps the capacity of the whole line.
PutRuneAtCursors of X at (0,2) writes X into that array in place: the lines
read "abX", "Xd", line 0 being the window [0,3) and line 1 the window [2,4).
RemoveRuneBeforeCursors with the single valid cursor (1,1) then moves d onto
index 2 of the array, and the lines read "abd", "d": line 0, on which no
cursor stands, is changed, where the claim says it is left unchanged.  This
holds for every growth policy, no step allocates. -/
theorem RemoveRuneBeforeCursors_sharedStorage (g : Nat → Nat → Nat) :
    splitBuffer = some ⟨["abcd".data], [⟨0, 0, 2⟩, ⟨0, 2, 2⟩]⟩ ∧
    Mem.Buffer.PutRuneAtCursors g ⟨["abcd".data], [⟨0, 0, 2⟩, ⟨0, 2, 2⟩]⟩ [⟨0, 2⟩] 'X'
      = some ⟨["abXd".data], [⟨0, 0, 3⟩, ⟨0, 2, 2⟩]⟩ ∧
    (⟨["abXd".data], [⟨0, 0, 3⟩, ⟨0, 2, 2⟩]⟩ : Mem.Buffer).view = ⟨["abX".data, "Xd".data]⟩ ∧
    (⟨1, 1⟩ : Cursor).Valid ⟨["abX".data, "Xd".data]⟩ ∧
    (Mem.Buffer.RemoveRuneBeforeCursors g ⟨["abXd".data], [⟨0, 0, 3⟩, ⟨0, 2, 2⟩]⟩
      [⟨1, 1⟩]).map Mem.Buffer.view = some ⟨["abd".data, "d".data]⟩ := by
  refine ⟨by decide, rfl, by decide, by decide, rfl⟩

/-- On buffers whose lines share no backing array: for valid cursors on
pairwise distinct lines RemoveRuneBeforeCursors succeeds and keeps the number
of lines, leaves the line of a cursor at column 0 unchanged, replaces the line
of a cursor (L, P) with P > 0 by the original line without its rune at index
P - 1, leaves every line without a cursor unchanged, and the lines of the
result again share no array. -/
theorem RemoveRuneBeforeCursors_ownStorage (g : Nat → Nat → Nat) (b : Mem.Buffer)
    (cs : Cursors) (hwf : b.WF) (hsep : b.Separate) (hvalid : ∀ c ∈ cs, c.Valid b.view)
    (hdistinct : cs.Pairwise (fun c d => c.Line ≠ d.Line)) :
    ∃ b2, Mem.Buffer.RemoveRuneBeforeCursors g b cs = some b2 ∧
      b2.view.Length = b.view.Length ∧
      (∀ c ∈ cs, c.Pos = 0 → index b2.view.Lines c.Line = index b.view.Lines c.Line) ∧
      (∀ c ∈ cs, 0 < c.Pos → ∀ l, index b.view.Lines c.Line = some l →
          index b2.view.Lines c.Line = some (l.eraseIdx (c.Pos - 1).toNat)) ∧
      (∀ j : Int, (∀ c ∈ cs, c.Line ≠ j) → index b2.view.Lines j = index b.view.Lines j) ∧
      b2.WF ∧ b2.Separate := by
  obtain ⟨v, hv, h1, h2, h3, h4⟩ := RemoveRuneBeforeCursors_distinctLines b.view cs hvalid
    hdistinct
  obtain ⟨b2, hb2, rfl, hwf2, hsep2⟩ := RemoveRuneBeforeCursors_sim g b cs v hwf hsep hv
  exact ⟨b2, hb2, h1, h2, h3, h4, hwf2, hsep2⟩

/-- Two coinciding cursors at the end of "abc", on the storage: the second
removal slices the two-rune line from index 3 and fails, as on rune lists. -/
theorem RemoveRuneBeforeCursors_sameLine_storage (g : Nat → Nat → Nat) :
    Mem.Buffer.RemoveRuneBeforeCursors g (Mem.Buffer.ofLines ["abc".data]) [⟨0, 3⟩, ⟨0, 3⟩]
      = none := rfl

/-! ## Typing and Backspace in the basic emulation -/

/-- On rune lists: inserting a rune at a valid cursor, moving right, removing
the rune before the cursor and moving left gives back the buffer and the
cursor. -/
theorem type_backspace_runes (b : Ovim.Buffer) (c : Cursor) (r : Char) (hv : c.Valid b) :
    ∃ v1, b.PutRuneAtCursors [c] r = some v1 ∧
      Move v1 c .CursorRight = some ⟨c.Line, c.Pos + 1⟩ ∧
      (index v1.Lines c.Line).map (fun l => index l c.Pos) = some (some r) ∧
      v1.RemoveRuneBeforeCursors [⟨c.Line, c.Pos + 1⟩] = some b ∧
      Move b ⟨c.Line, c.Pos + 1⟩ .CursorLeft = some c := by
  obtain ⟨l, hl, hp0, hp⟩ := valid_line b c hv
  obtain ⟨h0, hlt⟩ := index_lt_length _ _ _ hl
  obtain ⟨n, hn⟩ := Int.eq_ofNat_of_zero_le h0
  obtain ⟨p, hpn⟩ := Int.eq_ofNat_of_zero_le hp0
  have hn' : n < b.Lines.length := by omega
  have hp' : p ≤ l.length := by omega
  have hl' : b.Lines[n]? = some l := by rw [← index_natCast, ← hn]; exact hl
  obtain ⟨lines⟩ := b
  simp only at hl hn' hl' hv
  obtain ⟨cl, cp⟩ := c
  simp only at hn hpn hl
  subst hn
  subst hpn
  have hput := putRuneAt_eq r ⟨lines⟩ ⟨n, p⟩ n l rfl hl' ⟨by simp, by simpa using hp'⟩
  simp only [Int.toNat_ofNat] at hput
  have hl1 : (lines.set n (l.take p ++ r :: l.drop p))[n]? = some (l.take p ++ r :: l.drop p) := by
    simp [hn']
  have hlen1 : ((l.take p ++ r :: l.drop p).length : Int) = l.length + 1 := by
    simp only [List.length_append, List.length_take, List.length_cons, List.length_drop]
    push_cast
    omega
  have hmoveR : Move ⟨lines.set n (l.take p ++ r :: l.drop p)⟩ ⟨n, p⟩ .CursorRight
      = some ⟨n, (p : Int) + 1⟩ := by
    have := lineLen_of_index ⟨lines.set n (l.take p ++ r :: l.drop p)⟩ (n : Int) _
      (by rw [index_natCast]; exact hl1)
    simp only [Move, this, hlen1, Option.bind_eq_bind, Option.some_bind]
    rw [if_pos (by omega)]
    rfl
  have hrem := removeRuneBefore_eq ⟨lines.set n (l.take p ++ r :: l.drop p)⟩ ⟨n, (p : Int) + 1⟩
    n _ rfl hl1 ⟨by simp; omega, by simp only; rw [hlen1]; omega⟩
  have e1 : ((p : Int) + 1 - 1).toNat = p := by omega
  have e2 : ((p : Int) + 1).toNat = p + 1 := by omega
  have hback : (l.take p ++ r :: l.drop p).take p ++ (l.take p ++ r :: l.drop p).drop (p + 1)
      = l := by
    have ht : (l.take p).length = p := by simp; omega
    rw [List.take_left' ht]
    have : (l.take p ++ r :: l.drop p).drop (p + 1) = l.drop p := by
      rw [List.drop_append_eq_append_drop, ht]
      simp [List.drop_eq_nil_of_le (show (l.take p).length ≤ p + 1 by omega)]
    rw [this, List.take_append_drop]
  simp only [gt_iff_lt, show (0 : Int) < (p : Int) + 1 by omega, if_true, e1, e2, hback,
    List.set_set] at hrem
  rw [set_self_of_getElem? lines n l hl'] at hrem
  have hmoveL : Move ⟨lines⟩ ⟨n, (p : Int) + 1⟩ .CursorLeft = some ⟨n, p⟩ := by
    simp only [Move]
    rw [if_pos (by omega)]
    simp
  refine ⟨_, by simp [Buffer.PutRuneAtCursors, hput], hmoveR, ?_,
    by simp [Buffer.RemoveRuneBeforeCursors, hrem], hmoveL⟩
  simp only [index_natCast, hl1, Option.map_some', Option.some.injEq]
  rw [List.getElem?_append_right (by simp)]
  have hmin : min p l.length = p := min_eq_left hp'
  simp [hmin]

/-- C28, evaluated on the code. The line "abcd" is split at (0,2), as Enter
does, and the cursor stands at (0,2), the end of "ab", which is valid. Typing
X puts X in place into the array both lines share: the lines read "abX", "Xd"
and the cursor is (0,3). Backspace then gives the lines "ab", "Xd" with the
cursor back at (0,2): the cursor is restored, the buffer is not, line 1 reads
"Xd" where the claim requires the original "cd".  This holds for every growth
policy, no step allocates. -/
theorem Basic_type_backspace_sharedStorage (g : Nat → Nat → Nat) :
    splitBuffer = some ⟨["abcd".data], [⟨0, 0, 2⟩, ⟨0, 2, 2⟩]⟩ ∧
    (⟨["abcd".data], [⟨0, 0, 2⟩, ⟨0, 2, 2⟩]⟩ : Mem.Buffer).view = ⟨["ab".data, "cd".data]⟩ ∧
    (⟨0, 2⟩ : Cursor).Valid ⟨["ab".data, "cd".data]⟩ ∧
    (Basic.HandleCharacter g ⟨⟨["abcd".data], [⟨0, 0, 2⟩, ⟨0, 2, 2⟩]⟩, [⟨0, 2⟩]⟩ 'X').map
      (fun e => (e.Buffer.view.Lines, e.Cursors))
      = some (["abX".data, "Xd".data], [⟨0, 3⟩]) ∧
    ((Basic.HandleCharacter g ⟨⟨["abcd".data], [⟨0, 0, 2⟩, ⟨0, 2, 2⟩]⟩, [⟨0, 2⟩]⟩ 'X').bind
      (Basic.Backspace g)).map (fun e => (e.Buffer.view.Lines, e.Cursors))
      = some (["ab".data, "Xd".data], [⟨0, 2⟩]) := by
  refine ⟨by decide, by decide, by decide, rfl, rfl⟩

/-- On buffers whose lines share no backing array, with one valid cursor
(L,P): typing a rune and pressing Backspace both succeed; after the typing
step the line holds r at index P and the cursor is (L,P+1); after Backspace
the lines and the cursor are the original ones, and the lines again share no
array. -/
theorem Basic_type_backspace_ownStorage (g : Nat → Nat → Nat) (e : Mem.Editor) (c : Cursor)
    (r : Char) (hc : e.Cursors = [c]) (hv : c.Valid e.Buffer.view)
    (hwf : e.Buffer.WF) (hsep : e.Buffer.Separate) :
    ∃ e1 e2, Basic.HandleCharacter g e r = some e1 ∧
      e1.Cursors = [⟨c.Line, c.Pos + 1⟩] ∧
      (index e1.Buffer.view.Lines c.Line).map (fun l => index l c.Pos) = some (some r) ∧
      Basic.Backspace g e1 = some e2 ∧
      e2.Buffer.view = e.Buffer.view ∧ e2.Cursors = e.Cursors ∧
      e2.Buffer.WF ∧ e2.Buffer.Separate := by
  obtain ⟨b, cs⟩ := e
  simp only at hc hv hwf hsep
  subst hc
  obtain ⟨v1, hput, hmr, hat, hrem, hml⟩ := type_backspace_runes b.view c r hv
  obtain ⟨b1, hb1, rfl, hwf1, hsep1⟩ := PutRuneAtCursors_sim g b [c] r v1 hwf hsep hput
  obtain ⟨b2, hb2, hv2, hwf2, hsep2⟩ := RemoveRuneBeforeCursors_sim g b1
    [⟨c.Line, c.Pos + 1⟩] b.view hwf1 hsep1 hrem
  refine ⟨⟨b1, [⟨c.Line, c.Pos + 1⟩]⟩, ⟨b2, [c]⟩, ?_, rfl, hat, ?_, hv2, rfl, hwf2, hsep2⟩
  · simp [Basic.HandleCharacter, hb1, Cursors.Move, hmr]
  · simp [Basic.Backspace, hb2, Cursors.Move, hv2, hml]

end Ovim
